import Mathlib

/-!
# Advent of Code 2022: shallow embeddings and their verification

The file embeds the parts of the repository that the statements below are about and
proves or refutes each statement on the embedding. All definitions come first (one
namespace per source file), the theorems follow.

* `Day12`: `src/day12/day12.hpp`, the hill-climbing path search (`class HillClimber`).
* `Day04`: `src/day04/day04_01.cpp`, `struct Range`.
* `Utils`: `src/utils/utils.hpp`, `utils::Heap` and `utils::split`; with it the part of
  `src/day11/monkey.hpp` that uses the heap.
* `Day07`: `src/day07/day07.hpp`, the directory tree and its two queries.
* `Day13`: `src/day13/day13.hpp`, the comparison of packets.
* `Day06`: `src/day06/day06_01_02.cpp`, `class Queue` and the search for the marker.
* `Day08`: `src/day08/day08.hpp`, the count of the visible trees of `class TreeCover`.

Conventions of the embeddings.

* `Coordinate = std::pair<size_t, size_t>` is `Nat × Nat`; `.1` is `first`
  (the column `x`), `.2` is `second` (the row `y`).
* A `std::stack<Coordinate>` is a list whose head is the top of the stack.
* `std::map<Coordinate, V>` is a finite partial function `Coordinate → Option V`;
  `m[k]` for reading is `(m k).getD default`, `m.find(k) != m.end()` is `(m k).isSome`.
* Signed `int` arithmetic is done in `Int`. Signed overflow is undefined behaviour and is
  not modelled: the statements about `Day12` concern runs in which the sums of elevation
  costs stay below `2^31`, which holds on every grid of fewer than `2^31 / 26` cells.
* Unsigned arithmetic wraps: `size_t` modulo `2^64`, `unsigned int` modulo `2^32`,
  `unsigned long long` modulo `2^64`.
* A `std::string` is a `List Char`.
* A function that can throw or read out of range returns `Except _ _`.
-/

namespace Day12

/-- Type alias of the source: `std::pair<size_t, size_t>`, `(first, second) = (column, row)`. -/
abbrev Coordinate := Nat × Nat

/-- Ways in which a call can fail to return a value. -/
inductive Fault where
  /-- The exception `std::out_of_range`, thrown by `std::string::at`. -/
  | out_of_range
  /-- A read through `std::vector::operator[]` past the end: undefined behaviour. -/
  | undefined
  /-- The step budget of a loop of the embedding ran out (no counterpart in the program). -/
  | out_of_fuel
  deriving DecidableEq, Repr

deriving instance DecidableEq for Except

/-- The data members of `class HillClimber`. -/
structure HillClimber where
  map : List (List Char)
  width : Nat
  height : Nat
  start : Coordinate
  end_ : Coordinate
  deriving DecidableEq, Repr

/-- The expression `map[position.second].at(position.first)`. -/
def terrain_at (hc : HillClimber) (position : Coordinate) : Except Fault Char :=
  match hc.map[position.2]? with
  | none => .error .undefined
  | some row =>
    match row[position.1]? with
    | none => .error .out_of_range
    | some terrain => .ok terrain

/-- Embedding of `HillClimber::compute_cost`. The `char` read from the map is promoted to
`int`; for the symbols of the input alphabet that is the character code. -/
def compute_cost (hc : HillClimber) (position : Coordinate) : Except Fault Int :=
  match terrain_at hc position with
  | .error e => .error e
  | .ok terrain =>
    .ok (if terrain = 'S' then (97 : Int) - 97 + 1
         else if terrain = 'E' then (122 : Int) - 97 + 1
         else (terrain.toNat : Int) - 97 + 1)

/-- The value of `n - 1` on `size_t`. -/
def size_pred (n : Nat) : Nat := (n + (2 ^ 64 - 1)) % 2 ^ 64

/-- The body shared by the four `if` blocks of `enumerate_valid_adjacents`:
`delta = compute_cost(next_position) - compute_cost(current_position)`, and
`next_position` is appended when `delta <= 1`. -/
def try_adjacent (hc : HillClimber) (current_position next_position : Coordinate)
    (adjacent : List Coordinate) : Except Fault (List Coordinate) :=
  match compute_cost hc next_position, compute_cost hc current_position with
  | .ok cn, .ok cc => .ok (if cn - cc ≤ 1 then adjacent ++ [next_position] else adjacent)
  | .error e, _ => .error e
  | _, .error e => .error e

/-- Embedding of `HillClimber::enumerate_valid_adjacents`: the four `if` blocks in sequence, each
passing on the vector `adjacent` built so far. -/
def enumerate_valid_adjacents (hc : HillClimber) (current_position : Coordinate) :
    Except Fault (List Coordinate) :=
  let x := current_position.1
  let y := current_position.2
  (if y > 0 then try_adjacent hc current_position (x, y - 1) []
   else .ok []).bind fun adjacent =>
  (if y < size_pred hc.height then try_adjacent hc current_position (x, y + 1) adjacent
   else .ok adjacent).bind fun adjacent =>
  (if x > 0 then try_adjacent hc current_position (x - 1, y) adjacent
   else .ok adjacent).bind fun adjacent =>
  (if x < size_pred hc.width then try_adjacent hc current_position (x + 1, y) adjacent
   else .ok adjacent)

/-- Embedding of `HillClimber::is_goal`. -/
def is_goal (hc : HillClimber) (position : Coordinate) : Except Fault Bool :=
  match terrain_at hc position with
  | .error e => .error e
  | .ok terrain => .ok (terrain = 'E')

/-- The conversion `(int)n` of a `size_t`. -/
def to_int (n : Nat) : Int :=
  if n % 2 ^ 32 < 2 ^ 31 then ((n % 2 ^ 32 : Nat) : Int) else ((n % 2 ^ 32 : Nat) : Int) - 2 ^ 32

/-- Embedding of `HillClimber::heuristic_distance`. -/
def heuristic_distance (c1 c2 : Coordinate) : Int :=
  |to_int c1.1 - to_int c2.1| + |to_int c1.2 - to_int c2.2|

/-- A `std::map<Coordinate, int>`. -/
abbrev CostMap := Coordinate → Option Int

/-- A `std::map<Coordinate, Coordinate>`. -/
abbrev FromMap := Coordinate → Option Coordinate

/-- The assignment `m[k] = v`. -/
def map_set {V : Type} (m : Coordinate → Option V) (k : Coordinate) (v : V) :
    Coordinate → Option V :=
  fun k' => if k' = k then some v else m k'

/-- Reading `costs[k]`. On a missing key `operator[]` would insert `0`; every key that
`get_path` reads has been written before (`Inv.frontier_recorded`, `Inv.pred`), so no
insertion is modelled. -/
def cost_of (costs : CostMap) (k : Coordinate) : Int := (costs k).getD 0

/-- Reading `from[k]`, under the same proviso as `cost_of`. -/
def from_of (from_ : FromMap) (k : Coordinate) : Coordinate := (from_ k).getD (0, 0)

/-- The lambda `compare` of `get_path`; it reads the `costs` of the moment it is called. -/
def compare (hc : HillClimber) (costs : CostMap) (left right : Coordinate) : Bool :=
  heuristic_distance hc.end_ left + cost_of costs left
    > heuristic_distance hc.end_ right + cost_of costs right

/-! ## The frontier: `std::priority_queue` over a `std::vector`

`push` is `c.push_back(x); std::push_heap(c.begin(), c.end(), comp)`,
`top` is `c.front()`, `pop` is `std::pop_heap(c.begin(), c.end(), comp); c.pop_back()`.
The two heap algorithms below are those of libstdc++ (`__push_heap`, `__adjust_heap`;
the MSVC library uses the same scheme): a hole travels through the array and the value
being placed is written last. Here the value is kept in the hole's slot, so that each
move of the hole is an exchange of two slots. -/

/-- Exchange of the slots `i` and `j`. -/
def swap_at (v : List Coordinate) (i j : Nat) : List Coordinate :=
  match v[i]?, v[j]? with
  | some a, some b => (v.set i b).set j a
  | _, _ => v

/-- The loop of `__push_heap(first, holeIndex, topIndex, value, comp)`, with `value` in slot
`holeIndex`. The first argument bounds the number of iterations; `holeIndex` suffices,
since the hole moves to a smaller index each time. -/
def push_heap_loop (comp : Coordinate → Coordinate → Bool) (topIndex : Nat) :
    Nat → List Coordinate → Nat → List Coordinate
  | 0, v, _ => v
  | fuel + 1, v, holeIndex =>
    let parent := (holeIndex - 1) / 2
    if holeIndex > topIndex then
      match v[parent]?, v[holeIndex]? with
      | some p, some value =>
        if comp p value then push_heap_loop comp topIndex fuel (swap_at v holeIndex parent) parent
        else v
      | _, _ => v
    else v

/-- The call `std::push_heap(c.begin(), c.end(), comp)`: the last element is the new one. -/
def push_heap (comp : Coordinate → Coordinate → Bool) (v : List Coordinate) : List Coordinate :=
  push_heap_loop comp 0 (v.length - 1) v (v.length - 1)

/-- The `while` loop of `__adjust_heap` on a heap of `len` slots: the hole at `holeIndex`
goes down to the child that does not compare less than its sibling. Returns the array
and the final `holeIndex` (which equals `secondChild` on exit). -/
def adjust_heap_loop (comp : Coordinate → Coordinate → Bool) (len : Nat) :
    Nat → List Coordinate → Nat → List Coordinate × Nat
  | 0, v, holeIndex => (v, holeIndex)
  | fuel + 1, v, holeIndex =>
    if holeIndex < (len - 1) / 2 then
      let secondChild := 2 * (holeIndex + 1)
      match v[secondChild]?, v[secondChild - 1]? with
      | some r, some l =>
        let secondChild := if comp r l then secondChild - 1 else secondChild
        adjust_heap_loop comp len fuel (swap_at v holeIndex secondChild) secondChild
      | _, _ => (v, holeIndex)
    else (v, holeIndex)

/-- The call `__adjust_heap(first, 0, len, value, comp)` with `value` in slot `0`. -/
def adjust_heap (comp : Coordinate → Coordinate → Bool) (len : Nat) (v : List Coordinate) :
    List Coordinate :=
  let (v, holeIndex) := adjust_heap_loop comp len len v 0
  let (v, holeIndex) :=
    if len % 2 = 0 ∧ 2 ≤ len ∧ holeIndex = (len - 2) / 2 then
      let secondChild := 2 * (holeIndex + 1)
      (swap_at v holeIndex (secondChild - 1), secondChild - 1)
    else (v, holeIndex)
  push_heap_loop comp 0 holeIndex v holeIndex

/-- The call `frontier.push(x)`. -/
def frontier_push (comp : Coordinate → Coordinate → Bool) (c : List Coordinate)
    (x : Coordinate) : List Coordinate :=
  push_heap comp (c ++ [x])

/-- The call `frontier.pop()`: `std::pop_heap(c.begin(), c.end(), comp)` followed by `c.pop_back()`.
When there is more than one element, `pop_heap` writes the first element to the last slot,
takes the former last element as `value` into the hole at slot `0` and runs `__adjust_heap`
on the other `len = size - 1` slots; `pop_back` then drops the last slot. With one element
`pop_heap` does nothing and `pop_back` empties the vector. -/
def frontier_pop (comp : Coordinate → Coordinate → Bool) (c : List Coordinate) :
    List Coordinate :=
  match c.getLast? with
  | none => []
  | some value =>
    if c.length > 1 then adjust_heap comp (c.length - 1) (c.dropLast.set 0 value)
    else []

/-! ## `get_path` -/

/-- The local variables `frontier`, `from`, `costs` of `get_path`. -/
structure Search where
  frontier : List Coordinate
  from_ : FromMap
  costs : CostMap

/-- One iteration of `for (auto next : enumerate_valid_adjacents(current_coordinate))`. -/
def relax (hc : HillClimber) (current_coordinate : Coordinate) (s : Search)
    (next : Coordinate) : Except Fault Search :=
  match compute_cost hc next with
  | .error e => .error e
  | .ok c =>
    let next_cost := cost_of s.costs current_coordinate + c
    let is_cost_recorded := (s.costs next).isSome
    if !is_cost_recorded || next_cost < cost_of s.costs next then
      let costs := map_set s.costs next next_cost
      .ok { costs := costs
            frontier := frontier_push (compare hc costs) s.frontier next
            from_ := map_set s.from_ next current_coordinate }
    else .ok s

/-- The whole `for` loop over the neighbours already enumerated. -/
def relax_all (hc : HillClimber) (current_coordinate : Coordinate) :
    Search → List Coordinate → Except Fault Search
  | s, [] => .ok s
  | s, next :: rest =>
    match relax hc current_coordinate s next with
    | .error e => .error e
    | .ok s' => relax_all hc current_coordinate s' rest

/-- The loop `while (current_path != starting_position)` that builds the path. -/
def build_path (from_ : FromMap) (starting_position : Coordinate) :
    Nat → Coordinate → List Coordinate → Except Fault (List Coordinate)
  | 0, _, _ => .error .out_of_fuel
  | fuel + 1, current_path, path =>
    if current_path ≠ starting_position then
      build_path from_ starting_position fuel (from_of from_ current_path) (current_path :: path)
    else .ok path

/-- A number of iterations that the path-building loop never needs on a grid of
`width * height` cells (see `build_path_total`). -/
def path_fuel (hc : HillClimber) : Nat := 26 * (hc.width * hc.height) + 1

/-- The loop `while (!frontier.empty())` of `get_path`, followed by `return path`.
The first argument bounds the number of iterations of the loop. -/
def search_loop (hc : HillClimber) (starting_position : Coordinate) :
    Nat → Search → Except Fault (List Coordinate)
  | 0, _ => .error .out_of_fuel
  | fuel + 1, s =>
    match s.frontier with
    | [] => .ok []
    | current_coordinate :: _ =>
      let s := { s with frontier := frontier_pop (compare hc s.costs) s.frontier }
      match is_goal hc current_coordinate with
      | .error e => .error e
      | .ok true => build_path s.from_ starting_position (path_fuel hc) current_coordinate []
      | .ok false =>
        match enumerate_valid_adjacents hc current_coordinate with
        | .error e => .error e
        | .ok adjacent =>
          match relax_all hc current_coordinate s adjacent with
          | .error e => .error e
          | .ok s' => search_loop hc starting_position fuel s'

/-- The state built by the first lines of `get_path`. -/
def initial_search (starting_position : Coordinate) : Search :=
  { frontier := [starting_position]
    from_ := map_set (fun _ => none) starting_position starting_position
    costs := map_set (fun _ => none) starting_position 0 }

/-- The function `get_path` run for at most `fuel` iterations of its main loop. -/
def get_path_fuel (hc : HillClimber) (fuel : Nat) (starting_position : Coordinate) :
    Except Fault (List Coordinate) :=
  search_loop hc starting_position fuel (initial_search starting_position)

/-- A number of iterations that `get_path` never needs on a grid of `width * height`
cells (see `get_path_fuel_enough`). -/
def fuel_bound (hc : HillClimber) : Nat :=
  2 * (hc.width * hc.height) * (26 * (hc.width * hc.height) + 1) + 2

/-- Embedding of `HillClimber::get_path(const Coordinate &starting_position)`. -/
def get_path (hc : HillClimber) (starting_position : Coordinate) :
    Except Fault (List Coordinate) :=
  get_path_fuel hc (fuel_bound hc) starting_position

/-! ## `get_scenic_path` -/

/-- The cells in the order of the nested loops `for i < height`, `for j < width`:
`Coordinate(j, i)`. -/
def scan_order (hc : HillClimber) : List Coordinate :=
  (List.range hc.height).flatMap (fun i => (List.range hc.width).map (fun j => (j, i)))

/-- The body of the inner loop of `get_scenic_path`; the state is
`(scenic_path, scenic_path_set)`. -/
def scenic_step (hc : HillClimber) (st : List Coordinate × Bool) (position : Coordinate) :
    Except Fault (List Coordinate × Bool) :=
  match compute_cost hc position with
  | .error e => .error e
  | .ok c =>
    if c = 1 then
      match get_path hc position with
      | .error e => .error e
      | .ok path =>
        .ok (if !st.2 || (!path.isEmpty && path.length < st.1.length) then path else st.1, true)
    else .ok st

/-- The two nested loops of `get_scenic_path` over the cells still to visit. -/
def scenic_loop (hc : HillClimber) :
    List Coordinate × Bool → List Coordinate → Except Fault (List Coordinate × Bool)
  | st, [] => .ok st
  | st, position :: rest =>
    match scenic_step hc st position with
    | .error e => .error e
    | .ok st' => scenic_loop hc st' rest

/-- Embedding of `HillClimber::get_scenic_path`. -/
def get_scenic_path (hc : HillClimber) : Except Fault (List Coordinate) :=
  match scenic_loop hc ([], false) (scan_order hc) with
  | .error e => .error e
  | .ok st => .ok st.1

/-! ## The constructor -/

/-- The nested loops of the constructor that look for `'S'` and `'E'`. -/
def locate : HillClimber → List Coordinate → Except Fault HillClimber
  | hc, [] => .ok hc
  | hc, position :: rest =>
    match terrain_at hc position with
    | .error e => .error e
    | .ok altitude =>
      locate (if altitude = 'S' then { hc with start := position }
              else if altitude = 'E' then { hc with end_ := position }
              else hc) rest

/-- Embedding of the constructor `HillClimber::HillClimber`, from the lines read from the
file. The members `start` and `end` are not initialised by the source before the scan; they
are `(0, 0)` here. -/
def HillClimber.read (lines : List String) : Except Fault HillClimber :=
  match lines with
  | [] => .error .undefined
  | line :: _ =>
    let hc : HillClimber :=
      { map := lines.map String.toList, height := lines.length, width := line.length
        start := (0, 0), end_ := (0, 0) }
    locate hc (scan_order hc)

/-! ## Vocabulary of the statements -/

/-- The coordinate lies in `[0, width) × [0, height)`. -/
def InBounds (hc : HillClimber) (p : Coordinate) : Prop :=
  p.1 < hc.width ∧ p.2 < hc.height

/-- A non-empty rectangular terrain whose members `width` and `height` are its dimensions
(and fit `size_t`). -/
def Rectangular (hc : HillClimber) : Prop :=
  hc.map.length = hc.height ∧ (∀ row ∈ hc.map, row.length = hc.width) ∧
    0 < hc.height ∧ 0 < hc.width ∧ hc.height < 2 ^ 64 ∧ hc.width < 2 ^ 64

/-- The symbol belongs to `{a..z, S, E}`. -/
def in_alphabet (c : Char) : Prop :=
  c = 'S' ∨ c = 'E' ∨ (97 ≤ c.toNat ∧ c.toNat ≤ 122)

/-- Every cell of the terrain holds a symbol of `{a..z, S, E}`. -/
def OverAlphabet (hc : HillClimber) : Prop :=
  ∀ row ∈ hc.map, ∀ c ∈ row, in_alphabet c

/-- A validated terrain: rectangular, non-empty, over the alphabet, with exactly one `'S'`,
at `start`, and exactly one `'E'`, at `end`. -/
def Validated (hc : HillClimber) : Prop :=
  Rectangular hc ∧ OverAlphabet hc ∧
    hc.start ∈ scan_order hc ∧ hc.end_ ∈ scan_order hc ∧
    (∀ p ∈ scan_order hc, terrain_at hc p = .ok 'S' ↔ p = hc.start) ∧
    (∀ p ∈ scan_order hc, terrain_at hc p = .ok 'E' ↔ p = hc.end_)

instance (hc : HillClimber) (p : Coordinate) : Decidable (InBounds hc p) :=
  inferInstanceAs (Decidable (p.1 < hc.width ∧ p.2 < hc.height))

instance (hc : HillClimber) : Decidable (Rectangular hc) :=
  inferInstanceAs (Decidable (hc.map.length = hc.height ∧
    (∀ row ∈ hc.map, row.length = hc.width) ∧
    0 < hc.height ∧ 0 < hc.width ∧ hc.height < 2 ^ 64 ∧ hc.width < 2 ^ 64))

instance (c : Char) : Decidable (in_alphabet c) :=
  inferInstanceAs (Decidable (c = 'S' ∨ c = 'E' ∨ (97 ≤ c.toNat ∧ c.toNat ≤ 122)))

instance (hc : HillClimber) : Decidable (OverAlphabet hc) :=
  inferInstanceAs (Decidable (∀ row ∈ hc.map, ∀ c ∈ row, in_alphabet c))

instance (hc : HillClimber) : Decidable (Validated hc) :=
  inferInstanceAs (Decidable (Rectangular hc ∧ OverAlphabet hc ∧
    hc.start ∈ scan_order hc ∧ hc.end_ ∈ scan_order hc ∧
    (∀ p ∈ scan_order hc, terrain_at hc p = .ok 'S' ↔ p = hc.start) ∧
    (∀ p ∈ scan_order hc, terrain_at hc p = .ok 'E' ↔ p = hc.end_)))

/-- The value `compute_cost` returns at a cell (`0` where it returns none). -/
def elevation (hc : HillClimber) (p : Coordinate) : Int :=
  match compute_cost hc p with
  | .ok c => c
  | .error _ => 0

/-- The coordinates `enumerate_valid_adjacents(a)` returns (none where it does not return). -/
def valid_adjacents (hc : HillClimber) (a : Coordinate) : List Coordinate :=
  match enumerate_valid_adjacents hc a with
  | .ok adjacent => adjacent
  | .error _ => []

/-- A legal move: `b` is one of the coordinates returned by `enumerate_valid_adjacents(a)`. -/
def Adj (hc : HillClimber) (a b : Coordinate) : Prop :=
  b ∈ valid_adjacents hc a

instance (hc : HillClimber) (a b : Coordinate) : Decidable (Adj hc a b) :=
  inferInstanceAs (Decidable (b ∈ valid_adjacents hc a))

/-- The sum of `compute_cost` over the cells a walk enters. -/
def walk_cost (hc : HillClimber) (walk : List Coordinate) : Int :=
  (walk.map (elevation hc)).sum

/-- Every step of the walk `start, w_1, .., w_k` is a legal move. -/
def is_legal_walk (hc : HillClimber) : Coordinate → List Coordinate → Bool
  | _, [] => true
  | a, b :: rest => decide (Adj hc a b) && is_legal_walk hc b rest

/-- A legal walk (a sequence of legal moves, possibly none) leads from `a` to `b`. -/
def Reachable (hc : HillClimber) (a b : Coordinate) : Prop :=
  Relation.ReflTransGen (Adj hc) a b

/-- Follows the spec's words: the orthogonal neighbours of `c` that exist within the grid
bounds, in the order up, down, left, right. -/
def orthogonal_neighbours (hc : HillClimber) (c : Coordinate) : List Coordinate :=
  (if 0 < c.2 then [(c.1, c.2 - 1)] else []) ++
  (if c.2 + 1 < hc.height then [(c.1, c.2 + 1)] else []) ++
  (if 0 < c.1 then [(c.1 - 1, c.2)] else []) ++
  (if c.1 + 1 < hc.width then [(c.1 + 1, c.2)] else [])

/-! ## Example terrains -/

/-- Two rows: a ridge of `z` from `(0,0)` to the goal, and below it a staircase `p..y`. -/
def ridge : HillClimber :=
  { map := ["zzzzzzzzzES".toList, "pqrstuvwxya".toList]
    width := 11, height := 2, start := (10, 0), end_ := (9, 0) }

/-- One row: a walled-off `a`, then `S` and a staircase up to the goal. -/
def stairs : HillClimber :=
  { map := ["acSbcdefghijklmnopqrstuvwxyE".toList]
    width := 28, height := 1, start := (2, 0), end_ := (27, 0) }

/-- One row of three cells. -/
def tiny : HillClimber :=
  { map := ["SzE".toList], width := 3, height := 1, start := (0, 0), end_ := (2, 0) }

/-! ## Quantities used in the proofs about `get_path` -/

/-- The number of cells of the grid that have a recorded cost. -/
def recorded_count (hc : HillClimber) (costs : CostMap) : Nat :=
  (scan_order hc).countP (fun x => (costs x).isSome)

/-- What a cell contributes to the measure that decreases with every push: its recorded
cost, or one more than any cost that can be recorded when it has none yet. -/
def cell_potential (hc : HillClimber) (costs : CostMap) (x : Coordinate) : Nat :=
  match costs x with
  | none => 26 * (hc.width * hc.height) + 1
  | some c => c.toNat

/-- The measure that decreases with every iteration of the main loop of `get_path`. -/
def potential (hc : HillClimber) (s : Search) : Nat :=
  2 * ((scan_order hc).map (cell_potential hc s.costs)).sum + s.frontier.length

/-- The state of `get_path` between two statements of its main loop. `cur` is the popped
coordinate whose neighbours are being relaxed, if any. -/
structure Inv (hc : HillClimber) (start : Coordinate) (cur : Option Coordinate)
    (s : Search) : Prop where
  start_cost : s.costs start = some 0
  start_from : s.from_ start = some start
  in_bounds : ∀ x c, s.costs x = some c → InBounds hc x
  nonneg : ∀ x c, s.costs x = some c → 0 ≤ c
  bounded : ∀ x c, s.costs x = some c → c ≤ 26 * (recorded_count hc s.costs : Int)
  pred : ∀ x c, s.costs x = some c → x ≠ start →
    ∃ p cp, s.from_ x = some p ∧ s.costs p = some cp ∧ Adj hc p x ∧
      cp + elevation hc x ≤ c
  frontier_recorded : ∀ x ∈ s.frontier, (s.costs x).isSome = true
  closed : ∀ x, (s.costs x).isSome = true →
    x ∈ s.frontier ∨ some x = cur ∨
      (is_goal hc x = .ok false ∧ ∀ n, Adj hc x n → (s.costs n).isSome = true)
  reach : ∀ x, (s.costs x).isSome = true → Reachable hc start x

/-- What `get_path(start)` returns: either the empty path, and then `start` is a goal cell or
no goal cell can be reached, or the cells of a legal walk from `start` to a goal cell. -/
def PathResult (hc : HillClimber) (start : Coordinate) (path : List Coordinate) : Prop :=
  (path = [] ∧ (is_goal hc start = .ok true ∨
      ∀ x, Reachable hc start x → is_goal hc x = .ok false)) ∨
  (∃ g, is_goal hc g = .ok true ∧ g ≠ start ∧ List.Chain (Adj hc) start path ∧
      (start :: path).getLast? = some g ∧ start ∉ path ∧ path ≠ [])

/-- A state of `get_path` on `ridge` in which `(0, 1)` has the recorded cost 16 and `(1, 1)`
the recorded cost 100. -/
def relax_example_before : Search :=
  { frontier := []
    from_ := fun _ => none
    costs := map_set (map_set (fun _ => none) (0, 1) 16) (1, 1) 100 }

/-- The state after the relaxation of `(1, 1)` from `(0, 1)` in `relax_example_before`. -/
def relax_example_after : Search :=
  { frontier := [(1, 1)]
    from_ := map_set (fun _ => none) (1, 1) (0, 1)
    costs := map_set (map_set (map_set (fun _ => none) (0, 1) 16) (1, 1) 100) (1, 1) 33 }

/-! ## The run of `get_path`, iteration by iteration -/

/-- The key that the lambda `compare` computes for a coordinate:
`heuristic_distance(end, x) + costs[x]`. -/
def priority (hc : HillClimber) (costs : CostMap) (x : Coordinate) : Int :=
  heuristic_distance hc.end_ x + cost_of costs x

/-- The state after `frontier.top()` and `frontier.pop()`. -/
def popped (hc : HillClimber) (s : Search) : Search :=
  { s with frontier := frontier_pop (compare hc s.costs) s.frontier }

/-- One iteration of the main loop of `get_path` that ends at the head of the loop again:
the frontier is not empty, the coordinate at its top is not the goal, and its neighbours are
relaxed. The result is the state at the head of the next iteration. -/
def next_head (hc : HillClimber) (s : Search) : Option Search :=
  match s.frontier with
  | [] => none
  | current_coordinate :: _ =>
    match is_goal hc current_coordinate with
    | .ok false =>
      match enumerate_valid_adjacents hc current_coordinate with
      | .ok adjacent =>
        match relax_all hc current_coordinate (popped hc s) adjacent with
        | .ok s' => some s'
        | .error _ => none
      | .error _ => none
    | _ => none

/-- The state of `get_path(starting_position)` at the head of its main loop before the
iteration `k` (counted from 0), if the run gets that far. -/
def loop_head (hc : HillClimber) (starting_position : Coordinate) : Nat → Option Search
  | 0 => some (initial_search starting_position)
  | k + 1 => (loop_head hc starting_position k).bind (next_head hc)

/-- The entries of the frontier, in the order of the underlying vector (the first one is
`frontier.top()`), each with its current priority. -/
def frontier_priorities (hc : HillClimber) (s : Search) : List (Coordinate × Int) :=
  s.frontier.map (fun x => (x, priority hc s.costs x))

/-- The entry at the top of the frontier has a priority that is least among the priorities
of the entries of the frontier. -/
def top_is_least (hc : HillClimber) (s : Search) : Bool :=
  match s.frontier with
  | [] => true
  | top :: _ => s.frontier.all (fun y => decide (priority hc s.costs top ≤ priority hc s.costs y))

/-- Two rows: `a a a a` above `b S b E`. -/
def shelf : HillClimber :=
  { map := ["aaaa".toList, "bSbE".toList], width := 4, height := 2
    start := (1, 1), end_ := (3, 1) }

/-- What the statement about predecessors says of a state of `get_path(start)`. -/
def PredecessorInv (hc : HillClimber) (start : Coordinate) (s : Search) : Prop :=
  s.costs start = some 0 ∧ s.from_ start = some start ∧
  ∀ x c, x ≠ start → s.costs x = some c →
    ∃ p cp e, s.from_ x = some p ∧ s.costs p = some cp ∧
      (∃ adjacent, enumerate_valid_adjacents hc p = .ok adjacent ∧ x ∈ adjacent) ∧
      compute_cost hc x = .ok e ∧ c ≥ cp + e ∧ cp + e > cp ∧
      ∃ k, (from_of s.from_)^[k] x = start

/-- Every recorded cost of the first state is recorded in the second one with a value that
is not larger. -/
def CostsLe (s' s : Search) : Prop :=
  ∀ y c, s.costs y = some c → ∃ c', s'.costs y = some c' ∧ c' ≤ c
/-! ## The search with a frontier that returns an entry of least priority -/

/-- Follows the statement's words: `pick` names, for every frontier that is not empty, one of
its entries whose current priority is least. -/
def LeastPriority (hc : HillClimber) (pick : CostMap → List Coordinate → Coordinate) : Prop :=
  ∀ (costs : CostMap) (frontier : List Coordinate), frontier ≠ [] →
    pick costs frontier ∈ frontier ∧
    ∀ y ∈ frontier, priority hc costs (pick costs frontier) ≤ priority hc costs y

/-- The first entry of least current priority. -/
def first_least (hc : HillClimber) (costs : CostMap) : List Coordinate → Coordinate
  | [] => (0, 0)
  | x :: rest =>
    rest.foldl (fun best y => if priority hc costs y < priority hc costs best then y else best) x

/-- The frontier without its first entry equal to `x`. -/
def remove_entry (x : Coordinate) : List Coordinate → List Coordinate
  | [] => []
  | y :: rest => if y = x then rest else y :: remove_entry x rest

/-- The main loop of `get_path` with the frontier of the statement: `frontier.top()` is the
entry that `pick` names and `frontier.pop()` removes one entry of that coordinate. The rest
is `search_loop`. -/
def ideal_search_loop (hc : HillClimber) (pick : CostMap → List Coordinate → Coordinate)
    (starting_position : Coordinate) : Nat → Search → Except Fault (List Coordinate)
  | 0, _ => .error .out_of_fuel
  | fuel + 1, s =>
    match s.frontier with
    | [] => .ok []
    | _ :: _ =>
      let current_coordinate := pick s.costs s.frontier
      let s := { s with frontier := remove_entry current_coordinate s.frontier }
      match is_goal hc current_coordinate with
      | .error e => .error e
      | .ok true => build_path s.from_ starting_position (path_fuel hc) current_coordinate []
      | .ok false =>
        match enumerate_valid_adjacents hc current_coordinate with
        | .error e => .error e
        | .ok adjacent =>
          match relax_all hc current_coordinate s adjacent with
          | .error e => .error e
          | .ok s' => ideal_search_loop hc pick starting_position fuel s'

/-- The function `get_path` with the frontier of the statement. -/
def get_path_ideal (hc : HillClimber) (pick : CostMap → List Coordinate → Coordinate)
    (starting_position : Coordinate) : Except Fault (List Coordinate) :=
  ideal_search_loop hc pick starting_position (fuel_bound hc) (initial_search starting_position)

/-- Every coordinate with a recorded cost is in the frontier, or is the popped coordinate
`cur` whose neighbours are being relaxed, or has been expanded since its cost last changed:
each of its neighbours has a recorded cost that is at most its own plus the cost of the
step. -/
def Settled (hc : HillClimber) (cur : Option Coordinate) (s : Search) : Prop :=
  ∀ x cx, s.costs x = some cx → x ∈ s.frontier ∨ some x = cur ∨
    ∀ n, Adj hc x n → ∃ cn, s.costs n = some cn ∧ cn ≤ cx + elevation hc n

/-- The three statements of the body of `if (!is_cost_recorded || next_cost < costs[next])`
one by one: the states after `costs[next] = next_cost`, after `frontier.push(next)` and
after `from[next] = current_coordinate`. -/
def relax_points (hc : HillClimber) (current_coordinate : Coordinate) (s : Search)
    (next : Coordinate) (next_cost : Int) : List Search :=
  let s1 : Search := { s with costs := map_set s.costs next next_cost }
  let s2 : Search := { s1 with frontier := frontier_push (compare hc s1.costs) s1.frontier next }
  let s3 : Search := { s2 with from_ := map_set s2.from_ next current_coordinate }
  [s1, s2, s3]

/-! ## `get_path` as a member function: the object before and after a call

`get_path`, `is_goal`, `enumerate_valid_adjacents` and `compute_cost` are member functions
that are not `const`; the lambda `compare` captures `this` by reference. Below, every call
receives the object and returns the object after the call next to its value, and the
object is passed on from one call to the next. The maps `from` and `costs`, the frontier and
the path are locals of `get_path`, created anew by every call. -/

end Day12

namespace Day04

/-- The exceptions thrown in `day04_01.cpp`. -/
inductive Thrown where
  /-- The exception `std::invalid_argument`, thrown by the constructor of `Range`. -/
  | invalid_argument
  /-- The exception `std::exception("Invalid start and end.")` of `operator&`. -/
  | exception
  deriving DecidableEq, Repr

/-- The data members of `struct Range`: an inclusive range of `int`. -/
structure Range where
  start : Int
  end_ : Int
  deriving DecidableEq, Repr

/-- The constructor `Range(int start, int end)`. -/
def Range.make (start end_ : Int) : Except Thrown Range :=
  if start > end_ then .error .invalid_argument else .ok { start := start, end_ := end_ }

/-- Embedding of `Range::get_inclusive_range_length` (in `Int`: the signed overflow of
`end - start + 1` for ranges longer than `INT_MAX` is not modelled). -/
def Range.get_inclusive_range_length (r : Range) : Int :=
  r.end_ - r.start + 1

/-- Embedding of `Range::operator==`. -/
def Range.operator_eq (a b : Range) : Bool :=
  a.start == b.start && a.end_ == b.end_

/-- Embedding of `Range::operator&&`, documented as "Checks if two Ranges intersect". -/
def Range.operator_and_and (a b : Range) : Bool :=
  decide (a.start > b.end_) || decide (b.start > a.end_)

/-- Embedding of `Range::operator&`. -/
def Range.operator_and (a b : Range) : Except Thrown Range :=
  if !(a.operator_and_and b) then Range.make (-1) (-1)
  else
    match Range.make (max a.start b.start) (min a.end_ b.end_) with
    | .error e => .error e
    | .ok intersection =>
      if intersection.end_ < intersection.start then .error .exception
      else .ok intersection

/-- Embedding of `Range::is_fully_contained`. -/
def Range.is_fully_contained (a b : Range) : Except Thrown Bool :=
  let smaller_range :=
    if a.get_inclusive_range_length ≤ b.get_inclusive_range_length then a else b
  match a.operator_and b with
  | .error e => .error e
  | .ok intersection => .ok (intersection.operator_eq smaller_range)

end Day04

namespace Utils

/-! ## `utils::split` -/

/-- The constant `std::string::npos`. -/
def npos : Nat := 2 ^ 64 - 1

/-- The search of `std::string::find(delim, pos)`: the first index from `pos` on at which
`delim` occurs in `str`, `npos` when there is none. The first argument bounds the number
of positions tried. -/
def find_loop (str delim : List Char) : Nat → Nat → Nat
  | 0, _ => npos
  | fuel + 1, pos =>
    if pos + delim.length ≤ str.length then
      if (str.drop pos).take delim.length = delim then pos
      else find_loop str delim fuel (pos + 1)
    else npos

/-- The call `str.find(delim, pos)`. -/
def find (str delim : List Char) (pos : Nat) : Nat :=
  find_loop str delim (str.length + 1) pos

/-- The call `str.substr(pos, count)` for `pos <= str.length()`. -/
def substr (str : List Char) (pos count : Nat) : List Char :=
  (str.drop pos).take count

/-- The loop `while (start < str.length())` of `utils::split`; `none` when the budget of
iterations given as first argument runs out. -/
def split_loop (str delim : List Char) :
    Nat → Nat → List (List Char) → Option (List (List Char))
  | 0, _, _ => none
  | fuel + 1, start, tokens =>
    if start < str.length then
      let end_ := find str delim start
      let right := substr str start (str.length - start)
      if end_ = npos ∧ right.length > 0 then some (tokens ++ [right])
      else
        let left := substr str start ((end_ + 2 ^ 64 - start) % 2 ^ 64)
        let start := (end_ + 1) % 2 ^ 64
        split_loop str delim fuel start (if left.length > 0 then tokens ++ [left] else tokens)
    else some tokens

/-- Embedding of `utils::split`: every iteration that does not leave the loop moves `start`
past the occurrence found, so `str.length() + 1` iterations always suffice. -/
def split (str delim : List Char) : Option (List (List Char)) :=
  split_loop str delim (str.length + 1) 0 []

/-! ## `utils::Heap<T>` for `T = unsigned long long` -/

/-- The exceptions of `utils::Heap` and the other ways in which a call can fail. -/
inductive Thrown where
  /-- The exception `std::out_of_range`. -/
  | out_of_range
  /-- The exception `std::invalid_argument`. -/
  | invalid_argument
  /-- The exception `std::overflow_error` of `insert`. -/
  | overflow_error
  /-- The exception `std::underflow_error` of `get_max`. -/
  | underflow_error
  /-- An access outside the reserved storage, a division by zero: undefined behaviour. -/
  | undefined
  /-- The step budget of a loop of the embedding ran out (no counterpart in the program). -/
  | out_of_fuel
  deriving DecidableEq, Repr

/-- The data members of `utils::Heap`. The vector `heap` is only ever `reserve`d to
`max_size + 1` elements and then accessed through `operator[]`; it is modelled by its
`max_size + 1` reserved slots. Slot `0` is not used. -/
structure Heap where
  heap : List Nat
  max_size : Nat
  size : Nat
  deriving DecidableEq, Repr

/-- The constructor `Heap(size_t max_size)`. -/
def Heap.make (max_size : Nat) : Heap :=
  { heap := List.replicate (max_size + 1) 0, max_size := max_size, size := 0 }

/-- Embedding of `Heap::swap`. -/
def Heap.swap (h : Heap) (i j : Nat) : Except Thrown Heap :=
  match h.heap[i]?, h.heap[j]? with
  | some a, some b => .ok { h with heap := (h.heap.set i b).set j a }
  | _, _ => .error .undefined

/-- Embedding of `Heap::is_root`. -/
def Heap.is_root (i : Nat) : Bool := i == 1

/-- Embedding of `Heap::is_left_child`. -/
def Heap.is_left_child (h : Heap) (i : Nat) : Except Thrown Bool :=
  if i > h.size then .error .out_of_range
  else .ok (i % 2 == 0 && !Heap.is_root i)

/-- Embedding of `Heap::is_right_child`. -/
def Heap.is_right_child (h : Heap) (i : Nat) : Except Thrown Bool :=
  if i > h.size then .error .out_of_range
  else .ok (i % 2 == 1)

/-- Embedding of `Heap::get_parent_index`. -/
def Heap.get_parent_index (h : Heap) (i : Nat) : Except Thrown Nat :=
  if Heap.is_root i then .error .invalid_argument
  else if i > h.size then .error .out_of_range
  else
    match h.is_left_child i with
    | .error e => .error e
    | .ok true => .ok (i / 2)
    | .ok false =>
      match h.is_right_child i with
      | .error e => .error e
      | .ok true => .ok ((i - 1) / 2)
      | .ok false => .ok (2 ^ 64 - 1)

/-- Embedding of `Heap::get_left_child_index`. -/
def Heap.get_left_child_index (h : Heap) (i : Nat) : Except Thrown Nat :=
  if 2 * i > h.size then .error .out_of_range else .ok (2 * i)

/-- Embedding of `Heap::get_right_child_index`. -/
def Heap.get_right_child_index (h : Heap) (i : Nat) : Except Thrown Nat :=
  if 2 * i + 1 > h.size then .error .out_of_range else .ok (2 * i + 1)

/-- The loop of `Heap::percolate_up`, from `current_index` on. -/
def Heap.percolate_up_loop : Nat → Heap → Nat → Except Thrown Heap
  | 0, _, _ => .error .out_of_fuel
  | fuel + 1, h, current_index =>
    if !Heap.is_root current_index then
      match h.get_parent_index current_index with
      | .error e => .error e
      | .ok parent_index =>
        match h.heap[current_index]?, h.heap[parent_index]? with
        | some c, some p =>
          if c < p then .ok h
          else
            match h.swap parent_index current_index with
            | .error e => .error e
            | .ok h' => Heap.percolate_up_loop fuel h' parent_index
        | _, _ => .error .undefined
    else .ok h

/-- Embedding of `Heap::percolate_up`; the index at least halves in every iteration. -/
def Heap.percolate_up (h : Heap) (i : Nat) : Except Thrown Heap :=
  Heap.percolate_up_loop (i + 1) h i

/-- The loop of `Heap::percolate_down`, from `current_index` on. Each of the two `try`
blocks leaves the loop when the child index it asks for exceeds `size`. -/
def Heap.percolate_down_loop : Nat → Heap → Nat → Except Thrown Heap
  | 0, _, _ => .error .out_of_fuel
  | fuel + 1, h, current_index =>
    if current_index < h.size then
      match h.get_left_child_index current_index with
      | .error _ => .ok h
      | .ok left_child_index =>
        match h.get_right_child_index current_index with
        | .error _ => .ok h
        | .ok right_child_index =>
          match h.heap[left_child_index]?, h.heap[right_child_index]?,
              h.heap[current_index]? with
          | some l, some r, some c =>
            let larger_child_index := if l > r then left_child_index else right_child_index
            let larger := if l > r then l else r
            if c > larger then .ok h
            else
              match h.swap current_index larger_child_index with
              | .error e => .error e
              | .ok h' => Heap.percolate_down_loop fuel h' larger_child_index
          | _, _, _ => .error .undefined
    else .ok h

/-- Embedding of `Heap::percolate_down`; the index at least doubles in every iteration. -/
def Heap.percolate_down (h : Heap) (i : Nat) : Except Thrown Heap :=
  Heap.percolate_down_loop (h.size + 1) h i

/-- Embedding of `Heap::is_empty`. -/
def Heap.is_empty (h : Heap) : Bool := h.size ≤ 0

/-- Embedding of `Heap::insert`. -/
def Heap.insert (h : Heap) (new_value : Nat) : Except Thrown Heap :=
  if h.size ≥ h.max_size then .error .overflow_error
  else
    let size := h.size + 1
    if size < h.heap.length then
      Heap.percolate_up { h with heap := h.heap.set size new_value, size := size } size
    else .error .undefined

/-- Embedding of `Heap::get_max`: the value returned and the heap left behind. -/
def Heap.get_max (h : Heap) : Except Thrown (Nat × Heap) :=
  if h.is_empty then .error .underflow_error
  else
    match h.swap 1 h.size with
    | .error e => .error e
    | .ok h1 =>
      match h1.heap[h1.size]? with
      | none => .error .undefined
      | some max_value =>
        match Heap.percolate_down { h1 with size := h1.size - 1 } 1 with
        | .error e => .error e
        | .ok h2 => .ok (max_value, h2)

/-- A sequence of `insert` calls. -/
def Heap.insert_all : Heap → List Nat → Except Thrown Heap
  | h, [] => .ok h
  | h, v :: rest =>
    match h.insert v with
    | .error e => .error e
    | .ok h' => Heap.insert_all h' rest

/-- A sequence of `count` calls of `get_max`: the values returned, in order. -/
def Heap.get_max_times : Nat → Heap → Except Thrown (List Nat)
  | 0, _ => .ok []
  | count + 1, h =>
    match h.get_max with
    | .error e => .error e
    | .ok (v, h') =>
      match Heap.get_max_times count h' with
      | .error e => .error e
      | .ok vs => .ok (v :: vs)

/-- A heap of capacity `max_size`, the inserts of `values` in order, then `count` calls of
`get_max`: the values these calls return. -/
def heap_session (max_size : Nat) (values : List Nat) (count : Nat) :
    Except Thrown (List Nat) :=
  match Heap.insert_all (Heap.make max_size) values with
  | .error e => .error e
  | .ok h => Heap.get_max_times count h

/-! ## `MonkeyParty::commence_party` (`src/day11/monkey.hpp`) -/

/-- The data members of `class Monkey`. The `std::function` member `inspect` is the map
from the worry level before the inspection to the one after it. -/
structure Monkey where
  id : Int
  activity : Nat
  items : List Nat
  inspect : Nat → Nat
  divisor : Nat
  other_monkeys : Int × Int

/-- The data members of `class MonkeyParty`. -/
structure MonkeyParty where
  worry_divisor : Nat
  monkeys : List Monkey

/-- Embedding of `MonkeyParty::throw_item_to_monkey`: `monkeys[target].receive_item(item)`. -/
def throw_item_to_monkey (monkeys : List Monkey) (target : Int) (item : Nat) :
    Except Thrown (List Monkey) :=
  if 0 ≤ target then
    match monkeys[target.toNat]? with
    | none => .error .undefined
    | some m => .ok (monkeys.set target.toNat { m with items := m.items ++ [item] })
  else .error .undefined

/-- Embedding of `Monkey::go_through_items` for the monkey at index `k`; the first argument
bounds the number of iterations of `while (!items.empty())`. -/
def go_through_items (worry_divisor : Nat) (k : Nat) :
    Nat → List Monkey → Except Thrown (List Monkey)
  | 0, _ => .error .out_of_fuel
  | fuel + 1, monkeys =>
    match monkeys[k]? with
    | none => .error .undefined
    | some monkey =>
      match monkey.items with
      | [] => .ok monkeys
      | item :: _ =>
        let item := monkey.inspect item
        if worry_divisor = 0 ∨ monkey.divisor = 0 then .error .undefined
        else
          let item := item % worry_divisor
          let monkey_to_throw_to :=
            if item % monkey.divisor = 0 then monkey.other_monkeys.1
            else monkey.other_monkeys.2
          match throw_item_to_monkey monkeys monkey_to_throw_to item with
          | .error e => .error e
          | .ok monkeys =>
            match monkeys[k]? with
            | none => .error .undefined
            | some m =>
              go_through_items worry_divisor k fuel
                (monkeys.set k
                  { m with items := m.items.tail, activity := (m.activity + 1) % 2 ^ 64 })

/-- One round: `for (auto &monkey : monkeys) monkey.go_through_items(...)`, for the monkeys
at the indices listed. -/
def play_round (worry_divisor fuel : Nat) : List Nat → List Monkey → Except Thrown (List Monkey)
  | [], monkeys => .ok monkeys
  | k :: rest, monkeys =>
    match go_through_items worry_divisor k fuel monkeys with
    | .error e => .error e
    | .ok monkeys => play_round worry_divisor fuel rest monkeys

/-- The loop over the rounds of `commence_party`. -/
def play_rounds (worry_divisor fuel : Nat) : Nat → List Monkey → Except Thrown (List Monkey)
  | 0, monkeys => .ok monkeys
  | rounds + 1, monkeys =>
    match play_round worry_divisor fuel (List.range monkeys.length) monkeys with
    | .error e => .error e
    | .ok monkeys => play_rounds worry_divisor fuel rounds monkeys

/-- Embedding of `MonkeyParty::commence_party(rounds)`; `fuel` bounds the number of items
one monkey goes through in one turn. -/
def commence_party (party : MonkeyParty) (fuel : Nat) (rounds : Nat) : Except Thrown Nat :=
  match play_rounds party.worry_divisor fuel rounds party.monkeys with
  | .error e => .error e
  | .ok monkeys =>
    match Heap.insert_all (Heap.make monkeys.length) (monkeys.map (fun m => m.activity)) with
    | .error e => .error e
    | .ok heap =>
      match heap.get_max with
      | .error e => .error e
      | .ok (first, heap) =>
        match heap.get_max with
        | .error e => .error e
        | .ok (second, _) => .ok ((first * second) % 2 ^ 64)

/-- Three monkeys: the first holds the item `1` and throws to the second, the second holds
the item `5` and throws to the first, the third holds nothing; every inspection adds one. -/
def three_monkeys : MonkeyParty :=
  { worry_divisor := 30
    monkeys :=
      [ { id := 0, activity := 0, items := [1], inspect := fun w => (w + 1) % 2 ^ 64
          divisor := 2, other_monkeys := (1, 1) },
        { id := 1, activity := 0, items := [5], inspect := fun w => (w + 1) % 2 ^ 64
          divisor := 3, other_monkeys := (0, 0) },
        { id := 2, activity := 0, items := [], inspect := fun w => (w + 1) % 2 ^ 64
          divisor := 5, other_monkeys := (0, 0) } ] }

end Utils

namespace Day07

/-- The nodes of the directory tree: `class File` and `class Directory`, the two classes
derived from `Node`. The `parent` pointer is left out: the functions embedded here do not
read it. -/
inductive Node where
  | file (name : String) (file_size : Nat)
  | directory (name : String) (children : List Node)
  deriving Repr

/-- Embedding of `Node::get_name`. -/
def Node.get_name : Node → String
  | .file name _ => name
  | .directory name _ => name

/-- Embedding of `can_have_children` of `File` and `Directory`. -/
def Node.can_have_children : Node → Bool
  | .file _ _ => false
  | .directory _ _ => true

mutual
/-- Embedding of `get_node_size` of `File` and `Directory`, in `unsigned int`. -/
def Node.get_node_size : Node → Nat
  | .file _ file_size => file_size % 2 ^ 32
  | .directory _ children => size_loop 0 children
/-- The loop `file_size += (*i)->get_node_size()` of `Directory::get_node_size`. -/
def size_loop : Nat → List Node → Nat
  | file_size, [] => file_size
  | file_size, child :: rest => size_loop ((file_size + child.get_node_size) % 2 ^ 32) rest
end

/-- The data members of `class Filesystem` read by its two queries (`current_directory` is
not). -/
structure Filesystem where
  root : Node
  total_size : Nat

mutual
/-- Embedding of `Filesystem::find_directories_of_size_helper`: the vector `directories`
after the call. -/
def find_directories_of_size_helper (target_size : Nat) : Node → List Node → List Node
  | .file _ _, directories => directories
  | .directory name children, directories =>
    find_in_children target_size children
      (if (Node.directory name children).get_node_size ≤ target_size
        then directories ++ [Node.directory name children] else directories)
/-- The loop `for (auto child : children)` of `find_directories_of_size_helper`. -/
def find_in_children (target_size : Nat) : List Node → List Node → List Node
  | [], directories => directories
  | child :: rest, directories =>
    find_in_children target_size rest
      (if child.can_have_children
        then find_directories_of_size_helper target_size child directories
        else directories)
end

mutual
/-- Embedding of `Filesystem::get_minimum_for_target_size_directory_helper`; `none` is the
null pointer. -/
def get_minimum_for_target_size_directory_helper (target_size free_space : Nat) :
    Node → Option Node
  | .file _ _ => none
  | .directory name children =>
    if (free_space + (Node.directory name children).get_node_size) % 2 ^ 32 ≥ target_size then
      some (minimum_in_children target_size free_space children
        (Node.directory name children, (Node.directory name children).get_node_size)).1
    else none
/-- The loop `for (auto &child : current_dir->get_children())` of the helper; the state is
`(min_dir, min_dir_size)`. -/
def minimum_in_children (target_size free_space : Nat) :
    List Node → Node × Nat → Node × Nat
  | [], st => st
  | child :: rest, st =>
    minimum_in_children target_size free_space rest
      (if child.can_have_children then
        match get_minimum_for_target_size_directory_helper target_size free_space child with
        | some child_dir =>
          if child_dir.get_node_size < st.2 ∧
              (free_space + child_dir.get_node_size) % 2 ^ 32 ≥ target_size
            then (child_dir, child_dir.get_node_size) else st
        | none => st
      else st)
end

/-- Embedding of `Filesystem::get_used_space`. -/
def Filesystem.get_used_space (fs : Filesystem) : Nat :=
  fs.root.get_node_size

/-- Embedding of `Filesystem::get_minimum_for_target_size_directory`. -/
def Filesystem.get_minimum_for_target_size_directory (fs : Filesystem) (target_size : Nat) :
    Option Node :=
  let free_space := (fs.total_size + 2 ^ 32 - fs.get_used_space) % 2 ^ 32
  get_minimum_for_target_size_directory_helper target_size free_space fs.root

mutual
/-- The directories of the tree below and including a node, parents before children. -/
def Node.directories : Node → List Node
  | .file _ _ => []
  | .directory name children => Node.directory name children :: directories_of children
/-- The directories below the nodes of a list. -/
def directories_of : List Node → List Node
  | [] => []
  | child :: rest => child.directories ++ directories_of rest
end

mutual
/-- The sum of the sizes of all files below a node, as a natural number. -/
def Node.total_file_size : Node → Nat
  | .file _ file_size => file_size
  | .directory _ children => total_file_size_of children
/-- The sum of the sizes of all files below the nodes of a list. -/
def total_file_size_of : List Node → Nat
  | [] => 0
  | child :: rest => child.total_file_size + total_file_size_of rest
end

/-- A root directory with the directories `a` (one file of size 20) and `b` (one file of
size 30) and a file of size 10, on a device of size 100. -/
def two_dirs : Filesystem :=
  { root := .directory "/"
      [.directory "a" [.file "a.txt" 20], .directory "b" [.file "b.txt" 30], .file "f" 10]
    total_size := 100 }

/-- A root directory with the file `f` (25), the directory `a` with one file (20) and the
directory `c`, which holds the directory `e` with one file (10) and two files whose sizes
add up to `2^32 - 5`. -/
def overfull : Filesystem :=
  { root := .directory "/"
      [ .directory "a" [.file "a.txt" 20],
        .directory "c" [.directory "e" [.file "e.txt" 10],
          .file "c1" 2147483647, .file "c2" 2147483644],
        .file "f" 25 ]
    total_size := 100 }

end Day07

namespace Day13

/-- The enumeration `ComparisonResult`. -/
inductive ComparisonResult where
  | EQUAL
  | GREATER
  | LESSER
  deriving DecidableEq, Repr

/-- The exceptions of the library calls in `day13.hpp`. -/
inductive Thrown where
  /-- The exception `std::out_of_range`, thrown by `std::string::at` and by `std::stoi`. -/
  | out_of_range
  /-- The exception `std::invalid_argument`, thrown by `std::stoi`. -/
  | invalid_argument
  /-- The step budget of a loop of the embedding ran out (no counterpart in the program). -/
  | out_of_fuel
  deriving DecidableEq, Repr

/-- The number written by a sequence of decimal digits. -/
def digits_value (digits : List Char) : Nat :=
  digits.foldl (fun acc c => 10 * acc + (c.toNat - 48)) 0

/-- The call `std::stoi(str)` for a string that starts with neither white space nor a sign
(at both call sites the first character is a digit): the longest prefix of digits is
converted; `std::invalid_argument` when it is empty, `std::out_of_range` when the number
does not fit `int`. -/
def stoi (str : List Char) : Except Thrown Int :=
  let digits := str.takeWhile Char.isDigit
  if digits = [] then .error .invalid_argument
  else if digits_value digits > 2147483647 then .error .out_of_range
  else .ok (digits_value digits)

/-- The loop `while (num_brackets > 0)` of `get_next`: the value of `end` when it exits. -/
def bracket_loop (pckt : List Char) : Nat → Nat → Int → Except Thrown Nat
  | 0, _, _ => .error .out_of_fuel
  | fuel + 1, end_, num_brackets =>
    if num_brackets > 0 then
      match pckt[end_ + 1]? with
      | none => .error .out_of_range
      | some c =>
        bracket_loop pckt fuel (end_ + 1)
          (if c = '[' then num_brackets + 1
           else if c = ']' then num_brackets - 1
           else num_brackets)
    else .ok end_

/-- The loop `while (std::isdigit(pckt.at(end)))` of `get_next`: the value of `end` when it
exits. -/
def digit_loop (pckt : List Char) : Nat → Nat → Except Thrown Nat
  | 0, _ => .error .out_of_fuel
  | fuel + 1, end_ =>
    match pckt[end_]? with
    | none => .error .out_of_range
    | some c => if c.isDigit then digit_loop pckt fuel (end_ + 1) else .ok end_

/-- Embedding of `get_next`. Both loops move `end` forward by one in every iteration and
stop at the end of the string at the latest, so `pckt.size() + 1` iterations suffice. -/
def get_next (pckt : List Char) (start : Nat) : Except Thrown (Option (Nat × Nat)) :=
  let start := start + 1
  if start ≥ pckt.length then .ok none
  else
    match pckt[start]? with
    | none => .error .out_of_range
    | some c =>
      if c = '[' then
        match bracket_loop pckt (pckt.length + 1) start 1 with
        | .error e => .error e
        | .ok end_ => .ok (some (start, end_ + 1))
      else if c.isDigit then
        match digit_loop pckt (pckt.length + 1) start with
        | .error e => .error e
        | .ok end_ => .ok (some (start, end_))
      else .ok none

/-- The loop `while (next.has_value())` of `get_subpackets`, with the call of `get_next`
that precedes each test. -/
def get_subpackets_loop (packet : List Char) :
    Nat → Nat → List (List Char) → Except Thrown (List (List Char))
  | 0, _, _ => .error .out_of_fuel
  | fuel + 1, i, subpackets =>
    match get_next packet i with
    | .error e => .error e
    | .ok none => .ok subpackets
    | .ok (some next) =>
      get_subpackets_loop packet fuel next.2
        (subpackets ++ [(packet.drop next.1).take (next.2 - next.1)])

/-- Embedding of `get_subpackets`; every subpacket found moves `i` forward, so
`packet.size() + 1` iterations suffice. -/
def get_subpackets (packet : List Char) : Except Thrown (List (List Char)) :=
  get_subpackets_loop packet (packet.length + 1) 0 []

/-- The loop `for (size_t i = 0; i < std::min(...); i++)` of `compare_packets` over the
subpackets not yet compared, and the comparison of the two sizes that follows it; `compare`
stands for the recursive call. When the sizes are equal the source falls through to its
last statement, `return EQUAL`. -/
def compare_subpackets (compare : List Char → List Char → Except Thrown ComparisonResult)
    (left_subpackets_size right_subpackets_size : Nat) :
    List (List Char) → List (List Char) → Except Thrown ComparisonResult
  | left_subpacket :: ls, right_subpacket :: rs =>
    match compare left_subpacket right_subpacket with
    | .error e => .error e
    | .ok .EQUAL => compare_subpackets compare left_subpackets_size right_subpackets_size ls rs
    | .ok comparison => .ok comparison
  | _, _ =>
    if left_subpackets_size > right_subpackets_size then .ok .GREATER
    else if left_subpackets_size < right_subpackets_size then .ok .LESSER
    else .ok .EQUAL

/-- Embedding of `compare_packets`; the first argument bounds the depth of the recursion.
Both `left.at(0)` and `right.at(0)` are evaluated on every path that does not throw
before. -/
def compare_packets_fuel : Nat → List Char → List Char → Except Thrown ComparisonResult
  | 0, _, _ => .error .out_of_fuel
  | fuel + 1, left, right =>
    match left[0]?, right[0]? with
    | none, _ => .error .out_of_range
    | _, none => .error .out_of_range
    | some l0, some r0 =>
      if l0.isDigit ∧ r0.isDigit then
        match stoi left, stoi right with
        | .error e, _ => .error e
        | _, .error e => .error e
        | .ok l, .ok r =>
          if l > r then .ok .GREATER
          else if l < r then .ok .LESSER
          else .ok .EQUAL
      else if l0 = '[' ∧ r0 = '[' then
        match get_subpackets left, get_subpackets right with
        | .error e, _ => .error e
        | _, .error e => .error e
        | .ok left_subpackets, .ok right_subpackets =>
          compare_subpackets (compare_packets_fuel fuel) left_subpackets.length
            right_subpackets.length left_subpackets right_subpackets
      else if l0 = '[' then compare_packets_fuel fuel left ('[' :: right ++ [']'])
      else if r0 = '[' then compare_packets_fuel fuel ('[' :: left ++ [']']) right
      else .ok .EQUAL

/-- Embedding of `compare_packets`. On the texts of well-formed packets the depth of the
recursion stays below the budget given here (see `compare_packets_fuel_spec`). -/
def compare_packets (left right : List Char) : Except Thrown ComparisonResult :=
  compare_packets_fuel (3 * (left.length + right.length) + 4) left right

/-! ## Well-formed packets and their order -/

/-- A packet: an integer, given by its decimal digits, or a list of packets. -/
inductive Packet where
  | int (digits : List Char)
  | list (items : List Packet)
  deriving Repr

mutual
/-- The text of a packet: the digits of an integer; the items of a list between brackets,
separated by commas. -/
def Packet.render : Packet → List Char
  | .int digits => digits
  | .list items => '[' :: (render_items items ++ [']'])
/-- The texts of the items of a list, separated by commas. -/
def render_items : List Packet → List Char
  | [] => []
  | p :: rest =>
    match rest with
    | [] => p.render
    | _ :: _ => p.render ++ ',' :: render_items rest
end

mutual
/-- Every integer of the packet has at least one digit and digits only. -/
def Packet.well_formed : Packet → Bool
  | .int digits => !digits.isEmpty && digits.all Char.isDigit
  | .list items => well_formed_items items
/-- Every packet of the list is well formed. -/
def well_formed_items : List Packet → Bool
  | [] => true
  | p :: rest => p.well_formed && well_formed_items rest
end

mutual
/-- Every integer of the packet is at most `INT_MAX`. -/
def Packet.fits_int : Packet → Bool
  | .int digits => decide (digits_value digits ≤ 2147483647)
  | .list items => fit_int items
/-- Every integer of the packets of the list is at most `INT_MAX`. -/
def fit_int : List Packet → Bool
  | [] => true
  | p :: rest => p.fits_int && fit_int rest
end

mutual
/-- The number of integers and lists in a packet. -/
def Packet.nodes : Packet → Nat
  | .int _ => 1
  | .list items => 1 + nodes_of items
/-- The number of integers and lists in the packets of a list, plus their number. -/
def nodes_of : List Packet → Nat
  | [] => 0
  | p :: rest => 1 + p.nodes + nodes_of rest
end

mutual
/-- Follows the spec's words: two integers compare numerically; two lists compare element
by element; an integer compared with a list is first wrapped into a one-element list. -/
def Packet.order : Packet → Packet → ComparisonResult
  | .int a, .int b =>
    if digits_value a > digits_value b then .GREATER
    else if digits_value a < digits_value b then .LESSER
    else .EQUAL
  | .list as, .list bs => order_lists as bs
  | .list as, .int b => order_lists as [.int b]
  | .int a, .list bs => order_lists [.int a] bs
termination_by p q => 3 * (p.nodes + q.nodes) + 4
decreasing_by
  all_goals simp_wf
  all_goals simp only [Packet.nodes, nodes_of]
  all_goals omega
/-- Follows the spec's words: the first non-equal pair of elements decides, and a list that
is a proper prefix of the other is the lesser. -/
def order_lists : List Packet → List Packet → ComparisonResult
  | [], [] => .EQUAL
  | [], _ :: _ => .LESSER
  | _ :: _, [] => .GREATER
  | a :: as, b :: bs =>
    match Packet.order a b with
    | .EQUAL => order_lists as bs
    | r => r
termination_by as bs => 3 * (nodes_of as + nodes_of bs)
decreasing_by
  all_goals simp_wf
  all_goals simp only [Packet.nodes, nodes_of]
  all_goals omega
end

end Day13

namespace Day06

/-- Ways in which a call of `day06_01_02.cpp` can fail to return a value. -/
inductive Thrown where
  /-- The exception `std::overflow_error("Queue is full.")`. -/
  | overflow_error
  /-- The exception `std::underflow_error("Queue is empty.")`. -/
  | underflow_error
  /-- The exception `std::bad_alloc` (`new char[n]` for a negative `int` converted to
  `size_t`). -/
  | bad_alloc
  /-- An access outside the allocated array: undefined behaviour. -/
  | undefined
  deriving DecidableEq, Repr

/-- The data members of `class Queue`. The member `array` points to `max_length` slots. -/
structure Queue where
  max_length : Nat
  length : Nat
  array : List Char
  deriving DecidableEq, Repr

/-- The constructor `Queue(size_t max_length)`. The slots of `new char[max_length]` hold
indeterminate values; they are written before they are read, and are `NUL` here. The
destructor is not part of the embedding. -/
def Queue.make (max_length : Nat) : Queue :=
  { max_length := max_length, length := 0, array := List.replicate max_length (Char.ofNat 0) }

/-- Embedding of `Queue::get_length`. -/
def Queue.get_length (q : Queue) : Nat := q.length

/-- Embedding of `Queue::is_full`: `length >= max_length`. -/
def Queue.is_full (q : Queue) : Bool := decide (q.length ≥ q.max_length)

/-- Embedding of `Queue::is_empty`: `length < max_length`. -/
def Queue.is_empty (q : Queue) : Bool := decide (q.length < q.max_length)

/-- Embedding of `Queue::enqueue`: `array[length++] = val` unless the queue is full. -/
def Queue.enqueue (q : Queue) (val : Char) : Except Thrown Queue :=
  if q.is_full then .error .overflow_error
  else if q.length < q.array.length then
    .ok { q with array := q.array.set q.length val, length := q.length + 1 }
  else .error .undefined

/-- Embedding of `Queue::dequeue`: unless `is_empty()`, `first = array[0]`, then
`memmove(array, array + 1, length - 1)` and `length--`. The `length - 1` bytes after the
first slot move one slot down; the slots from `length - 1` on keep their values. -/
def Queue.dequeue (q : Queue) : Except Thrown (Char × Queue) :=
  if q.is_empty then .error .underflow_error
  else
    match q.array[0]? with
    | none => .error .undefined
    | some first =>
      if 1 ≤ q.length ∧ q.length ≤ q.array.length then
        .ok (first, { q with array := (q.array.drop 1).take (q.length - 1) ++
                                        q.array.drop (q.length - 1)
                             length := q.length - 1 })
      else .error .undefined

/-- The predicate `std::isspace` of the classic locale (space, `\t`, `\n`, `\v`, `\f`, `\r`):
the characters that the formatted extraction `file_handle >> current_char` skips. -/
def isspace (c : Char) : Bool :=
  c = ' ' || c = Char.ofNat 9 || c = Char.ofNat 10 || c = Char.ofNat 11 || c = Char.ofNat 12 ||
    c = Char.ofNat 13

/-- The characters that the successive extractions `file_handle >> current_char` deliver
from a file with the given contents: leading white space is skipped before each one, and
the extraction fails at the end of the file. -/
def extracted (contents : List Char) : List Char :=
  contents.filter (fun c => !isspace c)

/-- The size of the `std::set<char>` filled with `buffer.array[i]` for `i < get_length()`. -/
def distinct_count (buffer : Queue) : Nat :=
  ((buffer.array.take buffer.get_length).dedup).length

/-- The loop `while (file_handle >> current_char)` of `find_first_start_of_packet_from_file`
over the characters still to be extracted, followed by `return idx`. The counter `idx` is an
`unsigned int`. -/
def scan_loop (window_size : Int) : List Char → Nat → Queue → Except Thrown Nat
  | [], idx, _ => .ok idx
  | current_char :: rest, idx, buffer =>
    let idx := (idx + 1) % 2 ^ 32
    match (if buffer.is_full then
             match buffer.dequeue with
             | .error e => .error e
             | .ok (_, buffer) => .ok buffer
           else Except.ok buffer) with
    | .error e => .error e
    | .ok buffer =>
      match buffer.enqueue current_char with
      | .error e => .error e
      | .ok buffer =>
        if buffer.is_full then
          if (distinct_count buffer : Int) = window_size then .ok idx
          else scan_loop window_size rest idx buffer
        else scan_loop window_size rest idx buffer

/-- Embedding of `find_first_start_of_packet_from_file`, from the contents of the file
(opened without error) and `window_size`. -/
def find_first_start_of_packet_from_file (contents : List Char) (window_size : Int) :
    Except Thrown Nat :=
  if window_size < 0 then .error .bad_alloc
  else scan_loop window_size (extracted contents) 0 (Queue.make window_size.toNat)

/-- The statement's notion: the `window_size` characters that end with the `n`-th one
(counted from 1) exist and are pairwise distinct. -/
def is_marker (stream : List Char) (window_size n : Nat) : Prop :=
  window_size ≤ n ∧ n ≤ stream.length ∧ ((stream.take n).drop (n - window_size)).Nodup

instance (stream : List Char) (window_size n : Nat) : Decidable (is_marker stream window_size n) :=
  inferInstanceAs (Decidable (window_size ≤ n ∧ n ≤ stream.length ∧
    ((stream.take n).drop (n - window_size)).Nodup))

/-- The queue `Queue(4)` after `enqueue('a')`. -/
def one_element : Queue :=
  { max_length := 4, length := 1, array := ['a', Char.ofNat 0, Char.ofNat 0, Char.ofNat 0] }

end Day06

namespace Day08

/-- Ways in which a call can fail to return a value. -/
inductive Fault where
  /-- An access through `operator[]` past the end of a vector: undefined behaviour. -/
  | undefined
  deriving DecidableEq, Repr

/-- The data member of `class TreeCover`. -/
structure TreeCover where
  grid : List (List Nat)
  deriving DecidableEq, Repr

/-- Reading `v[i]`. -/
def read {α : Type} (v : List α) (i : Nat) : Except Fault α :=
  match v[i]? with
  | some a => .ok a
  | none => .error .undefined

/-- The assignment `v[i] = a`. -/
def write {α : Type} (v : List α) (i : Nat) (a : α) : Except Fault (List α) :=
  if i < v.length then .ok (v.set i a) else .error .undefined

/-- The value of `a - b` on `size_t`. -/
def size_sub (a b : Nat) : Nat := (a + (2 ^ 64 - b % 2 ^ 64)) % 2 ^ 64

/-- A loop `for (size_t k = 0; k < n; k++)` over the values of `k` still to come; the body
transforms the variables it assigns. -/
def for_loop {σ : Type} (body : Nat → σ → Except Fault σ) :
    List Nat → σ → Except Fault σ
  | [], s => .ok s
  | k :: ks, s =>
    match body k s with
    | .error e => .error e
    | .ok s' => for_loop body ks s'

/-- Embedding of `TreeCover::is_edge`; `grid[0]` is read only when the first three tests
fail. -/
def TreeCover.is_edge (tc : TreeCover) (row column : Nat) : Except Fault Bool :=
  if row = 0 ∨ row = size_sub tc.grid.length 1 ∨ column = 0 then .ok true
  else (read tc.grid 0).bind fun first => .ok (decide (column = size_sub first.length 1))

/-- Embedding of `TreeCover::create_visibility_mask`. -/
def TreeCover.create_visibility_mask (tc : TreeCover) : Except Fault (List (List Bool)) :=
  (read tc.grid 0).bind fun first =>
  .ok (List.replicate tc.grid.length (List.replicate first.length false))

/-- The body of the inner loop of the two functions `compute_visibility_mask_*_edge`, on the
variables `(visibility_mask, tallest_tree_lengths)`; `t` is the index used into
`tallest_tree_lengths` (`j` in the vertical function, `i` in the horizontal one):
`is_visible = is_edge(i, j) || (grid[i][j] > tallest_tree_lengths[t])`,
`visibility_mask[i][j] = visibility_mask[i][j] || is_visible`,
`tallest_tree_lengths[t] = std::max(grid[i][j], tallest_tree_lengths[t])`. -/
def TreeCover.visit (tc : TreeCover) (i j t : Nat) (st : List (List Bool) × List Nat) :
    Except Fault (List (List Bool) × List Nat) :=
  (tc.is_edge i j).bind fun edge =>
  (if edge then Except.ok true
   else (read tc.grid i).bind fun row => (read row j).bind fun height =>
        (read st.2 t).bind fun tallest => .ok (decide (height > tallest))).bind fun is_visible =>
  (read st.1 i).bind fun mask_row => (read mask_row j).bind fun old =>
  (write mask_row j (old || is_visible)).bind fun mask_row =>
  (write st.1 i mask_row).bind fun visibility_mask =>
  (read tc.grid i).bind fun row => (read row j).bind fun height =>
  (read st.2 t).bind fun tallest =>
  (write st.2 t (max height tallest)).bind fun tallest_tree_lengths =>
  .ok (visibility_mask, tallest_tree_lengths)

/-- Embedding of `TreeCover::compute_visibility_mask_vertical_edge`. -/
def TreeCover.compute_visibility_mask_vertical_edge (tc : TreeCover)
    (compute_idx : Nat → Nat → Nat → Nat) : Except Fault (List (List Bool)) :=
  (read tc.grid 0).bind fun first =>
  let mask_rows := tc.grid.length
  let mask_columns := first.length
  tc.create_visibility_mask.bind fun visibility_mask =>
  (for_loop (fun j tallest =>
      (read tc.grid (compute_idx 0 mask_rows mask_columns)).bind fun row =>
      (read row j).bind fun height => write tallest j height)
    (List.range mask_columns) (List.replicate first.length 0)).bind fun tallest_tree_lengths =>
  (for_loop (fun idx st =>
      let i := compute_idx idx mask_rows mask_columns
      for_loop (fun j st => tc.visit i j j st) (List.range mask_columns) st)
    (List.range mask_rows) (visibility_mask, tallest_tree_lengths)).bind fun st =>
  .ok st.1

/-- Embedding of `TreeCover::compute_visibility_mask_horizontal_edge`. The vector
`tallest_tree_lengths` has `grid[0].size()` slots; the first loop runs `i` up to
`mask_columns` and reads `grid[i]`, the nested loops run `i` up to `mask_rows` and use
`tallest_tree_lengths[i]`. -/
def TreeCover.compute_visibility_mask_horizontal_edge (tc : TreeCover)
    (compute_idx : Nat → Nat → Nat → Nat) : Except Fault (List (List Bool)) :=
  (read tc.grid 0).bind fun first =>
  let mask_rows := tc.grid.length
  let mask_columns := first.length
  tc.create_visibility_mask.bind fun visibility_mask =>
  (for_loop (fun i tallest =>
      (read tc.grid i).bind fun row =>
      (read row (compute_idx 0 mask_rows mask_columns)).bind fun height =>
      write tallest i height)
    (List.range mask_columns) (List.replicate first.length 0)).bind fun tallest_tree_lengths =>
  (for_loop (fun idx st =>
      let j := compute_idx idx mask_rows mask_columns
      for_loop (fun i st => tc.visit i j i st) (List.range mask_rows) st)
    (List.range mask_columns) (visibility_mask, tallest_tree_lengths)).bind fun st =>
  .ok st.1

/-- Embedding of `TreeCover::compute_visibility_mask_top_edge`. -/
def TreeCover.compute_visibility_mask_top_edge (tc : TreeCover) :
    Except Fault (List (List Bool)) :=
  tc.compute_visibility_mask_vertical_edge (fun i _ _ => i)

/-- Embedding of `TreeCover::compute_visibility_mask_left_edge`. -/
def TreeCover.compute_visibility_mask_left_edge (tc : TreeCover) :
    Except Fault (List (List Bool)) :=
  tc.compute_visibility_mask_horizontal_edge (fun i _ _ => i)

/-- Embedding of `TreeCover::compute_visibility_mask_bottom_edge`. -/
def TreeCover.compute_visibility_mask_bottom_edge (tc : TreeCover) :
    Except Fault (List (List Bool)) :=
  tc.compute_visibility_mask_vertical_edge (fun i rows _ => size_sub (size_sub rows i) 1)

/-- Embedding of `TreeCover::compute_visibility_mask_right_edge`. -/
def TreeCover.compute_visibility_mask_right_edge (tc : TreeCover) :
    Except Fault (List (List Bool)) :=
  tc.compute_visibility_mask_horizontal_edge
    (fun i _ columns => size_sub (size_sub columns i) 1)

/-- The innermost loop of `get_visible_trees` over the masks still to come, on the variable
`combined_visibility`, with its `break`. -/
def combine_cell (i j : Nat) :
    List (List (List Bool)) → List (List Bool) → Except Fault (List (List Bool))
  | [], combined_visibility => .ok combined_visibility
  | visibility_mask :: rest, combined_visibility =>
    (read combined_visibility i).bind fun row => (read row j).bind fun old =>
    (read visibility_mask i).bind fun mask_row => (read mask_row j).bind fun seen =>
    (write row j (old || seen)).bind fun row =>
    (write combined_visibility i row).bind fun combined_visibility =>
    if seen then .ok combined_visibility
    else combine_cell i j rest combined_visibility

/-- The loop over `j` of `get_visible_trees`, with its `break`. -/
def combine_row (visibility_masks : List (List (List Bool))) (i : Nat) :
    List Nat → List (List Bool) → Except Fault (List (List Bool))
  | [], combined_visibility => .ok combined_visibility
  | j :: rest, combined_visibility =>
    (read combined_visibility i).bind fun row => (read row j).bind fun old =>
    if old then .ok combined_visibility
    else
      match combine_cell i j visibility_masks combined_visibility with
      | .error e => .error e
      | .ok combined_visibility => combine_row visibility_masks i rest combined_visibility

/-- Embedding of `TreeCover::get_visible_trees`. -/
def TreeCover.get_visible_trees (tc : TreeCover) : Except Fault (List (List Bool)) :=
  tc.compute_visibility_mask_top_edge.bind fun top =>
  tc.compute_visibility_mask_left_edge.bind fun left =>
  tc.compute_visibility_mask_bottom_edge.bind fun bottom =>
  tc.compute_visibility_mask_right_edge.bind fun right =>
  tc.create_visibility_mask.bind fun combined_visibility =>
  (read combined_visibility 0).bind fun first =>
  for_loop (fun i combined_visibility =>
      combine_row [top, left, bottom, right] i (List.range first.length) combined_visibility)
    (List.range combined_visibility.length) combined_visibility

/-- Embedding of `TreeCover::count_visible_trees`; the counter is an `unsigned int`. -/
def TreeCover.count_visible_trees (tc : TreeCover) : Except Fault Nat :=
  tc.get_visible_trees.bind fun visibility_mask =>
  .ok (visibility_mask.foldl
    (fun count i => i.foldl (fun count j => if j then (count + 1) % 2 ^ 32 else count) count) 0)

/-- The height of the tree in row `i` and column `j` (`0` outside the grid). -/
def TreeCover.height (tc : TreeCover) (i j : Nat) : Nat :=
  (tc.grid.getD i []).getD j 0

/-- Follows the statement's words: the cell in row `i` and column `j` of a grid of `rows`
by `columns` trees lies on the border, or is strictly taller than every tree between it and
the top, the bottom, the left or the right edge. -/
def TreeCover.is_visible (tc : TreeCover) (rows columns i j : Nat) : Bool :=
  decide (i = 0 ∨ i + 1 = rows ∨ j = 0 ∨ j + 1 = columns) ||
  (List.range i).all (fun k => decide (tc.height k j < tc.height i j)) ||
  (List.range (rows - (i + 1))).all
    (fun k => decide (tc.height (i + 1 + k) j < tc.height i j)) ||
  (List.range j).all (fun k => decide (tc.height i k < tc.height i j)) ||
  (List.range (columns - (j + 1))).all
    (fun k => decide (tc.height i (j + 1 + k) < tc.height i j))

/-- Follows the statement's words: the number of cells of the grid that are visible. -/
def TreeCover.visible_count (tc : TreeCover) : Nat :=
  let rows := tc.grid.length
  let columns := (tc.grid.getD 0 []).length
  ((List.range rows).map fun i =>
    ((List.range columns).filter fun j => tc.is_visible rows columns i j).length).sum

/-- A grid is rectangular and not empty. -/
def TreeCover.rectangular (tc : TreeCover) : Bool :=
  decide (0 < tc.grid.length) && decide (0 < (tc.grid.getD 0 []).length) &&
  tc.grid.all (fun row => decide (row.length = (tc.grid.getD 0 []).length))

/-- The example grid of the puzzle, five rows of five trees. -/
def example_grid : TreeCover :=
  { grid := [[3, 0, 3, 7, 3], [2, 5, 5, 1, 2], [6, 5, 3, 3, 2], [3, 3, 5, 4, 9],
             [3, 5, 3, 9, 0]] }

/-- One row of two trees. -/
def wide_grid : TreeCover := { grid := [[1, 2]] }

/-- Two rows of one tree. -/
def tall_grid : TreeCover := { grid := [[1], [2]] }

end Day08

/-! # Theorems -/

namespace Day12

/-! ## Cells, costs and neighbours -/

theorem size_pred_eq (n : Nat) (h0 : 0 < n) (h : n < 2 ^ 64) : size_pred n = n - 1 := by
  unfold size_pred
  have : n + (2 ^ 64 - 1) = (n - 1) + 2 ^ 64 := by omega
  rw [this, Nat.add_mod_right]
  exact Nat.mod_eq_of_lt (by omega)

theorem mem_scan_order (hc : HillClimber) (p : Coordinate) :
    p ∈ scan_order hc ↔ InBounds hc p := by
  unfold scan_order InBounds
  simp only [List.mem_flatMap, List.mem_range, List.mem_map]
  constructor
  · rintro ⟨i, hi, j, hj, rfl⟩
    exact ⟨hj, hi⟩
  · rintro ⟨h1, h2⟩
    exact ⟨p.2, h2, p.1, h1, rfl⟩

theorem terrain_at_in_bounds (hc : HillClimber) (hr : Rectangular hc) (p : Coordinate)
    (hp : InBounds hc p) :
    ∃ row terrain, hc.map[p.2]? = some row ∧ row[p.1]? = some terrain ∧ row ∈ hc.map ∧
      terrain ∈ row ∧ terrain_at hc p = .ok terrain := by
  obtain ⟨hlen, hrows, -, -, -, -⟩ := hr
  have h2 : p.2 < hc.map.length := by rw [hlen]; exact hp.2
  have hrow : hc.map[p.2] ∈ hc.map := List.getElem_mem h2
  have h1 : p.1 < (hc.map[p.2]).length := by rw [hrows _ hrow]; exact hp.1
  refine ⟨hc.map[p.2], (hc.map[p.2])[p.1], List.getElem?_eq_getElem h2,
    List.getElem?_eq_getElem h1, hrow, List.getElem_mem h1, ?_⟩
  unfold terrain_at
  rw [List.getElem?_eq_getElem h2]
  simp only
  rw [List.getElem?_eq_getElem h1]

theorem terrain_at_ok_in_bounds (hc : HillClimber) (hr : Rectangular hc) (p : Coordinate)
    (terrain : Char) (h : terrain_at hc p = .ok terrain) : InBounds hc p := by
  obtain ⟨hlen, hrows, -, -, -, -⟩ := hr
  unfold terrain_at at h
  split at h
  · cases h
  · rename_i row hrow
    split at h
    · cases h
    · rename_i t ht
      have h2 : p.2 < hc.map.length := by
        by_contra hcon
        rw [List.getElem?_eq_none (by omega)] at hrow
        cases hrow
      have hmem : row ∈ hc.map := List.getElem?_mem hrow
      have h1 : p.1 < row.length := by
        by_contra hcon
        rw [List.getElem?_eq_none (by omega)] at ht
        cases ht
      exact ⟨by rw [← hrows row hmem]; exact h1, by rw [← hlen]; exact h2⟩

theorem compute_cost_of_terrain (hc : HillClimber) (p : Coordinate) (terrain : Char)
    (h : terrain_at hc p = .ok terrain) :
    compute_cost hc p = .ok (if terrain = 'S' then 1 else if terrain = 'E' then 26
      else (terrain.toNat : Int) - 97 + 1) := by
  unfold compute_cost
  rw [h]
  simp only
  split_ifs <;> rfl

theorem cost_range_of_alphabet (terrain : Char) (h : in_alphabet terrain) :
    1 ≤ (if terrain = 'S' then (1 : Int) else if terrain = 'E' then 26
      else (terrain.toNat : Int) - 97 + 1) ∧
    (if terrain = 'S' then (1 : Int) else if terrain = 'E' then 26
      else (terrain.toNat : Int) - 97 + 1) ≤ 26 := by
  unfold in_alphabet at h
  split_ifs with h1 h2
  · omega
  · omega
  · rcases h with h | h | h
    · exact absurd h h1
    · exact absurd h h2
    · omega

theorem compute_cost_in_bounds (hc : HillClimber) (hr : Rectangular hc) (p : Coordinate)
    (hp : InBounds hc p) : compute_cost hc p = .ok (elevation hc p) := by
  obtain ⟨row, terrain, -, -, -, -, ht⟩ := terrain_at_in_bounds hc hr p hp
  have h := compute_cost_of_terrain hc p terrain ht
  unfold elevation
  rw [h]

theorem elevation_range (hc : HillClimber) (hr : Rectangular hc) (ha : OverAlphabet hc)
    (p : Coordinate) (hp : InBounds hc p) : 1 ≤ elevation hc p ∧ elevation hc p ≤ 26 := by
  obtain ⟨row, terrain, -, -, hrow, hmem, ht⟩ := terrain_at_in_bounds hc hr p hp
  have h := compute_cost_of_terrain hc p terrain ht
  unfold elevation
  rw [h]
  exact cost_range_of_alphabet terrain (ha row hrow terrain hmem)

theorem try_adjacent_in_bounds (hc : HillClimber) (hr : Rectangular hc) (c n : Coordinate)
    (hcb : InBounds hc c) (hnb : InBounds hc n) (adjacent : List Coordinate) :
    try_adjacent hc c n adjacent =
      .ok (adjacent ++ [n].filter (fun n => decide (elevation hc n - elevation hc c ≤ 1))) := by
  unfold try_adjacent
  rw [compute_cost_in_bounds hc hr n hnb, compute_cost_in_bounds hc hr c hcb]
  simp only [List.filter_cons, List.filter_nil]
  by_cases h : elevation hc n - elevation hc c ≤ 1
  · simp [h]
  · simp [h]

theorem guarded_try_adjacent (hc : HillClimber) (hr : Rectangular hc) (c n : Coordinate)
    (hcb : InBounds hc c) (cond : Prop) [Decidable cond] (hn : cond → InBounds hc n)
    (adjacent : List Coordinate) :
    (if cond then try_adjacent hc c n adjacent else .ok adjacent) =
      Except.ok (adjacent ++ (if cond then [n] else []).filter
        (fun n => decide (elevation hc n - elevation hc c ≤ 1))) := by
  by_cases h : cond
  · simp only [h, if_true]
    exact try_adjacent_in_bounds hc hr c n hcb (hn h) adjacent
  · simp only [h, if_false, List.filter_nil, List.append_nil]

theorem enumerate_valid_adjacents_eq (hc : HillClimber) (hr : Rectangular hc) (c : Coordinate)
    (hcb : InBounds hc c) :
    enumerate_valid_adjacents hc c =
      .ok ((orthogonal_neighbours hc c).filter
        (fun n => decide (elevation hc n - elevation hc c ≤ 1))) := by
  have hh := size_pred_eq hc.height hr.2.2.1 hr.2.2.2.2.1
  have hw := size_pred_eq hc.width hr.2.2.2.1 hr.2.2.2.2.2
  have hx := hcb.1
  have hy := hcb.2
  unfold enumerate_valid_adjacents orthogonal_neighbours
  rw [hh, hw]
  have e1 : (c.2 < hc.height - 1) = (c.2 + 1 < hc.height) := by
    apply propext; omega
  have e2 : (c.1 < hc.width - 1) = (c.1 + 1 < hc.width) := by
    apply propext; omega
  simp only [gt_iff_lt, e1, e2]
  have g1 := guarded_try_adjacent hc hr c (c.1, c.2 - 1) hcb (0 < c.2)
    (fun _ => ⟨hx, by show c.2 - 1 < hc.height; omega⟩)
  have g2 := guarded_try_adjacent hc hr c (c.1, c.2 + 1) hcb (c.2 + 1 < hc.height)
    (fun h => ⟨hx, h⟩)
  have g3 := guarded_try_adjacent hc hr c (c.1 - 1, c.2) hcb (0 < c.1)
    (fun _ => ⟨by show c.1 - 1 < hc.width; omega, hy⟩)
  have g4 := guarded_try_adjacent hc hr c (c.1 + 1, c.2) hcb (c.1 + 1 < hc.width)
    (fun h => ⟨h, hy⟩)
  simp only [g1, g2, g3, g4, Except.bind, List.filter_append, List.nil_append]

/-! ## The frontier holds what was pushed and not yet popped -/

theorem set_perm_cons (t : List Coordinate) (j : Nat) (a b : Coordinate)
    (h : t[j]? = some b) : (b :: t.set j a).Perm (a :: t) := by
  induction t generalizing j with
  | nil => simp at h
  | cons x t ih =>
    cases j with
    | zero =>
      simp only [List.getElem?_cons_zero, Option.some.injEq] at h
      subst h
      simp only [List.set_cons_zero]
      exact List.Perm.swap _ _ _
    | succ j =>
      simp only [List.getElem?_cons_succ] at h
      simp only [List.set_cons_succ]
      exact (List.Perm.swap _ _ _).trans (((ih j h).cons x).trans (List.Perm.swap _ _ _))

theorem swap_at_perm (v : List Coordinate) (i j : Nat) : (swap_at v i j).Perm v := by
  unfold swap_at
  split
  · rename_i a b ha hb
    induction v generalizing i j with
    | nil => simp at ha
    | cons x t ih =>
      cases i with
      | zero =>
        simp only [List.getElem?_cons_zero, Option.some.injEq] at ha
        subst ha
        cases j with
        | zero =>
          simp only [List.getElem?_cons_zero, Option.some.injEq] at hb
          subst hb
          simp
        | succ j =>
          simp only [List.getElem?_cons_succ] at hb
          simp only [List.set_cons_zero, List.set_cons_succ]
          exact set_perm_cons t j x b hb
      | succ i =>
        simp only [List.getElem?_cons_succ] at ha
        cases j with
        | zero =>
          simp only [List.getElem?_cons_zero, Option.some.injEq] at hb
          subst hb
          simp only [List.set_cons_zero, List.set_cons_succ]
          exact set_perm_cons t i x a ha
        | succ j =>
          simp only [List.getElem?_cons_succ] at hb
          simp only [List.set_cons_succ]
          exact (ih i j ha hb).cons x
  · exact List.Perm.refl _

theorem push_heap_loop_perm (comp : Coordinate → Coordinate → Bool) (topIndex fuel : Nat)
    (v : List Coordinate) (holeIndex : Nat) :
    (push_heap_loop comp topIndex fuel v holeIndex).Perm v := by
  induction fuel generalizing v holeIndex with
  | zero => exact List.Perm.refl _
  | succ fuel ih =>
    unfold push_heap_loop
    simp only
    split_ifs
    · split
      · split_ifs
        · exact (ih _ _).trans (swap_at_perm _ _ _)
        · exact List.Perm.refl _
      · exact List.Perm.refl _
    · exact List.Perm.refl _

theorem adjust_heap_loop_perm (comp : Coordinate → Coordinate → Bool) (len fuel : Nat)
    (v : List Coordinate) (holeIndex : Nat) :
    (adjust_heap_loop comp len fuel v holeIndex).1.Perm v := by
  induction fuel generalizing v holeIndex with
  | zero => exact List.Perm.refl _
  | succ fuel ih =>
    unfold adjust_heap_loop
    simp only
    split_ifs
    · split
      · exact (ih _ _).trans (swap_at_perm _ _ _)
      · exact List.Perm.refl _
    · exact List.Perm.refl _

theorem adjust_heap_perm (comp : Coordinate → Coordinate → Bool) (len : Nat)
    (v : List Coordinate) : (adjust_heap comp len v).Perm v := by
  unfold adjust_heap
  simp only
  split_ifs
  · exact (push_heap_loop_perm _ _ _ _ _).trans
      ((swap_at_perm _ _ _).trans (adjust_heap_loop_perm _ _ _ _ _))
  · exact (push_heap_loop_perm _ _ _ _ _).trans (adjust_heap_loop_perm _ _ _ _ _)

theorem frontier_push_perm (comp : Coordinate → Coordinate → Bool) (c : List Coordinate)
    (x : Coordinate) : (frontier_push comp c x).Perm (x :: c) := by
  unfold frontier_push push_heap
  exact (push_heap_loop_perm _ _ _ _ _).trans (List.perm_append_singleton x c)

theorem frontier_pop_perm (comp : Coordinate → Coordinate → Bool) (top : Coordinate)
    (rest : List Coordinate) : (frontier_pop comp (top :: rest)).Perm rest := by
  unfold frontier_pop
  rcases List.eq_nil_or_concat rest with h | ⟨mid, value, h⟩
  · subst h
    simp
  · rw [List.concat_eq_append] at h
    subst h
    have h1 : (top :: (mid ++ [value])).getLast? = some value := by
      rw [← List.cons_append, List.getLast?_append]
      simp
    have h2 : (top :: (mid ++ [value])).dropLast = top :: mid := by
      rw [← List.cons_append, List.dropLast_concat]
    rw [h1]
    simp only [h2, List.set_cons_zero]
    split_ifs
    · exact (adjust_heap_perm _ _ _).trans (List.perm_append_singleton value mid).symm
    · rename_i hlen
      simp at hlen

/-! ## Counting and summing over the grid -/

theorem length_scan_order (hc : HillClimber) :
    (scan_order hc).length = hc.width * hc.height := by
  unfold scan_order
  rw [List.length_flatMap]
  induction hc.height with
  | zero => simp
  | succ n ih =>
    rw [List.range_succ, List.map_append, List.sum_append, ih]
    simp [Nat.mul_succ]

theorem recorded_count_le (hc : HillClimber) (costs : CostMap) :
    recorded_count hc costs ≤ hc.width * hc.height := by
  unfold recorded_count
  rw [← length_scan_order]
  exact List.countP_le_length _

theorem countP_mono_strict (l : List Coordinate) (p q : Coordinate → Bool)
    (hpq : ∀ x, p x = true → q x = true) (y : Coordinate) (hy : y ∈ l) (hp : p y = false)
    (hq : q y = true) : l.countP p + 1 ≤ l.countP q := by
  induction l with
  | nil => simp at hy
  | cons x t ih =>
    rcases List.mem_cons.mp hy with h | h
    · subst h
      have hmono : t.countP p ≤ t.countP q := List.countP_mono_left (fun x _ => hpq x)
      rw [List.countP_cons_of_neg _ _ (by simp [hp]), List.countP_cons_of_pos _ _ hq]
      omega
    · have := ih h
      by_cases hx : p x = true
      · rw [List.countP_cons_of_pos _ _ hx, List.countP_cons_of_pos _ _ (hpq x hx)]
        omega
      · rw [List.countP_cons_of_neg _ _ hx]
        have : t.countP q ≤ (x :: t).countP q := by
          rw [List.countP_cons]; omega
        omega

theorem sum_map_lt (l : List Coordinate) (f g : Coordinate → Nat)
    (hle : ∀ x, g x ≤ f x) (y : Coordinate) (hy : y ∈ l) (hlt : g y < f y) :
    (l.map g).sum + 1 ≤ (l.map f).sum := by
  induction l with
  | nil => simp at hy
  | cons x t ih =>
    have hmono : (t.map g).sum ≤ (t.map f).sum := by
      clear ih hy
      induction t with
      | nil => simp
      | cons z t iht =>
        simp only [List.map_cons, List.sum_cons]
        have := hle z
        omega
    simp only [List.map_cons, List.sum_cons]
    rcases List.mem_cons.mp hy with h | h
    · subst h
      omega
    · have := ih h
      have := hle x
      omega

theorem chain_snoc (R : Coordinate → Coordinate → Prop) (a : Coordinate) (l : List Coordinate)
    (x : Coordinate) (hl : List.Chain R a l) (hx : ∀ b, (a :: l).getLast? = some b → R b x) :
    List.Chain R a (l ++ [x]) := by
  induction l generalizing a with
  | nil =>
    simp only [List.nil_append]
    exact List.Chain.cons (hx a (by simp)) List.Chain.nil
  | cons y t ih =>
    rw [List.chain_cons] at hl
    simp only [List.cons_append]
    refine List.Chain.cons hl.1 (ih y hl.2 ?_)
    intro b hb
    apply hx b
    rw [List.getLast?_cons_cons]
    exact hb

/-! ## Legal moves -/

theorem adj_iff (hc : HillClimber) (hr : Rectangular hc) (a b : Coordinate)
    (ha : InBounds hc a) :
    Adj hc a b ↔ b ∈ orthogonal_neighbours hc a ∧ elevation hc b - elevation hc a ≤ 1 := by
  unfold Adj valid_adjacents
  rw [enumerate_valid_adjacents_eq hc hr a ha]
  simp

theorem mem_orthogonal_neighbours (hc : HillClimber) (a b : Coordinate)
    (ha : InBounds hc a) (h : b ∈ orthogonal_neighbours hc a) : InBounds hc b ∧ b ≠ a := by
  obtain ⟨h1, h2⟩ := ha
  unfold orthogonal_neighbours at h
  simp only [List.mem_append] at h
  unfold InBounds
  rcases h with ((h | h) | h) | h <;> split_ifs at h <;> simp at h <;> subst h <;>
    refine ⟨⟨?_, ?_⟩, ?_⟩ <;> simp [Prod.ext_iff] <;> omega

theorem adj_in_bounds (hc : HillClimber) (hr : Rectangular hc) (a b : Coordinate)
    (ha : InBounds hc a) (h : Adj hc a b) : InBounds hc b ∧ b ≠ a :=
  mem_orthogonal_neighbours hc a b ha ((adj_iff hc hr a b ha).mp h).1

/-! ## One relaxation keeps the invariant and does not raise the measure -/

theorem map_set_self {V : Type} (m : Coordinate → Option V) (k : Coordinate) (v : V) :
    map_set m k v k = some v := by
  simp [map_set]

theorem map_set_other {V : Type} (m : Coordinate → Option V) (k k' : Coordinate) (v : V)
    (h : k' ≠ k) : map_set m k v k' = m k' := by
  simp [map_set, h]

theorem map_set_isSome {V : Type} (m : Coordinate → Option V) (k : Coordinate) (v : V)
    (x : Coordinate) (h : (m x).isSome = true) : (map_set m k v x).isSome = true := by
  by_cases hx : x = k
  · subst hx; simp [map_set]
  · rw [map_set_other m k x v hx]; exact h

theorem recorded_count_update (hc : HillClimber) (costs : CostMap) (next : Coordinate) (v : Int) :
    recorded_count hc costs ≤ recorded_count hc (map_set costs next v) := by
  unfold recorded_count
  exact List.countP_mono_left (fun x _ h => map_set_isSome costs next v x h)

theorem recorded_count_update_new (hc : HillClimber) (costs : CostMap) (next : Coordinate)
    (v : Int) (hn : InBounds hc next) (hnone : costs next = none) :
    recorded_count hc costs + 1 ≤ recorded_count hc (map_set costs next v) := by
  unfold recorded_count
  refine countP_mono_strict _ _ _ (fun x h => map_set_isSome costs next v x h) next
    ((mem_scan_order hc next).mpr hn) ?_ ?_
  · simp [hnone]
  · simp [map_set]

theorem inv_update (hc : HillClimber) (hr : Rectangular hc) (ha : OverAlphabet hc)
    (start cur next : Coordinate) (s : Search) (hinv : Inv hc start (some cur) s)
    (cc : Int) (hcur : s.costs cur = some cc) (hadj : Adj hc cur next)
    (himp : s.costs next = none ∨
      ∃ old, s.costs next = some old ∧ cc + elevation hc next < old)
    (fr : List Coordinate) (hfr : ∀ x, x ∈ fr ↔ x = next ∨ x ∈ s.frontier) :
    Inv hc start (some cur)
      { frontier := fr, from_ := map_set s.from_ next cur
        costs := map_set s.costs next (cc + elevation hc next) } := by
  have hcb : InBounds hc cur := hinv.in_bounds cur cc hcur
  obtain ⟨hnb, hne⟩ := adj_in_bounds hc hr cur next hcb hadj
  have hel := elevation_range hc hr ha next hnb
  have hcc0 := hinv.nonneg cur cc hcur
  have hns : next ≠ start := by
    intro h
    subst h
    rcases himp with h | ⟨old, h, hlt⟩
    · rw [hinv.start_cost] at h; cases h
    · rw [hinv.start_cost] at h
      cases h
      omega
  have hcount := recorded_count_update hc s.costs next (cc + elevation hc next)
  refine ⟨?_, ?_, ?_, ?_, ?_, ?_, ?_, ?_, ?_⟩
  · show map_set s.costs next _ start = some 0
    rw [map_set_other _ _ _ _ (Ne.symm hns)]; exact hinv.start_cost
  · show map_set s.from_ next _ start = some start
    rw [map_set_other _ _ _ _ (Ne.symm hns)]; exact hinv.start_from
  · intro x c hx
    change map_set s.costs next _ x = some c at hx
    by_cases hxn : x = next
    · subst hxn; exact hnb
    · rw [map_set_other _ _ _ _ hxn] at hx; exact hinv.in_bounds x c hx
  · intro x c hx
    change map_set s.costs next _ x = some c at hx
    by_cases hxn : x = next
    · subst hxn
      rw [map_set_self] at hx
      cases hx
      omega
    · rw [map_set_other _ _ _ _ hxn] at hx; exact hinv.nonneg x c hx
  · intro x c hx
    change map_set s.costs next _ x = some c at hx
    show c ≤ 26 * (recorded_count hc (map_set s.costs next _) : Int)
    by_cases hxn : x = next
    · subst hxn
      rw [map_set_self] at hx
      cases hx
      have hb := hinv.bounded cur cc hcur
      rcases himp with h | ⟨old, h, hlt⟩
      · have := recorded_count_update_new hc s.costs x (cc + elevation hc x) hnb h
        omega
      · have := hinv.bounded x old h
        omega
    · rw [map_set_other _ _ _ _ hxn] at hx
      have := hinv.bounded x c hx
      omega
  · intro x c hx hxs
    change map_set s.costs next _ x = some c at hx
    show ∃ p cp, map_set s.from_ next cur x = some p ∧ map_set s.costs next _ p = some cp ∧ _
    by_cases hxn : x = next
    · subst hxn
      rw [map_set_self] at hx
      cases hx
      refine ⟨cur, cc, map_set_self _ _ _, ?_, hadj, le_refl _⟩
      rw [map_set_other _ _ _ _ (Ne.symm hne)]; exact hcur
    · rw [map_set_other _ _ _ _ hxn] at hx
      obtain ⟨p, cp, hp1, hp2, hp3, hp4⟩ := hinv.pred x c hx hxs
      by_cases hpn : p = next
      · subst hpn
        refine ⟨p, cc + elevation hc p, ?_, map_set_self _ _ _, hp3, ?_⟩
        · rw [map_set_other _ _ _ _ hxn]; exact hp1
        · rcases himp with h | ⟨old, h, hlt⟩
          · rw [hp2] at h; cases h
          · rw [hp2] at h
            cases h
            omega
      · refine ⟨p, cp, ?_, ?_, hp3, hp4⟩
        · rw [map_set_other _ _ _ _ hxn]; exact hp1
        · rw [map_set_other _ _ _ _ hpn]; exact hp2
  · intro x hx
    show (map_set s.costs next _ x).isSome = true
    rcases (hfr x).mp hx with h | h
    · subst h; simp [map_set]
    · exact map_set_isSome _ _ _ _ (hinv.frontier_recorded x h)
  · intro x hx
    change (map_set s.costs next _ x).isSome = true at hx
    show x ∈ fr ∨ some x = some cur ∨
      (_ ∧ ∀ n, Adj hc x n → (map_set s.costs next _ n).isSome = true)
    by_cases hxn : x = next
    · exact Or.inl ((hfr x).mpr (Or.inl hxn))
    · rw [map_set_other _ _ _ _ hxn] at hx
      rcases hinv.closed x hx with h | h | ⟨h1, h2⟩
      · exact Or.inl ((hfr x).mpr (Or.inr h))
      · exact Or.inr (Or.inl h)
      · exact Or.inr (Or.inr ⟨h1, fun n hn => map_set_isSome _ _ _ _ (h2 n hn)⟩)
  · intro x hx
    change (map_set s.costs next _ x).isSome = true at hx
    by_cases hxn : x = next
    · subst hxn
      exact Relation.ReflTransGen.tail (hinv.reach cur (by simp [hcur])) hadj
    · rw [map_set_other _ _ _ _ hxn] at hx
      exact hinv.reach x hx

theorem potential_update (hc : HillClimber) (costs : CostMap) (next : Coordinate) (nc : Int)
    (hn : InBounds hc next) (h0 : 0 ≤ nc) (hle : nc ≤ 26 * ((hc.width * hc.height : Nat) : Int))
    (himp : costs next = none ∨ ∃ old, costs next = some old ∧ nc < old) :
    ((scan_order hc).map (cell_potential hc (map_set costs next nc))).sum + 1 ≤
      ((scan_order hc).map (cell_potential hc costs)).sum := by
  apply sum_map_lt _ _ _ _ next ((mem_scan_order hc next).mpr hn)
  · unfold cell_potential
    rw [map_set_self]
    rcases himp with h | ⟨old, h, hlt⟩
    · rw [h]
      simp only
      omega
    · rw [h]
      simp only
      omega
  · intro x
    by_cases hx : x = next
    · subst hx
      unfold cell_potential
      rw [map_set_self]
      rcases himp with h | ⟨old, h, hlt⟩
      · rw [h]
        simp only
        omega
      · rw [h]
        simp only
        omega
    · unfold cell_potential
      rw [map_set_other _ _ _ _ hx]

theorem relax_inv (hc : HillClimber) (hr : Rectangular hc) (ha : OverAlphabet hc)
    (start cur next : Coordinate) (s : Search) (hinv : Inv hc start (some cur) s)
    (hcur : (s.costs cur).isSome = true) (hadj : Adj hc cur next) :
    ∃ s', relax hc cur s next = .ok s' ∧ Inv hc start (some cur) s' ∧
      (s'.costs next).isSome = true ∧
      (∀ x, (s.costs x).isSome = true → (s'.costs x).isSome = true) ∧
      potential hc s' ≤ potential hc s := by
  obtain ⟨cc, hcc⟩ := Option.isSome_iff_exists.mp hcur
  have hcb : InBounds hc cur := hinv.in_bounds cur cc hcc
  obtain ⟨hnb, -⟩ := adj_in_bounds hc hr cur next hcb hadj
  have hel := elevation_range hc hr ha next hnb
  have hcc0 := hinv.nonneg cur cc hcc
  have hupd : ∀ (himp : s.costs next = none ∨
      ∃ old, s.costs next = some old ∧ cc + elevation hc next < old),
      ∃ s', (Except.ok
        ({ costs := map_set s.costs next (cc + elevation hc next)
           frontier := frontier_push
            (compare hc (map_set s.costs next (cc + elevation hc next))) s.frontier next
           from_ := map_set s.from_ next cur } : Search) : Except Fault Search) = Except.ok s' ∧
        Inv hc start (some cur) s' ∧ (s'.costs next).isSome = true ∧
        (∀ x, (s.costs x).isSome = true → (s'.costs x).isSome = true) ∧
        potential hc s' ≤ potential hc s := by
    intro himp
    have hperm := frontier_push_perm
      (compare hc (map_set s.costs next (cc + elevation hc next))) s.frontier next
    have hinv' := inv_update hc hr ha start cur next s hinv cc hcc hadj himp _
      (fun x => by rw [hperm.mem_iff]; exact List.mem_cons)
    refine ⟨_, rfl, hinv', by simp [map_set], fun x hx => map_set_isSome _ _ _ _ hx, ?_⟩
    have hb := hinv'.bounded next _ (map_set_self _ _ _)
    have hcnt := recorded_count_le hc (map_set s.costs next (cc + elevation hc next))
    have hpot := potential_update hc s.costs next (cc + elevation hc next) hnb (by omega)
      (by push_cast at hb ⊢; omega) himp
    unfold potential
    simp only
    rw [hperm.length_eq, List.length_cons]
    omega
  unfold relax
  rw [compute_cost_in_bounds hc hr next hnb]
  simp only [cost_of, hcc, Option.getD_some]
  cases hnext : s.costs next with
  | none =>
    simp only [Option.isSome_none, Bool.not_false, Bool.true_or, if_true]
    exact hupd (Or.inl hnext)
  | some old =>
    simp only [Option.isSome_some, Bool.not_true, Bool.false_or, Option.getD_some,
      decide_eq_true_eq]
    split_ifs with hlt
    · exact hupd (Or.inr ⟨old, hnext, hlt⟩)
    · exact ⟨s, rfl, hinv, by simp [hnext], fun x hx => hx, le_refl _⟩

theorem relax_all_inv (hc : HillClimber) (hr : Rectangular hc) (ha : OverAlphabet hc)
    (start cur : Coordinate) (adjacent : List Coordinate) (s : Search)
    (hinv : Inv hc start (some cur) s) (hcur : (s.costs cur).isSome = true)
    (hadj : ∀ n ∈ adjacent, Adj hc cur n) :
    ∃ s', relax_all hc cur s adjacent = .ok s' ∧ Inv hc start (some cur) s' ∧
      (∀ n ∈ adjacent, (s'.costs n).isSome = true) ∧
      (∀ x, (s.costs x).isSome = true → (s'.costs x).isSome = true) ∧
      potential hc s' ≤ potential hc s := by
  induction adjacent generalizing s with
  | nil => exact ⟨s, rfl, hinv, fun n hn => by simp at hn, fun x hx => hx, le_refl _⟩
  | cons next rest ih =>
    obtain ⟨s1, h1, hinv1, hrec1, hmono1, hpot1⟩ :=
      relax_inv hc hr ha start cur next s hinv hcur (hadj next (List.mem_cons_self _ _))
    obtain ⟨s2, h2, hinv2, hrec2, hmono2, hpot2⟩ :=
      ih s1 hinv1 (hmono1 cur hcur) (fun n hn => hadj n (List.mem_cons_of_mem _ hn))
    refine ⟨s2, ?_, hinv2, ?_, fun x hx => hmono2 x (hmono1 x hx), le_trans hpot2 hpot1⟩
    · unfold relax_all
      rw [h1]
      exact h2
    · intro n hn
      rcases List.mem_cons.mp hn with h | h
      · subst h; exact hmono2 n hrec1
      · exact hrec2 n h

/-! ## Building the path -/

theorem build_path_spec (hc : HillClimber) (hr : Rectangular hc) (ha : OverAlphabet hc)
    (start : Coordinate) (cur : Option Coordinate) (s : Search) (hinv : Inv hc start cur s)
    (fuel : Nat) (x : Coordinate) (c : Int) (acc : List Coordinate)
    (hx : s.costs x = some c) (hfuel : c.toNat < fuel) :
    ∃ l, build_path s.from_ start fuel x acc = .ok (l ++ acc) ∧
      List.Chain (Adj hc) start l ∧ (start :: l).getLast? = some x ∧ start ∉ l := by
  induction fuel generalizing x c acc with
  | zero => omega
  | succ fuel ih =>
    unfold build_path
    by_cases hxs : x = start
    · subst hxs
      refine ⟨[], by simp, List.Chain.nil, by simp, by simp⟩
    · simp only [ne_eq, hxs, not_false_eq_true, if_true]
      obtain ⟨p, cp, hp1, hp2, hp3, hp4⟩ := hinv.pred x c hx hxs
      have hel := elevation_range hc hr ha x (hinv.in_bounds x c hx)
      have hcp0 := hinv.nonneg p cp hp2
      have hfrom : from_of s.from_ x = p := by simp [from_of, hp1]
      rw [hfrom]
      obtain ⟨l, hl1, hl2, hl3, hl4⟩ := ih p cp (x :: acc) hp2 (by omega)
      refine ⟨l ++ [x], ?_, ?_, ?_, ?_⟩
      · rw [hl1]; simp
      · apply chain_snoc _ _ _ _ hl2
        intro b hb
        rw [hl3] at hb
        cases hb
        exact hp3
      · rw [← List.cons_append, List.getLast?_append]
        simp
      · simp only [List.mem_append, List.mem_singleton, not_or]
        exact ⟨hl4, Ne.symm hxs⟩

/-! ## The main loop -/

theorem inv_initial (hc : HillClimber) (start : Coordinate) (hs : InBounds hc start) :
    Inv hc start none (initial_search start) := by
  have key : ∀ x, ((initial_search start).costs x).isSome = true → x = start := by
    intro x hx
    by_contra hne
    simp [initial_search, map_set, hne] at hx
  have key2 : ∀ x c, (initial_search start).costs x = some c → x = start ∧ c = 0 := by
    intro x c hx
    have h1 := key x (by simp [hx])
    subst h1
    simp [initial_search, map_set] at hx
    exact ⟨rfl, hx.symm⟩
  refine ⟨by simp [initial_search, map_set], by simp [initial_search, map_set], ?_, ?_, ?_, ?_,
    ?_, ?_, ?_⟩
  · intro x c hx
    rw [(key2 x c hx).1]; exact hs
  · intro x c hx
    rw [(key2 x c hx).2]
  · intro x c hx
    rw [(key2 x c hx).2]
    omega
  · intro x c hx hne
    exact absurd (key2 x c hx).1 hne
  · intro x hx
    simp only [initial_search, List.mem_singleton] at hx
    subst hx
    simp [initial_search, map_set]
  · intro x hx
    refine Or.inl ?_
    rw [key x hx]
    simp [initial_search]
  · intro x hx
    rw [key x hx]
    exact Relation.ReflTransGen.refl

theorem potential_initial (hc : HillClimber) (start : Coordinate) :
    potential hc (initial_search start) < fuel_bound hc := by
  have hcell : ∀ x, cell_potential hc (initial_search start).costs x ≤
      26 * (hc.width * hc.height) + 1 := by
    intro x
    unfold cell_potential initial_search map_set
    simp only
    split_ifs <;> simp
  have hsum : ∀ (l : List Coordinate),
      (l.map (cell_potential hc (initial_search start).costs)).sum ≤
        l.length * (26 * (hc.width * hc.height) + 1) := by
    intro l
    induction l with
    | nil => simp
    | cons x t ih =>
      simp only [List.map_cons, List.sum_cons, List.length_cons]
      have := hcell x
      rw [Nat.succ_mul]
      omega
  have h := hsum (scan_order hc)
  rw [length_scan_order] at h
  unfold potential fuel_bound
  have hf : (initial_search start).frontier.length = 1 := by simp [initial_search]
  rw [hf, Nat.mul_assoc]
  omega

theorem inv_pop (hc : HillClimber) (start top : Coordinate) (rest : List Coordinate)
    (s : Search) (hinv : Inv hc start none s) (hf : s.frontier = top :: rest)
    (comp : Coordinate → Coordinate → Bool) :
    Inv hc start (some top) { s with frontier := frontier_pop comp s.frontier } ∧
      potential hc { s with frontier := frontier_pop comp s.frontier } + 1 = potential hc s := by
  have hperm : (frontier_pop comp s.frontier).Perm rest := by
    rw [hf]; exact frontier_pop_perm comp top rest
  refine ⟨⟨hinv.start_cost, hinv.start_from, hinv.in_bounds, hinv.nonneg, hinv.bounded,
    hinv.pred, ?_, ?_, hinv.reach⟩, ?_⟩
  · intro x hx
    apply hinv.frontier_recorded x
    rw [hf]
    exact List.mem_cons_of_mem _ (hperm.mem_iff.mp hx)
  · intro x hx
    rcases hinv.closed x hx with h | h | h
    · rw [hf] at h
      rcases List.mem_cons.mp h with h | h
      · exact Or.inr (Or.inl (by rw [h]))
      · exact Or.inl (hperm.mem_iff.mpr h)
    · cases h
    · exact Or.inr (Or.inr h)
  · unfold potential
    simp only
    rw [hperm.length_eq, hf, List.length_cons]
    omega

theorem inv_close (hc : HillClimber) (start cur : Coordinate) (s : Search)
    (hinv : Inv hc start (some cur) s) (hgoal : is_goal hc cur = .ok false)
    (hadj : ∀ n, Adj hc cur n → (s.costs n).isSome = true) : Inv hc start none s := by
  refine ⟨hinv.start_cost, hinv.start_from, hinv.in_bounds, hinv.nonneg, hinv.bounded,
    hinv.pred, hinv.frontier_recorded, ?_, hinv.reach⟩
  intro x hx
  rcases hinv.closed x hx with h | h | h
  · exact Or.inl h
  · cases h
    exact Or.inr (Or.inr ⟨hgoal, hadj⟩)
  · exact Or.inr (Or.inr h)

theorem exhausted_no_goal (hc : HillClimber) (start : Coordinate) (s : Search)
    (hinv : Inv hc start none s) (hf : s.frontier = []) (x : Coordinate)
    (hx : Reachable hc start x) : is_goal hc x = .ok false := by
  have hrec : (s.costs x).isSome = true := by
    induction hx with
    | refl => simp [hinv.start_cost]
    | tail _ hbc ih =>
      rcases hinv.closed _ ih with h | h | h
      · rw [hf] at h; simp at h
      · cases h
      · exact h.2 _ hbc
  rcases hinv.closed x hrec with h | h | h
  · rw [hf] at h; simp at h
  · cases h
  · exact h.1

theorem is_goal_in_bounds (hc : HillClimber) (hr : Rectangular hc) (p : Coordinate)
    (hp : InBounds hc p) : ∃ b, is_goal hc p = .ok b := by
  obtain ⟨row, terrain, -, -, -, -, ht⟩ := terrain_at_in_bounds hc hr p hp
  unfold is_goal
  rw [ht]
  exact ⟨_, rfl⟩

theorem search_loop_spec (hc : HillClimber) (hr : Rectangular hc) (ha : OverAlphabet hc)
    (start : Coordinate) (fuel : Nat) (s : Search) (hinv : Inv hc start none s)
    (hfuel : potential hc s < fuel) :
    ∃ path, search_loop hc start fuel s = .ok path ∧ PathResult hc start path := by
  induction fuel generalizing s with
  | zero => omega
  | succ fuel ih =>
    unfold search_loop
    cases hf : s.frontier with
    | nil =>
      exact ⟨[], rfl, Or.inl ⟨rfl, Or.inr (exhausted_no_goal hc start s hinv hf)⟩⟩
    | cons top rest =>
      simp only
      obtain ⟨hinv1, hpot1⟩ := inv_pop hc start top rest s hinv hf (compare hc s.costs)
      rw [hf] at hinv1 hpot1
      have htop : (s.costs top).isSome = true :=
        hinv.frontier_recorded top (by rw [hf]; exact List.mem_cons_self _ _)
      obtain ⟨c, hc1⟩ := Option.isSome_iff_exists.mp htop
      have htb : InBounds hc top := hinv.in_bounds top c hc1
      obtain ⟨b, hb⟩ := is_goal_in_bounds hc hr top htb
      rw [hb]
      cases b with
      | true =>
        simp only
        have hbound := hinv.bounded top c hc1
        have hcnt := recorded_count_le hc s.costs
        have h0 := hinv.nonneg top c hc1
        obtain ⟨l, hl1, hl2, hl3, hl4⟩ := build_path_spec hc hr ha start none s hinv
          (path_fuel hc) top c [] hc1 (by unfold path_fuel; omega)
        rw [List.append_nil] at hl1
        refine ⟨l, hl1, ?_⟩
        by_cases hts : top = start
        · subst hts
          refine Or.inl ⟨?_, Or.inl hb⟩
          cases l with
          | nil => rfl
          | cons y t =>
            exfalso
            rw [List.getLast?_cons_cons] at hl3
            exact hl4 (List.mem_of_getLast?_eq_some hl3)
        · refine Or.inr ⟨top, hb, hts, hl2, hl3, hl4, ?_⟩
          intro hnil
          subst hnil
          simp at hl3
          exact hts hl3.symm
      | false =>
        simp only
        have hadj := enumerate_valid_adjacents_eq hc hr top htb
        rw [hadj]
        simp only
        have hmem : ∀ n, n ∈ (orthogonal_neighbours hc top).filter
            (fun n => decide (elevation hc n - elevation hc top ≤ 1)) ↔ Adj hc top n := by
          intro n
          unfold Adj valid_adjacents
          rw [hadj]
        obtain ⟨s', hs1, hinv2, hrec2, -, hpot2⟩ := relax_all_inv hc hr ha start top _ _ hinv1
          htop (fun n hn => (hmem n).mp hn)
        rw [hs1]
        simp only
        have hinv3 := inv_close hc start top s' hinv2 hb (fun n hn => hrec2 n ((hmem n).mpr hn))
        exact ih s' hinv3 (by omega)

theorem get_path_spec (hc : HillClimber) (hr : Rectangular hc) (ha : OverAlphabet hc)
    (start : Coordinate) (hs : InBounds hc start) :
    ∃ path, get_path hc start = .ok path ∧ PathResult hc start path :=
  search_loop_spec hc hr ha start (fuel_bound hc) (initial_search start)
    (inv_initial hc start hs) (potential_initial hc start)

theorem search_loop_mono (hc : HillClimber) (start : Coordinate) (fuel : Nat) (s : Search)
    (path : List Coordinate) (h : search_loop hc start fuel s = .ok path) :
    search_loop hc start (fuel + 1) s = .ok path := by
  induction fuel generalizing s with
  | zero => simp [search_loop] at h
  | succ fuel ih =>
    rw [search_loop] at h ⊢
    cases hf : s.frontier with
    | nil => rw [hf] at h; exact h
    | cons top rest =>
      rw [hf] at h
      simp only at h ⊢
      cases hg : is_goal hc top with
      | error e => rw [hg] at h; cases h
      | ok b =>
        rw [hg] at h
        cases b with
        | true => exact h
        | false =>
          simp only at h ⊢
          cases ha : enumerate_valid_adjacents hc top with
          | error e => rw [ha] at h; cases h
          | ok adjacent =>
            rw [ha] at h
            simp only at h ⊢
            cases hr : relax_all hc top
                { s with frontier := frontier_pop (compare hc s.costs) (top :: rest) }
                adjacent with
            | error e => rw [hr] at h; cases h
            | ok s' =>
              rw [hr] at h
              simp only at h ⊢
              exact ih s' h

theorem search_loop_mono_le (hc : HillClimber) (start : Coordinate) (fuel fuel' : Nat)
    (s : Search) (path : List Coordinate) (hle : fuel ≤ fuel')
    (h : search_loop hc start fuel s = .ok path) :
    search_loop hc start fuel' s = .ok path := by
  induction hle with
  | refl => exact h
  | step _ ih => exact search_loop_mono hc start _ s path ih

/-! ## The goal cell of a validated terrain -/

theorem is_goal_iff_end (hc : HillClimber) (hv : Validated hc) (g : Coordinate) :
    is_goal hc g = .ok true ↔ g = hc.end_ := by
  obtain ⟨hr, -, -, hend, -, hE⟩ := hv
  constructor
  · intro h
    unfold is_goal at h
    split at h
    · cases h
    · rename_i terrain ht
      simp only [Except.ok.injEq, decide_eq_true_eq] at h
      subst h
      exact (hE g ((mem_scan_order hc g).mpr (terrain_at_ok_in_bounds hc hr g _ ht))).mp ht
  · intro h
    subst h
    have := (hE hc.end_ hend).mpr rfl
    unfold is_goal
    rw [this]
    rfl

theorem adj_def (hc : HillClimber) (a b : Coordinate) :
    Adj hc a b ↔
      ∃ adjacent, enumerate_valid_adjacents hc a = .ok adjacent ∧ b ∈ adjacent := by
  unfold Adj valid_adjacents
  cases enumerate_valid_adjacents hc a with
  | error e => simp
  | ok adjacent => simp

theorem reachable_of_chain (hc : HillClimber) (start g : Coordinate) (path : List Coordinate)
    (h1 : List.Chain (Adj hc) start path) (h2 : (start :: path).getLast? = some g) :
    Reachable hc start g := by
  induction path generalizing start with
  | nil =>
    simp at h2
    subst h2
    exact Relation.ReflTransGen.refl
  | cons y t ih =>
    rw [List.chain_cons] at h1
    rw [List.getLast?_cons_cons] at h2
    exact Relation.ReflTransGen.head h1.1 (ih y h1.2 h2)

/-! ## The scan of `get_scenic_path` -/

theorem scenic_loop_spec (hc : HillClimber) (hr : Rectangular hc) (ha : OverAlphabet hc)
    (l : List Coordinate) (hl : ∀ p ∈ l, InBounds hc p) (st : List Coordinate × Bool) :
    ∃ st', scenic_loop hc st l = .ok st' ∧
      (st.2 = true → st'.2 = true ∧ st'.1.length ≤ st.1.length) ∧
      (∀ p ∈ l, elevation hc p = 1 → ∀ path, get_path hc p = .ok path → path ≠ [] →
        st'.1.length ≤ path.length) ∧
      (st'.1 = st.1 ∨ ∃ p ∈ l, elevation hc p = 1 ∧ get_path hc p = .ok st'.1) := by
  induction l generalizing st with
  | nil =>
    exact ⟨st, rfl, fun h => ⟨h, le_refl _⟩, fun p hp => by simp at hp, Or.inl rfl⟩
  | cons q rest ih =>
    have hq := hl q (List.mem_cons_self _ _)
    have hrest : ∀ p ∈ rest, InBounds hc p := fun p hp => hl p (List.mem_cons_of_mem _ hp)
    unfold scenic_loop scenic_step
    rw [compute_cost_in_bounds hc hr q hq]
    simp only
    by_cases hone : elevation hc q = 1
    · obtain ⟨path, hpath, -⟩ := get_path_spec hc hr ha q hq
      simp only [hone, if_true, hpath]
      have hnew : ∃ new1 : List Coordinate,
          (if (!st.2 || (!path.isEmpty && decide (path.length < st.1.length))) = true
            then path else st.1) = new1 ∧
          ((new1 = path ∧ (st.2 = true → path.length < st.1.length)) ∨
           (new1 = st.1 ∧ st.2 = true ∧ (path ≠ [] → st.1.length ≤ path.length))) := by
        refine ⟨_, rfl, ?_⟩
        split_ifs with hcond
        · refine Or.inl ⟨rfl, fun hset => ?_⟩
          simp only [hset, Bool.not_true, Bool.false_or, Bool.and_eq_true,
            decide_eq_true_eq] at hcond
          exact hcond.2
        · refine Or.inr ⟨rfl, ?_, ?_⟩
          · cases h2 : st.2
            · simp [h2] at hcond
            · rfl
          · intro hne
            by_contra hlt
            apply hcond
            have : path.isEmpty = false := by
              cases path with
              | nil => exact absurd rfl hne
              | cons _ _ => rfl
            simp only [this, Bool.not_false, Bool.true_and, Bool.or_eq_true,
              decide_eq_true_eq]
            exact Or.inr (by omega)
      obtain ⟨new1, hnew1, hcases⟩ := hnew
      rw [hnew1]
      obtain ⟨st', h1, h2, h3, h4⟩ := ih hrest (new1, true)
      obtain ⟨hset', hlen⟩ := h2 rfl
      simp only at hlen h4
      refine ⟨st', h1, ?_, ?_, ?_⟩
      · intro hset
        refine ⟨hset', ?_⟩
        rcases hcases with ⟨e, hlt⟩ | ⟨e, -, -⟩
        · have := hlt hset
          rw [e] at hlen
          omega
        · rw [e] at hlen
          exact hlen
      · intro p hp hp1 path' hpath' hne
        rcases List.mem_cons.mp hp with h | h
        · subst h
          rw [hpath] at hpath'
          cases hpath'
          rcases hcases with ⟨e, -⟩ | ⟨e, -, hle⟩
          · rw [e] at hlen
            exact hlen
          · rw [e] at hlen
            have := hle hne
            omega
        · exact h3 p h hp1 path' hpath' hne
      · rcases h4 with h | ⟨p, hp, hp1, hp2⟩
        · rcases hcases with ⟨e, -⟩ | ⟨e, -, -⟩
          · refine Or.inr ⟨q, List.mem_cons_self _ _, hone, ?_⟩
            rw [h, e]
            exact hpath
          · exact Or.inl (h.trans e)
        · exact Or.inr ⟨p, List.mem_cons_of_mem _ hp, hp1, hp2⟩
    · simp only [hone, if_false]
      obtain ⟨st', h1, h2, h3, h4⟩ := ih hrest st
      refine ⟨st', h1, h2, ?_, ?_⟩
      · intro p hp hp1 path' hpath' hne
        rcases List.mem_cons.mp hp with h | h
        · subst h
          exact absurd hp1 hone
        · exact h3 p h hp1 path' hpath' hne
      · rcases h4 with h | ⟨p, hp, hp1, hp2⟩
        · exact Or.inl h
        · exact Or.inr ⟨p, List.mem_cons_of_mem _ hp, hp1, hp2⟩

theorem orthogonal_neighbours_nodup (hc : HillClimber) (c : Coordinate) :
    (orthogonal_neighbours hc c).Nodup := by
  unfold orthogonal_neighbours
  split_ifs <;> simp [Prod.ext_iff] <;> omega

theorem mem_orthogonal_neighbours_iff (hc : HillClimber) (c n : Coordinate)
    (hcb : InBounds hc c) :
    n ∈ orthogonal_neighbours hc c ↔
      InBounds hc n ∧ ((n.1 = c.1 ∧ (n.2 + 1 = c.2 ∨ n.2 = c.2 + 1)) ∨
        (n.2 = c.2 ∧ (n.1 + 1 = c.1 ∨ n.1 = c.1 + 1))) := by
  obtain ⟨h1, h2⟩ := hcb
  unfold orthogonal_neighbours InBounds
  obtain ⟨n1, n2⟩ := n
  simp only [List.mem_append]
  constructor
  · rintro (((h | h) | h) | h) <;> split_ifs at h <;> simp at h <;>
      obtain ⟨rfl, rfl⟩ := h <;> simp <;> omega
  · rintro ⟨⟨hb1, hb2⟩, (⟨e1, e2 | e2⟩ | ⟨e1, e2 | e2⟩)⟩
    · refine Or.inl (Or.inl (Or.inl ?_))
      rw [if_pos (by omega)]
      simp [Prod.ext_iff]
      omega
    · refine Or.inl (Or.inl (Or.inr ?_))
      rw [if_pos (by omega)]
      simp [Prod.ext_iff]
      omega
    · refine Or.inl (Or.inr ?_)
      rw [if_pos (by omega)]
      simp [Prod.ext_iff]
      omega
    · refine Or.inr ?_
      rw [if_pos (by omega)]
      simp [Prod.ext_iff]
      omega

/-! ## The claims -/

/-- C1 (the code departs from it): `get_path` does not return a path with the fewest steps.
On the terrain `ridge`, read from the lines `zzzzzzzzzES` / `pqrstuvwxya`, the nine steps
along the top row are a legal walk from `(0, 0)` to the goal, nine is also the Manhattan
distance, and `get_path((0, 0))` returns the eleven cells of the walk through the bottom
row, whose sum of elevation costs is smaller (231 against 234). -/
theorem get_path_not_fewest_steps :
    HillClimber.read ["zzzzzzzzzES", "pqrstuvwxya"] = .ok ridge ∧
    Validated ridge ∧ InBounds ridge (0, 0) ∧
    is_legal_walk ridge (0, 0)
      [(1, 0), (2, 0), (3, 0), (4, 0), (5, 0), (6, 0), (7, 0), (8, 0), (9, 0)] = true ∧
    walk_cost ridge
      [(1, 0), (2, 0), (3, 0), (4, 0), (5, 0), (6, 0), (7, 0), (8, 0), (9, 0)] = 234 ∧
    ridge.end_ = (9, 0) ∧ heuristic_distance ridge.end_ (0, 0) = 9 ∧
    get_path ridge (0, 0) = .ok [(0, 1), (1, 1), (2, 1), (3, 1), (4, 1), (5, 1), (6, 1),
      (7, 1), (8, 1), (9, 1), (9, 0)] ∧
    walk_cost ridge [(0, 1), (1, 1), (2, 1), (3, 1), (4, 1), (5, 1), (6, 1),
      (7, 1), (8, 1), (9, 1), (9, 0)] = 231 := by
  decide!

/-- C2 (the code departs from it): when the first cell of elevation cost 1 in scan order
cannot reach the goal, `get_scenic_path` returns the empty path although a later such cell
can. On the terrain `stairs`, read from the line `acSbcdefghijklmnopqrstuvwxyE`, the cell
`(0, 0)` is walled off, `get_path` from `S` at `(2, 0)` returns 25 cells, and
`get_scenic_path` returns the empty path. -/
theorem get_scenic_path_keeps_empty_first :
    HillClimber.read ["acSbcdefghijklmnopqrstuvwxyE"] = .ok stairs ∧
    Validated stairs ∧
    compute_cost stairs (0, 0) = .ok 1 ∧ get_path stairs (0, 0) = .ok [] ∧
    compute_cost stairs (2, 0) = .ok 1 ∧
    (get_path stairs (2, 0)).map List.length = .ok 25 ∧
    get_scenic_path stairs = .ok [] := by
  decide!

/-- C3: on a validated terrain and from an in-bounds start, a non-empty path `p_1 .. p_k`
returned by `get_path(start)` (top of the stack first) is a chain of legal moves starting
at `start`: `p_1` is returned by `enumerate_valid_adjacents(start)` and each `p_(i+1)` by
`enumerate_valid_adjacents(p_i)`; its last cell is the goal cell `'E'`; and `start` is not
one of its cells. -/
theorem get_path_is_legal_walk (hc : HillClimber) (hv : Validated hc) (start : Coordinate)
    (hs : InBounds hc start) (path : List Coordinate) (hp : get_path hc start = .ok path)
    (hne : path ≠ []) :
    List.Chain (fun p q => ∃ adjacent, enumerate_valid_adjacents hc p = .ok adjacent ∧
      q ∈ adjacent) start path ∧
    path.getLast? = some hc.end_ ∧ terrain_at hc hc.end_ = .ok 'E' ∧ start ∉ path := by
  obtain ⟨path', hp', hres⟩ := get_path_spec hc hv.1 hv.2.1 start hs
  rw [hp] at hp'
  cases hp'
  rcases hres with ⟨hnil, -⟩ | ⟨g, hg, -, hchain, hlast, hnot, -⟩
  · exact absurd hnil hne
  · have hge := (is_goal_iff_end hc hv g).mp hg
    subst hge
    refine ⟨hchain.imp (fun a b h => (adj_def hc a b).mp h), ?_, ?_, hnot⟩
    · cases path with
      | nil => exact absurd rfl hne
      | cons y t =>
        rw [List.getLast?_cons_cons] at hlast
        exact hlast
    · exact (hv.2.2.2.2.2 hc.end_ hv.2.2.2.1).mpr rfl

/-- Instance of C3: on `SzE`, from the `z` cell. -/
theorem get_path_is_legal_walk_witness :
    List.Chain (fun p q => ∃ adjacent, enumerate_valid_adjacents tiny p = .ok adjacent ∧
      q ∈ adjacent) (1, 0) [(2, 0)] ∧
    [((2, 0) : Coordinate)].getLast? = some tiny.end_ ∧
    terrain_at tiny tiny.end_ = .ok 'E' ∧ ((1, 0) : Coordinate) ∉ [((2, 0) : Coordinate)] :=
  get_path_is_legal_walk tiny (by decide) (1, 0) (by decide) [(2, 0)] (by decide)
    (by decide)

/-- C4: on a validated terrain, from an in-bounds start from which no legal walk reaches
the goal cell, `get_path(start)` returns the empty path. -/
theorem get_path_unreachable_empty (hc : HillClimber) (hv : Validated hc)
    (start : Coordinate) (hs : InBounds hc start) (hun : ¬ Reachable hc start hc.end_) :
    get_path hc start = .ok [] := by
  obtain ⟨path, hp, hres⟩ := get_path_spec hc hv.1 hv.2.1 start hs
  rcases hres with ⟨hnil, -⟩ | ⟨g, hg, -, hchain, hlast, -, -⟩
  · rw [hp, hnil]
  · have hge := (is_goal_iff_end hc hv g).mp hg
    subst hge
    exact absurd (reachable_of_chain hc start _ path hchain hlast) hun

theorem tiny_start_walled_off : ¬ Reachable tiny (0, 0) tiny.end_ := by
  intro h
  rcases Relation.ReflTransGen.cases_head h with h | ⟨c, hc, -⟩
  · exact absurd h (by decide)
  · have hnone : enumerate_valid_adjacents tiny (0, 0) = .ok [] := by decide
    unfold Adj valid_adjacents at hc
    rw [hnone] at hc
    simp at hc

/-- Instance of C4: on `SzE`, from `S`, whose only neighbour is 25 levels higher. -/
theorem get_path_unreachable_empty_witness : get_path tiny (0, 0) = .ok [] :=
  get_path_unreachable_empty tiny (by decide) (0, 0) (by decide) tiny_start_walled_off

/-- C5: on a validated terrain, from an in-bounds start other than the goal from which
some legal walk reaches the goal cell, `get_path(start)` returns a non-empty path (the
frontier does not run empty before the goal is popped). -/
theorem get_path_reachable_nonempty (hc : HillClimber) (hv : Validated hc)
    (start : Coordinate) (hs : InBounds hc start) (hne : start ≠ hc.end_)
    (hre : Reachable hc start hc.end_) :
    ∃ path, get_path hc start = .ok path ∧ path ≠ [] := by
  obtain ⟨path, hp, hres⟩ := get_path_spec hc hv.1 hv.2.1 start hs
  refine ⟨path, hp, ?_⟩
  rcases hres with ⟨-, h | h⟩ | ⟨g, -, -, -, -, -, hnn⟩
  · exact absurd ((is_goal_iff_end hc hv start).mp h) hne
  · have h1 := h hc.end_ hre
    rw [(is_goal_iff_end hc hv hc.end_).mpr rfl] at h1
    cases h1
  · exact hnn

/-- Instance of C5: on `SzE`, from the `z` cell, one legal move away from the goal. -/
theorem get_path_reachable_nonempty_witness :
    ∃ path, get_path tiny (1, 0) = .ok path ∧ path ≠ [] :=
  get_path_reachable_nonempty tiny (by decide) (1, 0) (by decide) (by decide)
    (Relation.ReflTransGen.single (by decide))

/-- C6: on a non-empty rectangular terrain and at an in-bounds coordinate `c`,
`enumerate_valid_adjacents(c)` returns, in the order up, down, left, right and without
duplicates, exactly the orthogonal neighbours `n` of `c` inside the grid with
`compute_cost(n) - compute_cost(c) <= 1`; in particular every in-bounds neighbour whose
cost is not above that of `c` is returned. -/
theorem enumerate_valid_adjacents_spec (hc : HillClimber) (hr : Rectangular hc)
    (c : Coordinate) (hcb : InBounds hc c) :
    ∃ adjacent, enumerate_valid_adjacents hc c = .ok adjacent ∧
      adjacent = (orthogonal_neighbours hc c).filter
        (fun n => decide (elevation hc n - elevation hc c ≤ 1)) ∧
      adjacent.Nodup ∧
      (∀ n, n ∈ adjacent ↔
        InBounds hc n ∧
        ((n.1 = c.1 ∧ (n.2 + 1 = c.2 ∨ n.2 = c.2 + 1)) ∨
          (n.2 = c.2 ∧ (n.1 + 1 = c.1 ∨ n.1 = c.1 + 1))) ∧
        ∃ cn cc, compute_cost hc n = .ok cn ∧ compute_cost hc c = .ok cc ∧ cn - cc ≤ 1) ∧
      (∀ n ∈ orthogonal_neighbours hc c, ∀ cn cc, compute_cost hc n = .ok cn →
        compute_cost hc c = .ok cc → cn ≤ cc → n ∈ adjacent) := by
  refine ⟨_, enumerate_valid_adjacents_eq hc hr c hcb, rfl,
    (orthogonal_neighbours_nodup hc c).filter _, ?_, ?_⟩
  · intro n
    simp only [List.mem_filter, decide_eq_true_eq]
    rw [mem_orthogonal_neighbours_iff hc c n hcb]
    constructor
    · rintro ⟨⟨hb, hn⟩, hd⟩
      exact ⟨hb, hn, elevation hc n, elevation hc c, compute_cost_in_bounds hc hr n hb,
        compute_cost_in_bounds hc hr c hcb, hd⟩
    · rintro ⟨hb, hn, cn, cc, h1, h2, hd⟩
      rw [compute_cost_in_bounds hc hr n hb] at h1
      rw [compute_cost_in_bounds hc hr c hcb] at h2
      cases h1
      cases h2
      exact ⟨⟨hb, hn⟩, hd⟩
  · intro n hn cn cc h1 h2 hle
    have hb := (mem_orthogonal_neighbours hc c n hcb hn).1
    rw [compute_cost_in_bounds hc hr n hb] at h1
    rw [compute_cost_in_bounds hc hr c hcb] at h2
    cases h1
    cases h2
    simp only [List.mem_filter, decide_eq_true_eq]
    exact ⟨hn, by omega⟩

/-- Instance of C6: the middle cell of `SzE`. -/
theorem enumerate_valid_adjacents_spec_witness :
    ∃ adjacent, enumerate_valid_adjacents tiny (1, 0) = .ok adjacent ∧
      adjacent = (orthogonal_neighbours tiny (1, 0)).filter
        (fun n => decide (elevation tiny n - elevation tiny (1, 0) ≤ 1)) ∧
      adjacent.Nodup ∧
      (∀ n, n ∈ adjacent ↔
        InBounds tiny n ∧
        ((n.1 = (1, 0).1 ∧ (n.2 + 1 = (1, 0).2 ∨ n.2 = (1, 0).2 + 1)) ∨
          (n.2 = (1, 0).2 ∧ (n.1 + 1 = (1, 0).1 ∨ n.1 = (1, 0).1 + 1))) ∧
        ∃ cn cc, compute_cost tiny n = .ok cn ∧ compute_cost tiny (1, 0) = .ok cc ∧
          cn - cc ≤ 1) ∧
      (∀ n ∈ orthogonal_neighbours tiny (1, 0), ∀ cn cc, compute_cost tiny n = .ok cn →
        compute_cost tiny (1, 0) = .ok cc → cn ≤ cc → n ∈ adjacent) :=
  enumerate_valid_adjacents_spec tiny (by decide) (1, 0) (by decide)

/-- C7: at a coordinate whose cell holds the symbol `terrain`, `compute_cost` returns 1
for `'S'`, 26 for `'E'` and `(terrain - 'a') + 1` for any other symbol; hence on a terrain
over the alphabet `{a..z, S, E}` the cost lies in `1..26`. -/
theorem compute_cost_spec (hc : HillClimber) (position : Coordinate) (row : List Char)
    (terrain : Char) (hrow : hc.map[position.2]? = some row)
    (hcol : row[position.1]? = some terrain) :
    compute_cost hc position =
      .ok (if terrain = 'S' then 1 else if terrain = 'E' then 26
        else (terrain.toNat : Int) - ('a'.toNat : Int) + 1) ∧
    (OverAlphabet hc → ∃ c, compute_cost hc position = .ok c ∧ 1 ≤ c ∧ c ≤ 26) := by
  have ht : terrain_at hc position = .ok terrain := by
    unfold terrain_at
    rw [hrow]
    simp only
    rw [hcol]
  have h := compute_cost_of_terrain hc position terrain ht
  have ha97 : (('a'.toNat : Nat) : Int) = 97 := by decide
  rw [ha97]
  refine ⟨h, fun halpha => ⟨_, h, ?_⟩⟩
  exact cost_range_of_alphabet terrain
    (halpha row (List.getElem?_mem hrow) terrain (List.getElem?_mem hcol))

/-- Instance of C7: the `'S'` cell of `SzE`. -/
theorem compute_cost_spec_witness :
    compute_cost tiny (0, 0) =
      .ok (if 'S' = 'S' then 1 else if 'S' = 'E' then 26
        else (('S' : Char).toNat : Int) - ('a'.toNat : Int) + 1) ∧
    (OverAlphabet tiny → ∃ c, compute_cost tiny (0, 0) = .ok c ∧ 1 ≤ c ∧ c ≤ 26) :=
  compute_cost_spec tiny (0, 0) "SzE".toList 'S' (by decide) (by decide)

/-- C9: on a validated terrain on which `get_path` returns the empty path from every cell of
elevation cost 1, `get_scenic_path` returns the empty path. -/
theorem get_scenic_path_all_empty (hc : HillClimber) (hv : Validated hc)
    (hall : ∀ p, InBounds hc p → compute_cost hc p = .ok 1 → get_path hc p = .ok []) :
    get_scenic_path hc = .ok [] := by
  obtain ⟨st', h1, -, -, h4⟩ := scenic_loop_spec hc hv.1 hv.2.1 (scan_order hc)
    (fun p hp => (mem_scan_order hc p).mp hp) ([], false)
  unfold get_scenic_path
  rw [h1]
  simp only
  rcases h4 with h | ⟨p, hp, hp1, hp2⟩
  · rw [h]
  · have hb := (mem_scan_order hc p).mp hp
    have hcost := compute_cost_in_bounds hc hv.1 p hb
    rw [hp1] at hcost
    have := hall p hb hcost
    rw [hp2] at this
    exact this

/-- Instance of C9: on `SzE` the only cell of cost 1 is `S`, which cannot move. -/
theorem get_scenic_path_all_empty_witness : get_scenic_path tiny = .ok [] :=
  get_scenic_path_all_empty tiny (by decide)
    (fun p hp => (by decide : ∀ p ∈ scan_order tiny, compute_cost tiny p = .ok 1 →
      get_path tiny p = .ok []) p ((mem_scan_order tiny p).mpr hp))

/-- C10: on a non-empty rectangular terrain over `{a..z, S, E}` and from an in-bounds start,
`get_path(start)` terminates: both of its loops finish within budgets computed from the size
of the grid (`fuel_bound` pops of the frontier, `path_fuel` predecessor links), so a path is
returned, and the same path is returned under every larger budget of pops. -/
theorem get_path_terminates (hc : HillClimber) (hr : Rectangular hc) (ha : OverAlphabet hc)
    (start : Coordinate) (hs : InBounds hc start) :
    ∃ path, get_path hc start = .ok path ∧
      ∀ fuel, fuel_bound hc ≤ fuel → get_path_fuel hc fuel start = .ok path := by
  obtain ⟨path, hp, -⟩ := get_path_spec hc hr ha start hs
  exact ⟨path, hp, fun fuel hle =>
    search_loop_mono_le hc start (fuel_bound hc) fuel _ path hle hp⟩

/-- Instance of C10: on `SzE`, from `S`. -/
theorem get_path_terminates_witness :
    ∃ path, get_path tiny (0, 0) = .ok path ∧
      ∀ fuel, fuel_bound tiny ≤ fuel → get_path_fuel tiny fuel (0, 0) = .ok path :=
  get_path_terminates tiny (by decide) (by decide) (0, 0) (by decide)

/-- C11 (the code departs from it): only the column is checked. `compute_cost` reads
`map[position.second].at(position.first)`: `std::string::at` throws `std::out_of_range`
for a column past the end of the row, but `std::vector::operator[]` does not check the
row, so a row past the end is undefined behaviour, not an error. On `SzE` (one row of
three cells) the column `3` raises the error and the row `1` does not. -/
theorem compute_cost_row_unchecked :
    Validated tiny ∧
    ¬ InBounds tiny (3, 0) ∧ compute_cost tiny (3, 0) = .error .out_of_range ∧
    ¬ InBounds tiny (0, 1) ∧ compute_cost tiny (0, 1) = .error .undefined ∧
    compute_cost tiny (0, 1) ≠ .error .out_of_range := by
  decide

theorem relax_cases (hc : HillClimber) (cur next : Coordinate) (s s' : Search)
    (h : relax hc cur s next = .ok s') :
    s' = s ∨
    ∃ v, s'.costs = map_set s.costs next v ∧ s'.from_ = map_set s.from_ next cur ∧
      s'.frontier = frontier_push (compare hc (map_set s.costs next v)) s.frontier next ∧
      ∀ old, s.costs next = some old → v < old := by
  unfold relax at h
  split at h
  · cases h
  · rename_i c hcost
    simp only at h
    split_ifs at h with hcond
    · cases h
      refine Or.inr ⟨_, rfl, rfl, rfl, ?_⟩
      intro old hold
      simp only [hold, Option.isSome_some, Bool.not_true, Bool.false_or,
        decide_eq_true_eq, cost_of, Option.getD_some] at hcond
      exact hcond
    · cases h
      exact Or.inl rfl

/-- C12: in `get_path` the map `costs` is written by the relaxation of a neighbour only
(after the initial `costs[start] = 0` into the empty map). One relaxation either leaves the
search state as it is or writes `costs[next] = v`, and when `next` had a recorded cost `old`
the value written satisfies `v < old`; hence a recorded cost stays recorded and never
increases. -/
theorem relax_writes_strictly_smaller (hc : HillClimber) (cur next : Coordinate)
    (s s' : Search) (h : relax hc cur s next = .ok s') :
    (s' = s ∨
      ∃ v, s'.costs = map_set s.costs next v ∧ ∀ old, s.costs next = some old → v < old) ∧
    ∀ c old, s.costs c = some old → ∃ new, s'.costs c = some new ∧ new ≤ old := by
  rcases relax_cases hc cur next s s' h with h1 | ⟨v, hv, -, -, hlt⟩
  · subst h1
    exact ⟨Or.inl rfl, fun c old hc1 => ⟨old, hc1, le_refl _⟩⟩
  · refine ⟨Or.inr ⟨v, hv, hlt⟩, ?_⟩
    intro c old hc1
    rw [hv]
    by_cases hcn : c = next
    · subst hcn
      exact ⟨v, map_set_self _ _ _, le_of_lt (hlt old hc1)⟩
    · exact ⟨old, by rw [map_set_other _ _ _ _ hcn]; exact hc1, le_refl _⟩

/-- Instance of C12: on `ridge`, the cell `(1, 1)`, recorded at cost 100, is relaxed from
`(0, 1)`, recorded at cost 16, and gets the cost `16 + 17`. -/
theorem relax_writes_strictly_smaller_witness :
    (relax_example_after = relax_example_before ∨
      ∃ v, relax_example_after.costs = map_set relax_example_before.costs (1, 1) v ∧
        ∀ old, relax_example_before.costs (1, 1) = some old → v < old) ∧
    ∀ c old, relax_example_before.costs c = some old →
      ∃ new, relax_example_after.costs c = some new ∧ new ≤ old :=
  relax_writes_strictly_smaller ridge (0, 1) (1, 1) relax_example_before
    relax_example_after rfl

/-! ## The search reads the terrain only -/

theorem compute_cost_out_of_bounds (hc : HillClimber) (hr : Rectangular hc) (c : Coordinate)
    (hcb : ¬ InBounds hc c) : ∃ e, compute_cost hc c = .error e := by
  unfold compute_cost
  cases ht : terrain_at hc c with
  | error e => exact ⟨e, rfl⟩
  | ok t => exact absurd (terrain_at_ok_in_bounds hc hr c t ht) hcb

theorem is_goal_ok_in_bounds (hc : HillClimber) (hr : Rectangular hc) (c : Coordinate)
    (b : Bool) (h : is_goal hc c = .ok b) : InBounds hc c := by
  unfold is_goal at h
  cases ht : terrain_at hc c with
  | error e => rw [ht] at h; cases h
  | ok t => exact terrain_at_ok_in_bounds hc hr c t ht

theorem except_bind_ok {α β : Type} (x : Except Fault α) (f : α → Except Fault β) (r : β)
    (h : x.bind f = .ok r) : ∃ a, x = .ok a ∧ f a = .ok r := by
  cases x with
  | error e => cases h
  | ok a => exact ⟨a, rfl, h⟩

theorem guarded_try_adjacent_out_of_bounds (hc : HillClimber) (hr : Rectangular hc)
    (c n : Coordinate) (hcb : ¬ InBounds hc c) (cond : Prop) [Decidable cond]
    (acc r : List Coordinate)
    (h : (if cond then try_adjacent hc c n acc else .ok acc) = Except.ok r) : r = acc := by
  obtain ⟨e, he⟩ := compute_cost_out_of_bounds hc hr c hcb
  by_cases hcond : cond
  · rw [if_pos hcond] at h
    unfold try_adjacent at h
    rw [he] at h
    cases hn : compute_cost hc n with
    | error e' => rw [hn] at h; cases h
    | ok v => rw [hn] at h; cases h
  · rw [if_neg hcond] at h
    injection h with h
    exact h.symm

theorem enumerate_out_of_bounds (hc : HillClimber) (hr : Rectangular hc) (c : Coordinate)
    (hcb : ¬ InBounds hc c) (adjacent : List Coordinate)
    (h : enumerate_valid_adjacents hc c = .ok adjacent) : adjacent = [] := by
  unfold enumerate_valid_adjacents at h
  simp only at h
  obtain ⟨a1, h1, h⟩ := except_bind_ok _ _ _ h
  obtain ⟨a2, h2, h⟩ := except_bind_ok _ _ _ h
  obtain ⟨a3, h3, h⟩ := except_bind_ok _ _ _ h
  have e1 := guarded_try_adjacent_out_of_bounds hc hr c _ hcb _ _ _ h1
  have e2 := guarded_try_adjacent_out_of_bounds hc hr c _ hcb _ _ _ h2
  have e3 := guarded_try_adjacent_out_of_bounds hc hr c _ hcb _ _ _ h3
  have e4 := guarded_try_adjacent_out_of_bounds hc hr c _ hcb _ _ _ h
  rw [e4, e3, e2, e1]

theorem adj_source_in_bounds (hc : HillClimber) (hr : Rectangular hc) (a b : Coordinate)
    (h : Adj hc a b) : InBounds hc a := by
  by_contra hcb
  obtain ⟨adjacent, h1, h2⟩ := (adj_def hc a b).mp h
  rw [enumerate_out_of_bounds hc hr a hcb adjacent h1] at h2
  simp at h2

theorem reachable_source_in_bounds (hc : HillClimber) (hr : Rectangular hc)
    (a g : Coordinate) (hg : InBounds hc g) (h : Reachable hc a g) : InBounds hc a := by
  rcases Relation.ReflTransGen.cases_head h with e | ⟨b, hab, -⟩
  · rw [e]; exact hg
  · exact adj_source_in_bounds hc hr a b hab

/-! ## The run of `get_path`, iteration by iteration -/

theorem compare_eq (hc : HillClimber) (costs : CostMap) (left right : Coordinate) :
    compare hc costs left right = decide (priority hc costs left > priority hc costs right) :=
  rfl

theorem next_head_eq (hc : HillClimber) (s s' : Search) (h : next_head hc s = some s') :
    ∃ cur rest adjacent, s.frontier = cur :: rest ∧ is_goal hc cur = .ok false ∧
      enumerate_valid_adjacents hc cur = .ok adjacent ∧
      relax_all hc cur (popped hc s) adjacent = .ok s' := by
  unfold next_head at h
  split at h
  · cases h
  · rename_i cur rest hf
    split at h
    · rename_i hg
      split at h
      · rename_i adjacent hadj
        split at h
        · rename_i s'' hrel
          cases h
          exact ⟨cur, rest, adjacent, hf, hg, hadj, hrel⟩
        · cases h
      · cases h
    · cases h

theorem next_head_of (hc : HillClimber) (s s' : Search) (cur : Coordinate)
    (rest adjacent : List Coordinate) (hf : s.frontier = cur :: rest)
    (hg : is_goal hc cur = .ok false) (hadj : enumerate_valid_adjacents hc cur = .ok adjacent)
    (hrel : relax_all hc cur (popped hc s) adjacent = .ok s') : next_head hc s = some s' := by
  unfold next_head
  rw [hf]
  simp only
  rw [hg]
  simp only
  rw [hadj]
  simp only
  rw [hrel]

/-- An iteration that `next_head` describes is an iteration of `search_loop`. -/
theorem search_loop_next_head (hc : HillClimber) (start : Coordinate) (fuel : Nat)
    (s s' : Search) (h : next_head hc s = some s') :
    search_loop hc start (fuel + 1) s = search_loop hc start fuel s' := by
  obtain ⟨cur, rest, adjacent, hf, hg, hadj, hrel⟩ := next_head_eq hc s s' h
  conv => lhs; unfold search_loop
  rw [hf]
  simp only
  rw [hg]
  simp only
  rw [hadj]
  simp only
  unfold popped at hrel
  rw [hf] at hrel
  rw [hrel]

/-- The states `loop_head` are those of the run of `get_path_fuel`. -/
theorem get_path_fuel_loop_head (hc : HillClimber) (start : Coordinate) (k fuel : Nat)
    (s : Search) (h : loop_head hc start k = some s) :
    get_path_fuel hc (k + fuel) start = search_loop hc start fuel s := by
  induction k generalizing s fuel with
  | zero =>
    simp only [loop_head, Option.some.injEq] at h
    subst h
    simp [get_path_fuel]
  | succ k ih =>
    simp only [loop_head] at h
    cases hk : loop_head hc start k with
    | none => rw [hk] at h; cases h
    | some s0 =>
      rw [hk] at h
      simp only [Option.some_bind] at h
      rw [show k + 1 + fuel = k + (fuel + 1) by omega, ih (fuel + 1) s0 hk]
      exact search_loop_next_head hc start fuel s0 s h

theorem loop_head_inv (hc : HillClimber) (hr : Rectangular hc) (ha : OverAlphabet hc)
    (start : Coordinate) (hs : InBounds hc start) (k : Nat) (s : Search)
    (h : loop_head hc start k = some s) : Inv hc start none s := by
  induction k generalizing s with
  | zero =>
    simp only [loop_head, Option.some.injEq] at h
    subst h
    exact inv_initial hc start hs
  | succ k ih =>
    simp only [loop_head] at h
    cases hk : loop_head hc start k with
    | none => rw [hk] at h; cases h
    | some s0 =>
      rw [hk] at h
      simp only [Option.some_bind] at h
      obtain ⟨cur, rest, adjacent, hf, hg, hadj, hrel⟩ := next_head_eq hc s0 s h
      have hinv0 := ih s0 hk
      obtain ⟨hinv1, -⟩ := inv_pop hc start cur rest s0 hinv0 hf (compare hc s0.costs)
      have hcur : (s0.costs cur).isSome = true :=
        hinv0.frontier_recorded cur (by rw [hf]; exact List.mem_cons_self _ _)
      have hmem : ∀ n, n ∈ adjacent ↔ Adj hc cur n := by
        intro n
        unfold Adj valid_adjacents
        rw [hadj]
      obtain ⟨s2, hs2, hinv2, hrec2, -, -⟩ := relax_all_inv hc hr ha start cur adjacent _ hinv1
        hcur (fun n hn => (hmem n).mp hn)
      unfold popped at hrel
      rw [hs2] at hrel
      have hs' : s2 = s := by injection hrel
      rw [← hs']
      exact inv_close hc start cur s2 hinv2 hg (fun n hn => hrec2 n ((hmem n).mpr hn))
/-! ## One expansion -/

theorem relax_eq (hc : HillClimber) (cur next : Coordinate) (s s' : Search)
    (h : relax hc cur s next = .ok s') :
    ∃ c, compute_cost hc next = .ok c ∧
      ((s.costs next = none ∨ cost_of s.costs cur + c < cost_of s.costs next) →
        s'.costs = map_set s.costs next (cost_of s.costs cur + c) ∧
        s'.from_ = map_set s.from_ next cur ∧
        s'.frontier = frontier_push (compare hc s'.costs) s.frontier next) ∧
      (¬ (s.costs next = none ∨ cost_of s.costs cur + c < cost_of s.costs next) → s' = s) := by
  unfold relax at h
  split at h
  · cases h
  · rename_i c hcost
    refine ⟨c, hcost, ?_⟩
    simp only at h
    have hiff : ((!(s.costs next).isSome || decide (cost_of s.costs cur + c <
        cost_of s.costs next)) = true) ↔
        (s.costs next = none ∨ cost_of s.costs cur + c < cost_of s.costs next) := by
      cases hn : s.costs next <;> simp
    split_ifs at h with hcond
    · injection h with h
      subst h
      exact ⟨fun _ => ⟨rfl, rfl, rfl⟩, fun hn => absurd (hiff.mp hcond) hn⟩
    · have hs' : s' = s := by injection h with h; exact h.symm
      exact ⟨fun hy => absurd (hiff.mpr hy) hcond, fun _ => hs'⟩

theorem relax_all_append_eq (hc : HillClimber) (cur : Coordinate) (l1 l2 : List Coordinate)
    (s s1 : Search) (h : relax_all hc cur s l1 = .ok s1) :
    relax_all hc cur s (l1 ++ l2) = relax_all hc cur s1 l2 := by
  induction l1 generalizing s with
  | nil =>
    have : s1 = s := by
      unfold relax_all at h
      injection h with h
      exact h.symm
    rw [this]
    rfl
  | cons n l1 ih =>
    unfold relax_all at h
    split at h
    · cases h
    · rename_i s0 h0
      simp only [List.cons_append]
      conv => lhs; unfold relax_all
      rw [h0]
      exact ih s0 h

theorem relax_all_append (hc : HillClimber) (cur : Coordinate) (l1 l2 : List Coordinate)
    (s s' : Search) (h : relax_all hc cur s (l1 ++ l2) = .ok s') :
    ∃ s1, relax_all hc cur s l1 = .ok s1 ∧ relax_all hc cur s1 l2 = .ok s' := by
  induction l1 generalizing s with
  | nil => exact ⟨s, rfl, h⟩
  | cons n l1 ih =>
    simp only [List.cons_append] at h
    unfold relax_all at h
    split at h
    · cases h
    · rename_i s0 h0
      obtain ⟨s1, h1, h2⟩ := ih s0 h
      refine ⟨s1, ?_, h2⟩
      unfold relax_all
      rw [h0]
      exact h1

theorem relax_all_cons (hc : HillClimber) (cur n : Coordinate) (rest : List Coordinate)
    (s s' : Search) (h : relax_all hc cur s (n :: rest) = .ok s') :
    ∃ s1, relax hc cur s n = .ok s1 ∧ relax_all hc cur s1 rest = .ok s' := by
  unfold relax_all at h
  split at h
  · cases h
  · rename_i s0 h0
    exact ⟨s0, h0, h⟩

theorem relax_all_frame (hc : HillClimber) (cur : Coordinate) (adjacent : List Coordinate)
    (s s' : Search) (h : relax_all hc cur s adjacent = .ok s') :
    (∀ x, x ∉ adjacent → s'.costs x = s.costs x ∧ s'.from_ x = s.from_ x) ∧
    ∃ pushed : List Coordinate, pushed.Sublist adjacent ∧
      s'.frontier.Perm (pushed.reverse ++ s.frontier) := by
  induction adjacent generalizing s with
  | nil =>
    have : s' = s := by
      unfold relax_all at h
      injection h with h
      exact h.symm
    subst this
    exact ⟨fun _ _ => ⟨rfl, rfl⟩, [], List.Sublist.refl _, List.Perm.refl _⟩
  | cons n rest ih =>
    obtain ⟨s1, h1, h2⟩ := relax_all_cons hc cur n rest s s' h
    obtain ⟨hframe, pushed, hsub, hperm⟩ := ih s1 h2
    rcases relax_cases hc cur n s s1 h1 with heq | ⟨v, hv1, hv2, hv3, -⟩
    · subst heq
      refine ⟨fun x hx => hframe x (fun hm => hx (List.mem_cons_of_mem _ hm)), pushed,
        hsub.cons _, hperm⟩
    · refine ⟨?_, n :: pushed, hsub.cons₂ _, ?_⟩
      · intro x hx
        have hxn : x ≠ n := fun hxn => hx (by rw [hxn]; exact List.mem_cons_self _ _)
        obtain ⟨f1, f2⟩ := hframe x (fun hm => hx (List.mem_cons_of_mem _ hm))
        rw [f1, f2, hv1, hv2]
        exact ⟨map_set_other _ _ _ _ hxn, map_set_other _ _ _ _ hxn⟩
      · refine hperm.trans ?_
        rw [hv3]
        have hp := frontier_push_perm (compare hc (map_set s.costs n v)) s.frontier n
        refine (List.Perm.append_left _ hp).trans ?_
        simp only [List.reverse_cons, List.append_assoc, List.singleton_append]
        exact List.Perm.refl _

/-- C30: before the first iteration of the main loop of `get_path(starting_position)` (the
run `get_path_fuel` is `search_loop` from `initial_search`, which is the state at the head
of the loop before the iteration 0), the map `costs` holds `0` for `starting_position` and
nothing else, the map `from` holds `starting_position` for `starting_position` and nothing
else, and the frontier, which is what `frontier.push(starting_position)` makes of the empty
frontier, holds the one entry `starting_position`, whose priority is
`heuristic_distance(end, starting_position) + 0`. -/
theorem get_path_initial_state (hc : HillClimber) (starting_position : Coordinate)
    (fuel : Nat) :
    get_path_fuel hc fuel starting_position =
      search_loop hc starting_position fuel (initial_search starting_position) ∧
    loop_head hc starting_position 0 = some (initial_search starting_position) ∧
    (∀ x, (initial_search starting_position).costs x =
      if x = starting_position then some 0 else none) ∧
    (∀ x, (initial_search starting_position).from_ x =
      if x = starting_position then some starting_position else none) ∧
    (∀ comp, frontier_push comp [] starting_position = [starting_position]) ∧
    (initial_search starting_position).frontier = [starting_position] ∧
    frontier_priorities hc (initial_search starting_position) =
      [(starting_position, heuristic_distance hc.end_ starting_position + 0)] := by
  refine ⟨rfl, rfl, fun x => rfl, fun x => rfl, fun comp => rfl, rfl, ?_⟩
  simp [frontier_priorities, initial_search, priority, cost_of, map_set]

/-- C24 (the code departs from it): the frontier is a `std::priority_queue` whose comparator
reads the map `costs`, and the entries already in the heap are not moved when a recorded
cost is lowered. On the terrain `aaaa` / `bSbE`, from the start `S`, the frontier at the
head of the loop before the iteration 2 is `(1,0), (0,1), (2,0)` with the priorities
`4, 5, 5`. That iteration pops `(1,0)` and lowers the cost of `(2,0)` from 3 to 2; the
entry of `(2,0)` in the heap stays below `(0,1)` and the new entry is placed below it. At
the head of the loop before the iteration 3 the top of the frontier is `(0,1)` with the
priority 5, while the two entries of `(2,0)` have the priority 4. -/
theorem frontier_top_not_least :
    HillClimber.read ["aaaa", "bSbE"] = .ok shelf ∧ Validated shelf ∧
    (loop_head shelf shelf.start 2).map (frontier_priorities shelf) =
      some [((1, 0), 4), ((0, 1), 5), ((2, 0), 5)] ∧
    (loop_head shelf shelf.start 3).map (frontier_priorities shelf) =
      some [((0, 1), 5), ((2, 0), 4), ((0, 0), 6), ((2, 0), 4)] ∧
    (loop_head shelf shelf.start 3).map (top_is_least shelf) = some false := by
  decide

theorem relax_all_steps (hc : HillClimber) (cur : Coordinate) (adjacent : List Coordinate)
    (s s' : Search) (h : relax_all hc cur s adjacent = .ok s') :
    (∀ k n, adjacent[k]? = some n →
      ∃ s1 s2 c, relax_all hc cur s (adjacent.take k) = .ok s1 ∧
        relax_all hc cur s (adjacent.take (k + 1)) = .ok s2 ∧
        compute_cost hc n = .ok c ∧
        ((s1.costs n = none ∨ cost_of s1.costs cur + c < cost_of s1.costs n) →
          s2.costs = map_set s1.costs n (cost_of s1.costs cur + c) ∧
          s2.from_ = map_set s1.from_ n cur ∧
          s2.frontier = frontier_push (compare hc s2.costs) s1.frontier n ∧
          s2.frontier.Perm (n :: s1.frontier)) ∧
        (¬ (s1.costs n = none ∨ cost_of s1.costs cur + c < cost_of s1.costs n) →
          s2 = s1)) ∧
    (∀ x, x ∉ adjacent → s'.costs x = s.costs x ∧ s'.from_ x = s.from_ x) ∧
    (∃ pushed : List Coordinate, pushed.Sublist adjacent ∧
      s'.frontier.Perm (pushed.reverse ++ s.frontier)) := by
  refine ⟨?_, relax_all_frame hc cur adjacent s s' h⟩
  intro k n hk
  have hlt : k < adjacent.length := (List.getElem?_eq_some_iff.mp hk).1
  have hsplit : adjacent = adjacent.take k ++ n :: adjacent.drop (k + 1) := by
    have hn : adjacent[k] = n := (List.getElem?_eq_some_iff.mp hk).2
    rw [← hn, ← List.drop_eq_getElem_cons hlt, List.take_append_drop]
  have h' := h
  rw [hsplit] at h'
  obtain ⟨s1, h1, h2⟩ := relax_all_append hc cur _ _ s s' h'
  obtain ⟨s2, h3, -⟩ := relax_all_cons hc cur n _ s1 s' h2
  obtain ⟨c, hc1, hc2, hc3⟩ := relax_eq hc cur n s1 s2 h3
  refine ⟨s1, s2, c, h1, ?_, hc1, ?_, hc3⟩
  · rw [List.take_succ, hk]
    simp only [Option.toList]
    rw [relax_all_append_eq hc cur _ [n] s s1 h1]
    unfold relax_all
    rw [h3]
    rfl
  · intro hcond
    obtain ⟨e1, e2, e3⟩ := hc2 hcond
    refine ⟨e1, e2, e3, ?_⟩
    rw [e3]
    exact frontier_push_perm _ _ _

/-! ## Recorded costs never increase -/

theorem relax_costs_le (hc : HillClimber) (cur next : Coordinate) (s s' : Search)
    (h : relax hc cur s next = .ok s') : CostsLe s' s := by
  rcases relax_cases hc cur next s s' h with h1 | ⟨v, hv, -, -, hlt⟩
  · subst h1
    exact fun y c hy => ⟨c, hy, le_refl _⟩
  · intro y c hy
    rw [hv]
    by_cases hyn : y = next
    · subst hyn
      exact ⟨v, map_set_self _ _ _, le_of_lt (hlt c hy)⟩
    · exact ⟨c, by rw [map_set_other _ _ _ _ hyn]; exact hy, le_refl _⟩

theorem costs_le_trans (s1 s2 s3 : Search) (h12 : CostsLe s2 s1) (h23 : CostsLe s3 s2) :
    CostsLe s3 s1 := by
  intro y c hy
  obtain ⟨c2, h2, hle2⟩ := h12 y c hy
  obtain ⟨c3, h3, hle3⟩ := h23 y c2 h2
  exact ⟨c3, h3, le_trans hle3 hle2⟩

theorem relax_all_costs_le (hc : HillClimber) (cur : Coordinate) (adjacent : List Coordinate)
    (s s' : Search) (h : relax_all hc cur s adjacent = .ok s') : CostsLe s' s := by
  induction adjacent generalizing s with
  | nil =>
    have : s' = s := by
      unfold relax_all at h
      injection h with h
      exact h.symm
    subst this
    exact fun y c hy => ⟨c, hy, le_refl _⟩
  | cons n rest ih =>
    obtain ⟨s1, h1, h2⟩ := relax_all_cons hc cur n rest s s' h
    exact costs_le_trans s s1 s' (relax_costs_le hc cur n s s1 h1) (ih s1 h2)

theorem next_head_costs_le (hc : HillClimber) (s s' : Search)
    (h : next_head hc s = some s') : CostsLe s' s := by
  obtain ⟨cur, rest, adjacent, -, -, -, hrel⟩ := next_head_eq hc s s' h
  exact relax_all_costs_le hc cur adjacent (popped hc s) s' hrel

theorem loop_head_prev (hc : HillClimber) (start : Coordinate) (k : Nat) (s' : Search)
    (h : loop_head hc start (k + 1) = some s') :
    ∃ s, loop_head hc start k = some s ∧ next_head hc s = some s' := by
  simp only [loop_head] at h
  cases hk : loop_head hc start k with
  | none => rw [hk] at h; cases h
  | some s0 =>
    rw [hk] at h
    exact ⟨s0, rfl, h⟩

theorem loop_head_costs_le (hc : HillClimber) (start : Coordinate) (d i : Nat)
    (sj : Search) (h : loop_head hc start (i + d) = some sj) :
    ∃ si, loop_head hc start i = some si ∧ CostsLe sj si := by
  induction d generalizing sj with
  | zero => exact ⟨sj, h, fun y c hy => ⟨c, hy, le_refl _⟩⟩
  | succ d ih =>
    obtain ⟨s0, h0, hn⟩ := loop_head_prev hc start (i + d) sj h
    obtain ⟨si, hsi, hle⟩ := ih s0 h0
    exact ⟨si, hsi, costs_le_trans si s0 sj hle (next_head_costs_le hc s0 sj hn)⟩

/-! ## The heuristic -/

theorem to_int_small (n : Nat) (h : n < 2 ^ 31) : to_int n = (n : Int) := by
  unfold to_int
  have h1 : n % 2 ^ 32 = n := Nat.mod_eq_of_lt (by omega)
  rw [h1, if_pos h]

theorem heuristic_distance_small (c1 c2 : Coordinate) (h1 : c1.1 < 2 ^ 31)
    (h2 : c1.2 < 2 ^ 31) (h3 : c2.1 < 2 ^ 31) (h4 : c2.2 < 2 ^ 31) :
    heuristic_distance c1 c2 = |(c1.1 : Int) - c2.1| + |(c1.2 : Int) - c2.2| := by
  unfold heuristic_distance
  rw [to_int_small _ h1, to_int_small _ h2, to_int_small _ h3, to_int_small _ h4]

theorem heuristic_step (hc : HillClimber) (hr : Rectangular hc) (hw : hc.width ≤ 2 ^ 31)
    (hh : hc.height ≤ 2 ^ 31) (goal c n : Coordinate) (hg1 : goal.1 < 2 ^ 31)
    (hg2 : goal.2 < 2 ^ 31) (hcb : InBounds hc c) (hadj : Adj hc c n) :
    heuristic_distance goal c ≤ 1 + heuristic_distance goal n := by
  have hmem := ((adj_iff hc hr c n hcb).mp hadj).1
  obtain ⟨hnb, hrel⟩ := (mem_orthogonal_neighbours_iff hc c n hcb).mp hmem
  have hc1 : c.1 < 2 ^ 31 := lt_of_lt_of_le hcb.1 hw
  have hc2 : c.2 < 2 ^ 31 := lt_of_lt_of_le hcb.2 hh
  have hn1 : n.1 < 2 ^ 31 := lt_of_lt_of_le hnb.1 hw
  have hn2 : n.2 < 2 ^ 31 := lt_of_lt_of_le hnb.2 hh
  rw [heuristic_distance_small goal c hg1 hg2 hc1 hc2,
    heuristic_distance_small goal n hg1 hg2 hn1 hn2]
  rcases abs_cases ((goal.1 : Int) - c.1) with ⟨e1, f1⟩ | ⟨e1, f1⟩ <;>
  rcases abs_cases ((goal.2 : Int) - c.2) with ⟨e2, f2⟩ | ⟨e2, f2⟩ <;>
  rcases abs_cases ((goal.1 : Int) - n.1) with ⟨e3, f3⟩ | ⟨e3, f3⟩ <;>
  rcases abs_cases ((goal.2 : Int) - n.2) with ⟨e4, f4⟩ | ⟨e4, f4⟩ <;>
  rw [e1, e2, e3, e4] <;> omega

theorem heuristic_le_steps (hc : HillClimber) (hr : Rectangular hc) (hw : hc.width ≤ 2 ^ 31)
    (hh : hc.height ≤ 2 ^ 31) (goal : Coordinate) (hg1 : goal.1 < 2 ^ 31)
    (hg2 : goal.2 < 2 ^ 31) (walk : List Coordinate) :
    ∀ c, InBounds hc c → List.Chain (Adj hc) c walk → (c :: walk).getLast? = some goal →
      heuristic_distance goal c ≤ walk.length := by
  induction walk with
  | nil =>
    intro c _ _ hlast
    simp only [List.getLast?_singleton, Option.some.injEq] at hlast
    subst hlast
    simp [heuristic_distance]
  | cons n rest ih =>
    intro c hcb hchain hlast
    rw [List.chain_cons] at hchain
    rw [List.getLast?_cons_cons] at hlast
    have hnb := (adj_in_bounds hc hr c n hcb hchain.1).1
    have h1 := heuristic_step hc hr hw hh goal c n hg1 hg2 hcb hchain.1
    have h2 := ih n hnb hchain.2 hlast
    simp only [List.length_cons, Nat.cast_add, Nat.cast_one]
    omega

theorem heuristic_le_walk_cost (hc : HillClimber) (hr : Rectangular hc) (ha : OverAlphabet hc)
    (hw : hc.width ≤ 2 ^ 31) (hh : hc.height ≤ 2 ^ 31) (goal : Coordinate)
    (hg1 : goal.1 < 2 ^ 31) (hg2 : goal.2 < 2 ^ 31) (walk : List Coordinate) :
    ∀ c, InBounds hc c → List.Chain (Adj hc) c walk → (c :: walk).getLast? = some goal →
      heuristic_distance goal c ≤ walk_cost hc walk := by
  induction walk with
  | nil =>
    intro c _ _ hlast
    simp only [List.getLast?_singleton, Option.some.injEq] at hlast
    subst hlast
    simp [heuristic_distance, walk_cost]
  | cons n rest ih =>
    intro c hcb hchain hlast
    rw [List.chain_cons] at hchain
    rw [List.getLast?_cons_cons] at hlast
    have hnb := (adj_in_bounds hc hr c n hcb hchain.1).1
    have h1 := heuristic_step hc hr hw hh goal c n hg1 hg2 hcb hchain.1
    have h2 := ih n hnb hchain.2 hlast
    have h3 := (elevation_range hc hr ha n hnb).1
    simp only [walk_cost, List.map_cons, List.sum_cons] at h2 ⊢
    omega

/-- C29: for coordinates below `2^31`, `heuristic_distance` is the Manhattan distance; it is
`0` from the goal to itself; on a validated terrain whose coordinates are below `2^31`, for
every cell `c` of the grid and every `n` returned by `enumerate_valid_adjacents(c)`,
`heuristic_distance(goal, c) <= 1 + heuristic_distance(goal, n)
<= compute_cost(n) + heuristic_distance(goal, n)`; and `heuristic_distance(goal, c)` is at
most the number of steps of any legal walk from `c` to the goal. -/
theorem heuristic_distance_consistent (hc : HillClimber) (hr : Rectangular hc)
    (ha : OverAlphabet hc) (hw : hc.width ≤ 2 ^ 31) (hh : hc.height ≤ 2 ^ 31) :
    (∀ c1 c2 : Coordinate, c1.1 < 2 ^ 31 → c1.2 < 2 ^ 31 → c2.1 < 2 ^ 31 → c2.2 < 2 ^ 31 →
      heuristic_distance c1 c2 = |(c1.1 : Int) - c2.1| + |(c1.2 : Int) - c2.2|) ∧
    (∀ goal : Coordinate, heuristic_distance goal goal = 0) ∧
    (∀ (goal c : Coordinate) (adjacent : List Coordinate) (n : Coordinate),
      goal.1 < 2 ^ 31 → goal.2 < 2 ^ 31 → InBounds hc c →
      enumerate_valid_adjacents hc c = .ok adjacent → n ∈ adjacent →
      ∃ cost, compute_cost hc n = .ok cost ∧
        heuristic_distance goal c ≤ 1 + heuristic_distance goal n ∧
        1 + heuristic_distance goal n ≤ cost + heuristic_distance goal n) ∧
    (∀ (goal c : Coordinate) (walk : List Coordinate),
      goal.1 < 2 ^ 31 → goal.2 < 2 ^ 31 → InBounds hc c → List.Chain (Adj hc) c walk →
      (c :: walk).getLast? = some goal → heuristic_distance goal c ≤ walk.length) := by
  refine ⟨heuristic_distance_small, fun goal => by simp [heuristic_distance], ?_, ?_⟩
  · intro goal c adjacent n hg1 hg2 hcb hadj hn
    have hA : Adj hc c n := (adj_def hc c n).mpr ⟨adjacent, hadj, hn⟩
    have hnb := (adj_in_bounds hc hr c n hcb hA).1
    refine ⟨elevation hc n, compute_cost_in_bounds hc hr n hnb,
      heuristic_step hc hr hw hh goal c n hg1 hg2 hcb hA, ?_⟩
    have := (elevation_range hc hr ha n hnb).1
    omega
  · intro goal c walk hg1 hg2 hcb hchain hlast
    exact heuristic_le_steps hc hr hw hh goal hg1 hg2 walk c hcb hchain hlast

/-- Instance of C29: the terrain `ridge`. -/
theorem heuristic_distance_consistent_witness :
    (∀ c1 c2 : Coordinate, c1.1 < 2 ^ 31 → c1.2 < 2 ^ 31 → c2.1 < 2 ^ 31 → c2.2 < 2 ^ 31 →
      heuristic_distance c1 c2 = |(c1.1 : Int) - c2.1| + |(c1.2 : Int) - c2.2|) ∧
    (∀ goal : Coordinate, heuristic_distance goal goal = 0) ∧
    (∀ (goal c : Coordinate) (adjacent : List Coordinate) (n : Coordinate),
      goal.1 < 2 ^ 31 → goal.2 < 2 ^ 31 → InBounds ridge c →
      enumerate_valid_adjacents ridge c = .ok adjacent → n ∈ adjacent →
      ∃ cost, compute_cost ridge n = .ok cost ∧
        heuristic_distance goal c ≤ 1 + heuristic_distance goal n ∧
        1 + heuristic_distance goal n ≤ cost + heuristic_distance goal n) ∧
    (∀ (goal c : Coordinate) (walk : List Coordinate),
      goal.1 < 2 ^ 31 → goal.2 < 2 ^ 31 → InBounds ridge c → List.Chain (Adj ridge) c walk →
      (c :: walk).getLast? = some goal → heuristic_distance goal c ≤ walk.length) :=
  heuristic_distance_consistent ridge (by decide) (by decide) (by decide) (by decide)

/-! ## The expansion of a popped coordinate -/

theorem start_in_bounds_of_run (hc : HillClimber) (hr : Rectangular hc) (start : Coordinate)
    (k : Nat) (s : Search) (cur : Coordinate) (rest : List Coordinate) (b : Bool)
    (h : loop_head hc start k = some s) (hf : s.frontier = cur :: rest)
    (hg : is_goal hc cur = .ok b) : InBounds hc start := by
  cases k with
  | zero =>
    simp only [loop_head, Option.some.injEq] at h
    rw [← h] at hf
    simp only [initial_search, List.cons.injEq] at hf
    rw [← hf.1] at hg
    exact is_goal_ok_in_bounds hc hr start b hg
  | succ k =>
    obtain ⟨s1, hs1, -⟩ := loop_head_costs_le hc start k 1 s (by rw [Nat.add_comm]; exact h)
    obtain ⟨s0, hs0, hn0⟩ := loop_head_prev hc start 0 s1 hs1
    obtain ⟨cur0, rest0, adjacent0, hf0, hg0, -, -⟩ := next_head_eq hc s0 s1 hn0
    simp only [loop_head, Option.some.injEq] at hs0
    rw [← hs0] at hf0
    simp only [initial_search, List.cons.injEq] at hf0
    rw [← hf0.1] at hg0
    exact is_goal_ok_in_bounds hc hr start false hg0

/-- C25: on a non-empty rectangular terrain over `{a..z, S, E}`, let `s` be the state at the
head of an iteration of the main loop of `get_path(start)` and let the coordinate `cur` at
the top of the frontier not be the goal. Then `enumerate_valid_adjacents(cur)` returns a
vector `adjacent`, the loop over it ends in a state `s'`, which is the state at the head of
the next iteration, and, for the `i`-th element `n` of `adjacent`, with `s1` the state after
the first `i` elements, `s2` the state after `n`, and `candidate = costs[cur] +
compute_cost(n)` computed in `s1`: if `n` has no recorded cost or `candidate` is smaller
than it, `s2` differs from `s1` by `costs[n] = candidate`, `from[n] = cur` and the push of
`n` onto the frontier, which keeps the entries that were there; otherwise `s2` is `s1`. No
coordinate outside `adjacent` has a changed entry in `costs` or `from`, and the frontier
holds what it held after the pop and some of the elements of `adjacent`. -/
theorem get_path_expansion_spec (hc : HillClimber) (hr : Rectangular hc)
    (ha : OverAlphabet hc) (start : Coordinate) (k : Nat) (s : Search) (cur : Coordinate)
    (rest : List Coordinate) (h : loop_head hc start k = some s)
    (hf : s.frontier = cur :: rest) (hg : is_goal hc cur = .ok false) :
    ∃ adjacent s', enumerate_valid_adjacents hc cur = .ok adjacent ∧
      relax_all hc cur (popped hc s) adjacent = .ok s' ∧
      loop_head hc start (k + 1) = some s' ∧
      (∀ i n, adjacent[i]? = some n →
        ∃ s1 s2 c, relax_all hc cur (popped hc s) (adjacent.take i) = .ok s1 ∧
          relax_all hc cur (popped hc s) (adjacent.take (i + 1)) = .ok s2 ∧
          compute_cost hc n = .ok c ∧
          ((s1.costs n = none ∨ cost_of s1.costs cur + c < cost_of s1.costs n) →
            s2.costs = map_set s1.costs n (cost_of s1.costs cur + c) ∧
            s2.from_ = map_set s1.from_ n cur ∧
            s2.frontier = frontier_push (compare hc s2.costs) s1.frontier n ∧
            s2.frontier.Perm (n :: s1.frontier)) ∧
          (¬ (s1.costs n = none ∨ cost_of s1.costs cur + c < cost_of s1.costs n) →
            s2 = s1)) ∧
      (∀ x, x ∉ adjacent → s'.costs x = s.costs x ∧ s'.from_ x = s.from_ x) ∧
      (∃ pushed : List Coordinate, pushed.Sublist adjacent ∧
        s'.frontier.Perm (pushed.reverse ++ (popped hc s).frontier)) := by
  have hs := start_in_bounds_of_run hc hr start k s cur rest false h hf hg
  have hinv0 := loop_head_inv hc hr ha start hs k s h
  have hcur : (s.costs cur).isSome = true :=
    hinv0.frontier_recorded cur (by rw [hf]; exact List.mem_cons_self _ _)
  obtain ⟨cc, hcc⟩ := Option.isSome_iff_exists.mp hcur
  have hcb := hinv0.in_bounds cur cc hcc
  have hadj := enumerate_valid_adjacents_eq hc hr cur hcb
  obtain ⟨hinv1, -⟩ := inv_pop hc start cur rest s hinv0 hf (compare hc s.costs)
  obtain ⟨s', hs', -, -, -, -⟩ := relax_all_inv hc hr ha start cur _ _ hinv1 hcur
    (fun n hn => (adj_def hc cur n).mpr ⟨_, hadj, hn⟩)
  have hs'' : relax_all hc cur (popped hc s) _ = .ok s' := hs'
  obtain ⟨h1, h2, h3⟩ := relax_all_steps hc cur _ (popped hc s) s' hs''
  refine ⟨_, s', hadj, hs'', ?_, h1, h2, h3⟩
  simp only [loop_head, h, Option.some_bind]
  exact next_head_of hc s s' cur rest _ hf hg hadj hs''

/-- Instance of C25: the first iteration on `shelf`, which expands the start `(1, 1)`. -/
theorem get_path_expansion_spec_witness :
    ∃ adjacent s', enumerate_valid_adjacents shelf (1, 1) = .ok adjacent ∧
      relax_all shelf (1, 1) (popped shelf (initial_search (1, 1))) adjacent = .ok s' ∧
      loop_head shelf (1, 1) (0 + 1) = some s' ∧
      (∀ i n, adjacent[i]? = some n →
        ∃ s1 s2 c,
          relax_all shelf (1, 1) (popped shelf (initial_search (1, 1))) (adjacent.take i) =
            .ok s1 ∧
          relax_all shelf (1, 1) (popped shelf (initial_search (1, 1)))
            (adjacent.take (i + 1)) = .ok s2 ∧
          compute_cost shelf n = .ok c ∧
          ((s1.costs n = none ∨ cost_of s1.costs (1, 1) + c < cost_of s1.costs n) →
            s2.costs = map_set s1.costs n (cost_of s1.costs (1, 1) + c) ∧
            s2.from_ = map_set s1.from_ n (1, 1) ∧
            s2.frontier = frontier_push (compare shelf s2.costs) s1.frontier n ∧
            s2.frontier.Perm (n :: s1.frontier)) ∧
          (¬ (s1.costs n = none ∨ cost_of s1.costs (1, 1) + c < cost_of s1.costs n) →
            s2 = s1)) ∧
      (∀ x, x ∉ adjacent → s'.costs x = (initial_search (1, 1)).costs x ∧
        s'.from_ x = (initial_search (1, 1)).from_ x) ∧
      (∃ pushed : List Coordinate, pushed.Sublist adjacent ∧
        s'.frontier.Perm (pushed.reverse ++ (popped shelf (initial_search (1, 1))).frontier)) :=
  get_path_expansion_spec shelf (by decide) (by decide) (1, 1) 0 (initial_search (1, 1))
    (1, 1) [] rfl rfl (by decide)

/-! ## Predecessors -/

theorem from_chain_reaches_start (hc : HillClimber) (hr : Rectangular hc)
    (ha : OverAlphabet hc) (start : Coordinate) (cur : Option Coordinate) (s : Search)
    (hinv : Inv hc start cur s) :
    ∀ (n : Nat) (x : Coordinate) (c : Int), s.costs x = some c → c.toNat < n →
      ∃ k, (from_of s.from_)^[k] x = start := by
  intro n
  induction n with
  | zero => intro x c _ h; omega
  | succ n ih =>
    intro x c hx hlt
    by_cases hxs : x = start
    · exact ⟨0, hxs⟩
    · obtain ⟨p, cp, hp1, hp2, -, hp4⟩ := hinv.pred x c hx hxs
      have hel := elevation_range hc hr ha x (hinv.in_bounds x c hx)
      have hcp0 := hinv.nonneg p cp hp2
      obtain ⟨k, hk⟩ := ih p cp hp2 (by omega)
      refine ⟨k + 1, ?_⟩
      rw [Function.iterate_succ_apply]
      have hfrom : from_of s.from_ x = p := by simp [from_of, hp1]
      rw [hfrom]
      exact hk

theorem predecessor_inv_of_inv (hc : HillClimber) (hr : Rectangular hc)
    (ha : OverAlphabet hc) (start : Coordinate) (cur : Option Coordinate) (s : Search)
    (hinv : Inv hc start cur s) : PredecessorInv hc start s := by
  refine ⟨hinv.start_cost, hinv.start_from, ?_⟩
  intro x c hxs hx
  obtain ⟨p, cp, hp1, hp2, hp3, hp4⟩ := hinv.pred x c hx hxs
  have hxb := hinv.in_bounds x c hx
  have hel := elevation_range hc hr ha x hxb
  exact ⟨p, cp, elevation hc x, hp1, hp2, (adj_def hc p x).mp hp3,
    compute_cost_in_bounds hc hr x hxb, by omega, by omega,
    from_chain_reaches_start hc hr ha start cur s hinv (c.toNat + 1) x c hx (by omega)⟩

/-- C27 (amended): on a terrain over `{a..z, S, E}`, in every state `s` at the head of the
main loop of `get_path(start)`, in the state after the pop of the top `cur` of the frontier,
and in the state after any number `m` of completed relaxations of the neighbours of `cur`:
`costs[start] = 0` and `from[start] = start`, and every other coordinate `x` with a
recorded cost `c` has a recorded predecessor `p` with a recorded cost `cp`, `x` is one of
the coordinates returned by `enumerate_valid_adjacents(p)`,
`c >= cp + compute_cost(x) > cp`, and following `from` from `x` leads to `start` after
finitely many steps. -/
theorem get_path_predecessor_invariant (hc : HillClimber) (hr : Rectangular hc)
    (ha : OverAlphabet hc) (start : Coordinate) (k : Nat)
    (s : Search) (h : loop_head hc start k = some s) :
    PredecessorInv hc start s ∧
    ∀ (cur : Coordinate) (rest adjacent : List Coordinate) (m : Nat) (s' : Search),
      s.frontier = cur :: rest → enumerate_valid_adjacents hc cur = .ok adjacent →
      relax_all hc cur (popped hc s) (adjacent.take m) = .ok s' →
      PredecessorInv hc start s' := by
  by_cases hs : InBounds hc start
  · have hinv0 := loop_head_inv hc hr ha start hs k s h
    refine ⟨predecessor_inv_of_inv hc hr ha start none s hinv0, ?_⟩
    intro cur rest adjacent m s' hf hadj hrel
    obtain ⟨hinv1, -⟩ := inv_pop hc start cur rest s hinv0 hf (compare hc s.costs)
    have hcur : (s.costs cur).isSome = true :=
      hinv0.frontier_recorded cur (by rw [hf]; exact List.mem_cons_self _ _)
    obtain ⟨s2, hs2, hinv2, -, -, -⟩ := relax_all_inv hc hr ha start cur (adjacent.take m) _
      hinv1 hcur
      (fun n hn => (adj_def hc cur n).mpr ⟨adjacent, hadj, List.mem_of_mem_take hn⟩)
    unfold popped at hrel
    rw [hs2] at hrel
    have hs' : s2 = s' := by injection hrel
    rw [← hs']
    exact predecessor_inv_of_inv hc hr ha start (some cur) s2 hinv2
  · -- a start outside the grid: the run ends in the first iteration
    have hk : k = 0 := by
      by_contra hk0
      obtain ⟨d, hd⟩ : ∃ d, k = 1 + d := ⟨k - 1, by omega⟩
      rw [hd] at h
      obtain ⟨s1, hs1, -⟩ := loop_head_costs_le hc start d 1 s h
      obtain ⟨s0, hs0, hn⟩ := loop_head_prev hc start 0 s1 hs1
      obtain ⟨cur, rest, adjacent, hf, hg, -, -⟩ := next_head_eq hc s0 s1 hn
      simp only [loop_head, Option.some.injEq] at hs0
      rw [← hs0] at hf
      simp only [initial_search, List.cons.injEq] at hf
      rw [← hf.1] at hg
      exact hs (is_goal_ok_in_bounds hc hr start false hg)
    subst hk
    simp only [loop_head, Option.some.injEq] at h
    subst h
    have hP : ∀ s : Search, s.costs = (initial_search start).costs →
        s.from_ = (initial_search start).from_ → PredecessorInv hc start s := by
      intro s e1 e2
      refine ⟨by rw [e1]; simp [initial_search, map_set],
        by rw [e2]; simp [initial_search, map_set], ?_⟩
      intro x c hxs hx
      rw [e1] at hx
      simp [initial_search, map_set, hxs] at hx
    refine ⟨hP _ rfl rfl, ?_⟩
    intro cur rest adjacent m s' hf hadj hrel
    simp only [initial_search, List.cons.injEq] at hf
    rw [← hf.1] at hadj
    rw [enumerate_out_of_bounds hc hr start hs adjacent hadj] at hrel
    simp only [List.take_nil] at hrel
    unfold relax_all at hrel
    injection hrel with hrel
    rw [← hrel]
    exact hP _ rfl rfl

/-- Instance of C27 (amended): the state before the first iteration on `shelf`. -/
theorem get_path_predecessor_invariant_witness :
    PredecessorInv shelf shelf.start (initial_search shelf.start) ∧
    ∀ (cur : Coordinate) (rest adjacent : List Coordinate) (m : Nat) (s' : Search),
      (initial_search shelf.start).frontier = cur :: rest →
      enumerate_valid_adjacents shelf cur = .ok adjacent →
      relax_all shelf cur (popped shelf (initial_search shelf.start)) (adjacent.take m) =
        .ok s' →
      PredecessorInv shelf shelf.start s' :=
  get_path_predecessor_invariant shelf (by decide) (by decide) shelf.start 0
    (initial_search shelf.start) rfl

/-! ## Entries popped a second time -/

theorem relax_all_post (hc : HillClimber) (cur : Coordinate) (adjacent : List Coordinate)
    (s s' : Search) (hcur : cur ∉ adjacent) (h : relax_all hc cur s adjacent = .ok s') :
    s'.costs cur = s.costs cur ∧
    ∀ n ∈ adjacent, ∃ c cn, compute_cost hc n = .ok c ∧ s'.costs n = some cn ∧
      cn ≤ cost_of s.costs cur + c := by
  induction adjacent generalizing s with
  | nil =>
    have : s' = s := by
      unfold relax_all at h
      injection h with h
      exact h.symm
    subst this
    exact ⟨rfl, fun n hn => by simp at hn⟩
  | cons n rest ih =>
    obtain ⟨s1, h1, h2⟩ := relax_all_cons hc cur n rest s s' h
    have hne : cur ≠ n := fun e => hcur (by rw [e]; exact List.mem_cons_self _ _)
    obtain ⟨ih1, ih2⟩ := ih s1 (fun hm => hcur (List.mem_cons_of_mem _ hm)) h2
    obtain ⟨c, hc1, hc2, hc3⟩ := relax_eq hc cur n s s1 h1
    have hs1cur : s1.costs cur = s.costs cur := by
      rcases relax_cases hc cur n s s1 h1 with e | ⟨v, hv, -, -, -⟩
      · rw [e]
      · rw [hv, map_set_other _ _ _ _ hne]
    have hn1 : ∃ cn, s1.costs n = some cn ∧ cn ≤ cost_of s.costs cur + c := by
      by_cases hcond : s.costs n = none ∨ cost_of s.costs cur + c < cost_of s.costs n
      · obtain ⟨e1, -, -⟩ := hc2 hcond
        exact ⟨_, by rw [e1]; exact map_set_self _ _ _, le_refl _⟩
      · rw [hc3 hcond]
        cases hsn : s.costs n with
        | none => exact absurd (Or.inl hsn) hcond
        | some old =>
          refine ⟨old, rfl, ?_⟩
          have : ¬ cost_of s.costs cur + c < cost_of s.costs n := fun hlt => hcond (Or.inr hlt)
          simp only [cost_of, hsn, Option.getD_some] at this
          simp only [cost_of]
          omega
    refine ⟨by rw [ih1, hs1cur], ?_⟩
    intro m hm
    rcases List.mem_cons.mp hm with e | hm'
    · subst e
      obtain ⟨cn, hcn, hle⟩ := hn1
      obtain ⟨cn', hcn', hle'⟩ := relax_all_costs_le hc cur rest s1 s' h2 m cn hcn
      exact ⟨c, cn', hc1, hcn', le_trans hle' hle⟩
    · obtain ⟨c', cn, e1, e2, e3⟩ := ih2 m hm'
      refine ⟨c', cn, e1, e2, ?_⟩
      simp only [cost_of] at e3 ⊢
      rw [← hs1cur]
      exact e3

theorem relax_all_noop (hc : HillClimber) (cur : Coordinate) (adjacent : List Coordinate)
    (s : Search)
    (h : ∀ n ∈ adjacent, ∃ c cn, compute_cost hc n = .ok c ∧ s.costs n = some cn ∧
      cn ≤ cost_of s.costs cur + c) :
    relax_all hc cur s adjacent = .ok s := by
  induction adjacent with
  | nil => rfl
  | cons n rest ih =>
    obtain ⟨c, cn, h1, h2, h3⟩ := h n (List.mem_cons_self _ _)
    have hrel : relax hc cur s n = .ok s := by
      unfold relax
      rw [h1]
      simp only [h2, Option.isSome_some, Bool.not_true, Bool.false_or, cost_of,
        Option.getD_some, decide_eq_true_eq]
      simp only [cost_of] at h3
      rw [if_neg (by omega)]
    unfold relax_all
    rw [hrel]
    exact ih (fun m hm => h m (List.mem_cons_of_mem _ hm))

/-- C28: on a non-empty rectangular terrain over `{a..z, S, E}`, let the iterations `i < j` of
the main loop of `get_path(start)` both pop the coordinate `x`, with the same recorded cost
of `x` at the head of both (the iteration `i` expanded `x`, and its cost has not changed
since). Then the iteration `j` relaxes no neighbour: the state at the head of the iteration
`j + 1` has the maps `costs` and `from` of the state at the head of the iteration `j`, and
its frontier is the frontier after the pop, with nothing pushed. -/
theorem stale_entry_changes_nothing (hc : HillClimber) (hr : Rectangular hc)
    (ha : OverAlphabet hc) (start : Coordinate) (i j : Nat)
    (x : Coordinate) (hij : i < j)
    (hi : (loop_head hc start i).bind (fun s => s.frontier.head?) = some x)
    (hj : (loop_head hc start j).bind (fun s => s.frontier.head?) = some x)
    (hcost : (loop_head hc start j).bind (fun s => s.costs x) =
      (loop_head hc start i).bind (fun s => s.costs x)) :
    ∃ s s', loop_head hc start j = some s ∧ loop_head hc start (j + 1) = some s' ∧
      s'.costs = s.costs ∧ s'.from_ = s.from_ ∧
      s'.frontier = frontier_pop (compare hc s.costs) s.frontier := by
  cases hsj : loop_head hc start j with
  | none => rw [hsj] at hj; cases hj
  | some sj =>
    obtain ⟨d, hd⟩ : ∃ d, j = (i + 1) + d := ⟨j - (i + 1), by omega⟩
    obtain ⟨s1, hs1, hle⟩ :=
      loop_head_costs_le hc start d (i + 1) sj (by rw [← hd]; exact hsj)
    obtain ⟨si, hsi, hnext⟩ := loop_head_prev hc start i s1 hs1
    rw [hsi] at hi hcost
    rw [hsj] at hj hcost
    simp only [Option.some_bind] at hi hj hcost
    obtain ⟨cur, rest, adjacent, hf, hg, hadj, hrel⟩ := next_head_eq hc si s1 hnext
    have hcur : cur = x := by
      rw [hf] at hi
      simpa using hi
    subst hcur
    have hs : InBounds hc start := by
      obtain ⟨s1', hs1', -⟩ :=
        loop_head_costs_le hc start i 1 s1 (by rw [Nat.add_comm]; exact hs1)
      obtain ⟨s0, hs0, hn0⟩ := loop_head_prev hc start 0 s1' hs1'
      obtain ⟨cur0, rest0, adjacent0, hf0, hg0, -, -⟩ := next_head_eq hc s0 s1' hn0
      simp only [loop_head, Option.some.injEq] at hs0
      rw [← hs0] at hf0
      simp only [initial_search, List.cons.injEq] at hf0
      rw [← hf0.1] at hg0
      exact is_goal_ok_in_bounds hc hr start false hg0
    have hinv := loop_head_inv hc hr ha start hs i si hsi
    have hrec : (si.costs cur).isSome = true :=
      hinv.frontier_recorded cur (by rw [hf]; exact List.mem_cons_self _ _)
    obtain ⟨cc, hcc⟩ := Option.isSome_iff_exists.mp hrec
    have hcb := hinv.in_bounds cur cc hcc
    have hnot : cur ∉ adjacent := by
      intro hm
      exact (adj_in_bounds hc hr cur cur hcb ((adj_def hc cur cur).mpr ⟨adjacent, hadj, hm⟩)).2
        rfl
    obtain ⟨-, hpost⟩ := relax_all_post hc cur adjacent (popped hc si) s1 hnot hrel
    obtain ⟨restj, hfj⟩ : ∃ restj, sj.frontier = cur :: restj := by
      cases hfj : sj.frontier with
      | nil => rw [hfj] at hj; simp at hj
      | cons a t =>
        rw [hfj] at hj
        simp only [List.head?_cons, Option.some.injEq] at hj
        exact ⟨t, by rw [hj]⟩
    have hnoop : relax_all hc cur (popped hc sj) adjacent = .ok (popped hc sj) := by
      apply relax_all_noop
      intro n hn
      obtain ⟨c, cn, e1, e2, e3⟩ := hpost n hn
      obtain ⟨cn', e4, e5⟩ := hle n cn e2
      refine ⟨c, cn', e1, e4, ?_⟩
      have e6 : cost_of (popped hc sj).costs cur = cost_of (popped hc si).costs cur := by
        show cost_of sj.costs cur = cost_of si.costs cur
        unfold cost_of
        rw [hcost]
      rw [e6]
      exact le_trans e5 e3
    have hnj := next_head_of hc sj (popped hc sj) cur restj adjacent hfj hg hadj hnoop
    refine ⟨sj, popped hc sj, rfl, ?_, rfl, rfl, rfl⟩
    simp only [loop_head, hsj, Option.some_bind]
    exact hnj

/-- Instance of C28: on `shelf` the iterations 4 and 5 both pop `(2, 0)`, whose recorded
cost is 2 at the head of both. -/
theorem stale_entry_changes_nothing_witness :
    ∃ s s', loop_head shelf shelf.start 5 = some s ∧ loop_head shelf shelf.start 6 = some s' ∧
      s'.costs = s.costs ∧ s'.from_ = s.from_ ∧
      s'.frontier = frontier_pop (compare shelf s.costs) s.frontier :=
  stale_entry_changes_nothing shelf (by decide) (by decide) shelf.start 4 5 (2, 0)
    (by decide) (by decide) (by decide) (by decide)
/-! ## The search with a frontier that returns an entry of least priority -/

theorem first_least_fold (hc : HillClimber) (costs : CostMap) (rest : List Coordinate) :
    ∀ x : Coordinate,
      let r := rest.foldl
        (fun best y => if priority hc costs y < priority hc costs best then y else best) x
      (r = x ∨ r ∈ rest) ∧ priority hc costs r ≤ priority hc costs x ∧
        ∀ y ∈ rest, priority hc costs r ≤ priority hc costs y := by
  induction rest with
  | nil => intro x; simp
  | cons a rest ih =>
    intro x
    simp only [List.foldl_cons]
    by_cases hlt : priority hc costs a < priority hc costs x
    · rw [if_pos hlt]
      obtain ⟨h1, h2, h3⟩ := ih a
      refine ⟨?_, by omega, ?_⟩
      · rcases h1 with h | h
        · exact Or.inr (by rw [h]; exact List.mem_cons_self _ _)
        · exact Or.inr (List.mem_cons_of_mem _ h)
      · intro y hy
        rcases List.mem_cons.mp hy with e | hy'
        · rw [e]; exact h2
        · exact h3 y hy'
    · rw [if_neg hlt]
      obtain ⟨h1, h2, h3⟩ := ih x
      refine ⟨?_, h2, ?_⟩
      · rcases h1 with h | h
        · exact Or.inl h
        · exact Or.inr (List.mem_cons_of_mem _ h)
      · intro y hy
        rcases List.mem_cons.mp hy with e | hy'
        · rw [e]; omega
        · exact h3 y hy'

theorem first_least_spec (hc : HillClimber) : LeastPriority hc (first_least hc) := by
  intro costs frontier hne
  cases frontier with
  | nil => exact absurd rfl hne
  | cons x rest =>
    obtain ⟨h1, h2, h3⟩ := first_least_fold hc costs rest x
    refine ⟨?_, ?_⟩
    · rcases h1 with h | h
      · exact List.mem_cons.mpr (Or.inl h)
      · exact List.mem_cons_of_mem _ h
    · intro y hy
      rcases List.mem_cons.mp hy with e | hy'
      · rw [e]; exact h2
      · exact h3 y hy'

theorem remove_entry_perm (x : Coordinate) (l : List Coordinate) (h : x ∈ l) :
    (x :: remove_entry x l).Perm l := by
  induction l with
  | nil => simp at h
  | cons y rest ih =>
    unfold remove_entry
    by_cases hyx : y = x
    · rw [if_pos hyx, hyx]
    · rw [if_neg hyx]
      have hx : x ∈ rest := by
        rcases List.mem_cons.mp h with e | e
        · exact absurd e.symm hyx
        · exact e
      exact (List.Perm.swap y x _).trans ((ih hx).cons y)

theorem inv_pop_erase (hc : HillClimber) (start top : Coordinate) (s : Search)
    (hinv : Inv hc start none s) (hmem : top ∈ s.frontier) :
    Inv hc start (some top) { s with frontier := remove_entry top s.frontier } ∧
      potential hc { s with frontier := remove_entry top s.frontier } + 1 = potential hc s := by
  have hperm : (top :: remove_entry top s.frontier).Perm s.frontier :=
    remove_entry_perm top s.frontier hmem
  refine ⟨⟨hinv.start_cost, hinv.start_from, hinv.in_bounds, hinv.nonneg, hinv.bounded,
    hinv.pred, ?_, ?_, hinv.reach⟩, ?_⟩
  · intro x hx
    exact hinv.frontier_recorded x (hperm.mem_iff.mp (List.mem_cons_of_mem _ hx))
  · intro x hx
    rcases hinv.closed x hx with h | h | h
    · rcases List.mem_cons.mp (hperm.mem_iff.mpr h) with h | h
      · exact Or.inr (Or.inl (by rw [h]))
      · exact Or.inl h
    · cases h
    · exact Or.inr (Or.inr h)
  · unfold potential
    simp only
    have := hperm.length_eq
    simp only [List.length_cons] at this
    omega

theorem settled_initial (hc : HillClimber) (start : Coordinate) :
    Settled hc none (initial_search start) := by
  intro x cx hx
  refine Or.inl ?_
  by_cases hxs : x = start
  · rw [hxs]; simp [initial_search]
  · simp [initial_search, map_set, hxs] at hx

theorem settled_pop_erase (hc : HillClimber) (top : Coordinate) (s : Search)
    (hset : Settled hc none s) (hmem : top ∈ s.frontier) :
    Settled hc (some top) { s with frontier := remove_entry top s.frontier } := by
  have hperm := remove_entry_perm top s.frontier hmem
  intro x cx hx
  rcases hset x cx hx with h | h | h
  · rcases List.mem_cons.mp (hperm.mem_iff.mpr h) with e | e
    · exact Or.inr (Or.inl (by rw [e]))
    · exact Or.inl e
  · cases h
  · exact Or.inr (Or.inr h)

theorem relax_settled (hc : HillClimber) (cur next : Coordinate) (s s' : Search)
    (hset : Settled hc (some cur) s) (h : relax hc cur s next = .ok s') :
    Settled hc (some cur) s' := by
  rcases relax_cases hc cur next s s' h with h1 | ⟨v, hv1, -, hv3, hlt⟩
  · rw [h1]; exact hset
  · have hfr : ∀ y, y ∈ s'.frontier ↔ y = next ∨ y ∈ s.frontier := by
      intro y
      rw [hv3, (frontier_push_perm _ _ _).mem_iff]
      exact List.mem_cons
    intro x cx hx
    by_cases hxn : x = next
    · exact Or.inl ((hfr x).mpr (Or.inl hxn))
    · rw [hv1, map_set_other _ _ _ _ hxn] at hx
      rcases hset x cx hx with h | h | h
      · exact Or.inl ((hfr x).mpr (Or.inr h))
      · exact Or.inr (Or.inl h)
      · refine Or.inr (Or.inr ?_)
        intro n hn
        obtain ⟨cn, hcn, hle⟩ := h n hn
        rw [hv1]
        by_cases hnn : n = next
        · rw [hnn] at hcn hle ⊢
          exact ⟨v, map_set_self _ _ _, by have := hlt cn hcn; omega⟩
        · exact ⟨cn, by rw [map_set_other _ _ _ _ hnn]; exact hcn, hle⟩

theorem relax_all_settled (hc : HillClimber) (cur : Coordinate) (adjacent : List Coordinate)
    (s s' : Search) (hset : Settled hc (some cur) s)
    (h : relax_all hc cur s adjacent = .ok s') : Settled hc (some cur) s' := by
  induction adjacent generalizing s with
  | nil =>
    have : s' = s := by
      unfold relax_all at h
      injection h with h
      exact h.symm
    rw [this]; exact hset
  | cons n rest ih =>
    obtain ⟨s1, h1, h2⟩ := relax_all_cons hc cur n rest s s' h
    exact ih s1 (relax_settled hc cur n s s1 hset h1) h2

theorem settled_close (hc : HillClimber) (cur : Coordinate) (s : Search)
    (hset : Settled hc (some cur) s)
    (hadj : ∀ cx, s.costs cur = some cx →
      ∀ n, Adj hc cur n → ∃ cn, s.costs n = some cn ∧ cn ≤ cx + elevation hc n) :
    Settled hc none s := by
  intro x cx hx
  rcases hset x cx hx with h | h | h
  · exact Or.inl h
  · cases h
    exact Or.inr (Or.inr (hadj cx hx))
  · exact Or.inr (Or.inr h)

theorem walk_cost_append (hc : HillClimber) (l : List Coordinate) (x : Coordinate) :
    walk_cost hc (l ++ [x]) = walk_cost hc l + elevation hc x := by
  simp [walk_cost]

theorem build_path_cost (hc : HillClimber) (hr : Rectangular hc) (ha : OverAlphabet hc)
    (start : Coordinate) (cur : Option Coordinate) (s : Search) (hinv : Inv hc start cur s)
    (fuel : Nat) (x : Coordinate) (c : Int) (acc : List Coordinate)
    (hx : s.costs x = some c) (hfuel : c.toNat < fuel) :
    ∃ l, build_path s.from_ start fuel x acc = .ok (l ++ acc) ∧
      List.Chain (Adj hc) start l ∧ (start :: l).getLast? = some x ∧ start ∉ l ∧
      walk_cost hc l ≤ c := by
  induction fuel generalizing x c acc with
  | zero => omega
  | succ fuel ih =>
    unfold build_path
    by_cases hxs : x = start
    · subst hxs
      refine ⟨[], by simp, List.Chain.nil, by simp, by simp, ?_⟩
      have := hinv.nonneg x c hx
      simpa [walk_cost] using this
    · simp only [ne_eq, hxs, not_false_eq_true, if_true]
      obtain ⟨p, cp, hp1, hp2, hp3, hp4⟩ := hinv.pred x c hx hxs
      have hel := elevation_range hc hr ha x (hinv.in_bounds x c hx)
      have hcp0 := hinv.nonneg p cp hp2
      have hfrom : from_of s.from_ x = p := by simp [from_of, hp1]
      rw [hfrom]
      obtain ⟨l, hl1, hl2, hl3, hl4, hl5⟩ := ih p cp (x :: acc) hp2 (by omega)
      refine ⟨l ++ [x], ?_, ?_, ?_, ?_, ?_⟩
      · rw [hl1]; simp
      · apply chain_snoc _ _ _ _ hl2
        intro b hb
        rw [hl3] at hb
        cases hb
        exact hp3
      · rw [← List.cons_append, List.getLast?_append]
        simp
      · simp only [List.mem_append, List.mem_singleton, not_or]
        exact ⟨hl4, Ne.symm hxs⟩
      · rw [walk_cost_append]
        omega

theorem least_priority_bound (hc : HillClimber) (hr : Rectangular hc) (ha : OverAlphabet hc)
    (hw : hc.width ≤ 2 ^ 31) (hh : hc.height ≤ 2 ^ 31) (hend : InBounds hc hc.end_)
    (start : Coordinate) (s : Search) (hinv : Inv hc start none s) (hset : Settled hc none s)
    (ctop : Int) (htop : s.costs hc.end_ = some ctop)
    (hmin : ∀ y ∈ s.frontier, priority hc s.costs hc.end_ ≤ priority hc s.costs y)
    (walk : List Coordinate) :
    ∀ a ca, s.costs a = some ca → List.Chain (Adj hc) a walk →
      (a :: walk).getLast? = some hc.end_ → ctop ≤ ca + walk_cost hc walk := by
  have hg1 : hc.end_.1 < 2 ^ 31 := lt_of_lt_of_le hend.1 hw
  have hg2 : hc.end_.2 < 2 ^ 31 := lt_of_lt_of_le hend.2 hh
  induction walk with
  | nil =>
    intro a ca hca _ hlast
    simp only [List.getLast?_singleton, Option.some.injEq] at hlast
    subst hlast
    rw [htop] at hca
    injection hca with hca
    simp [walk_cost, hca]
  | cons b rest ih =>
    intro a ca hca hchain hlast
    have hab := (List.chain_cons.mp hchain).1
    have hchain' := (List.chain_cons.mp hchain).2
    have hlast' : (b :: rest).getLast? = some hc.end_ := by
      rw [List.getLast?_cons_cons] at hlast; exact hlast
    rcases hset a ca hca with h | h | h
    · have h1 := hmin a h
      have h2 := heuristic_le_walk_cost hc hr ha hw hh hc.end_ hg1 hg2 (b :: rest) a
        (hinv.in_bounds a ca hca) hchain hlast
      have h3 : heuristic_distance hc.end_ hc.end_ = 0 := by simp [heuristic_distance]
      simp only [priority, cost_of, htop, hca, Option.getD_some, h3] at h1
      omega
    · cases h
    · obtain ⟨cb, hcb, hle⟩ := h b hab
      have := ih b cb hcb hchain' hlast'
      simp only [walk_cost, List.map_cons, List.sum_cons] at this ⊢
      omega

theorem ideal_search_loop_spec (hc : HillClimber) (hv : Validated hc) (hw : hc.width ≤ 2 ^ 31)
    (hh : hc.height ≤ 2 ^ 31) (pick : CostMap → List Coordinate → Coordinate)
    (hpick : LeastPriority hc pick) (start : Coordinate) (fuel : Nat) (s : Search)
    (hinv : Inv hc start none s) (hset : Settled hc none s) (hfuel : potential hc s < fuel) :
    ∃ path, ideal_search_loop hc pick start fuel s = .ok path ∧ PathResult hc start path ∧
      ∀ walk, List.Chain (Adj hc) start walk → (start :: walk).getLast? = some hc.end_ →
        walk_cost hc path ≤ walk_cost hc walk := by
  have hr := hv.1
  have ha := hv.2.1
  have hend : InBounds hc hc.end_ := (mem_scan_order hc hc.end_).mp hv.2.2.2.1
  induction fuel generalizing s with
  | zero => omega
  | succ fuel ih =>
    unfold ideal_search_loop
    cases hf : s.frontier with
    | nil =>
      refine ⟨[], rfl, Or.inl ⟨rfl, Or.inr (exhausted_no_goal hc start s hinv hf)⟩, ?_⟩
      intro walk hchain hlast
      exfalso
      have h1 := exhausted_no_goal hc start s hinv hf hc.end_
        (reachable_of_chain hc start hc.end_ walk hchain hlast)
      rw [(is_goal_iff_end hc hv hc.end_).mpr rfl] at h1
      cases h1
    | cons a rest =>
      simp only
      obtain ⟨hmem, hmin⟩ := hpick s.costs (a :: rest) (by simp)
      generalize pick s.costs (a :: rest) = top at hmem hmin ⊢
      rw [← hf] at hmem hmin
      obtain ⟨hinv1, hpot1⟩ := inv_pop_erase hc start top s hinv hmem
      have hset1 := settled_pop_erase hc top s hset hmem
      rw [hf] at hinv1 hpot1 hset1
      have htop : (s.costs top).isSome = true := hinv.frontier_recorded top hmem
      obtain ⟨c, hc1⟩ := Option.isSome_iff_exists.mp htop
      have htb : InBounds hc top := hinv.in_bounds top c hc1
      obtain ⟨b, hb⟩ := is_goal_in_bounds hc hr top htb
      rw [hb]
      cases b with
      | true =>
        simp only
        have hbound := hinv.bounded top c hc1
        have hcnt := recorded_count_le hc s.costs
        have h0 := hinv.nonneg top c hc1
        obtain ⟨l, hl1, hl2, hl3, hl4, hl5⟩ := build_path_cost hc hr ha start none s hinv
          (path_fuel hc) top c [] hc1 (by unfold path_fuel; omega)
        rw [List.append_nil] at hl1
        have hte : top = hc.end_ := (is_goal_iff_end hc hv top).mp hb
        refine ⟨l, hl1, ?_, ?_⟩
        · by_cases hts : top = start
          · subst hts
            refine Or.inl ⟨?_, Or.inl hb⟩
            cases l with
            | nil => rfl
            | cons y t =>
              exfalso
              rw [List.getLast?_cons_cons] at hl3
              exact hl4 (List.mem_of_getLast?_eq_some hl3)
          · refine Or.inr ⟨top, hb, hts, hl2, hl3, hl4, ?_⟩
            intro hnil
            subst hnil
            simp at hl3
            exact hts hl3.symm
        · intro walk hchain hlast
          rw [hte] at hc1 hmin
          have := least_priority_bound hc hr ha hw hh hend start s hinv hset c hc1 hmin walk
            start 0 hinv.start_cost hchain hlast
          omega
      | false =>
        simp only
        have hadj := enumerate_valid_adjacents_eq hc hr top htb
        rw [hadj]
        simp only
        have hmemA : ∀ n, n ∈ (orthogonal_neighbours hc top).filter
            (fun n => decide (elevation hc n - elevation hc top ≤ 1)) ↔ Adj hc top n := by
          intro n
          unfold Adj valid_adjacents
          rw [hadj]
        obtain ⟨s', hs1, hinv2, hrec2, -, hpot2⟩ := relax_all_inv hc hr ha start top _ _ hinv1
          htop (fun n hn => (hmemA n).mp hn)
        rw [hs1]
        simp only
        have hinv3 := inv_close hc start top s' hinv2 hb (fun n hn => hrec2 n ((hmemA n).mpr hn))
        have hset2 := relax_all_settled hc top _ _ s' hset1 hs1
        have hnot : top ∉ (orthogonal_neighbours hc top).filter
            (fun n => decide (elevation hc n - elevation hc top ≤ 1)) := by
          intro hm
          exact (adj_in_bounds hc hr top top htb ((hmemA top).mp hm)).2 rfl
        obtain ⟨hpc, hpost⟩ := relax_all_post hc top _ _ s' hnot hs1
        have hset3 : Settled hc none s' := by
          apply settled_close hc top s' hset2
          intro cx hcx n hn
          obtain ⟨c', cn, e1, e2, e3⟩ := hpost n ((hmemA n).mpr hn)
          have hnb := (adj_in_bounds hc hr top n htb hn).1
          rw [compute_cost_in_bounds hc hr n hnb] at e1
          injection e1 with e1
          refine ⟨cn, e2, ?_⟩
          rw [hpc] at hcx
          simp only [cost_of] at e3
          rw [hcx] at e3
          simp only [Option.getD_some] at e3
          omega
        exact ih s' hinv3 hset3 (by omega)

/-- C26: let the terrain be validated, with at most `2^31` rows and columns, let the
frontier return an entry of least current priority (`pick` is any choice of such an
entry), and let the goal be reachable from `start`. Then `get_path(start)` returns the
cells of a legal walk from `start` to the goal whose sum of `compute_cost` over the cells
entered is at most that of every legal walk from `start` to the goal. -/
theorem get_path_ideal_minimises_cost (hc : HillClimber) (hv : Validated hc)
    (hw : hc.width ≤ 2 ^ 31) (hh : hc.height ≤ 2 ^ 31)
    (pick : CostMap → List Coordinate → Coordinate) (hpick : LeastPriority hc pick)
    (start : Coordinate) (hreach : Reachable hc start hc.end_) :
    ∃ path, get_path_ideal hc pick start = .ok path ∧
      List.Chain (Adj hc) start path ∧ (start :: path).getLast? = some hc.end_ ∧
      ∀ walk, List.Chain (Adj hc) start walk → (start :: walk).getLast? = some hc.end_ →
        walk_cost hc path ≤ walk_cost hc walk := by
  have hs : InBounds hc start := reachable_source_in_bounds hc hv.1 start hc.end_
    ((mem_scan_order hc hc.end_).mp hv.2.2.2.1) hreach
  obtain ⟨path, h1, h2, h3⟩ := ideal_search_loop_spec hc hv hw hh pick hpick start
    (fuel_bound hc) (initial_search start) (inv_initial hc start hs) (settled_initial hc start)
    (potential_initial hc start)
  refine ⟨path, h1, ?_, ?_, h3⟩
  · rcases h2 with ⟨hnil, -⟩ | ⟨g, -, -, hchain, -, -, -⟩
    · rw [hnil]; exact List.Chain.nil
    · exact hchain
  · rcases h2 with ⟨hnil, hg | hno⟩ | ⟨g, hg, -, -, hlast, -, -⟩
    · rw [hnil, (is_goal_iff_end hc hv start).mp hg]
      rfl
    · exfalso
      have := hno hc.end_ hreach
      rw [(is_goal_iff_end hc hv hc.end_).mpr rfl] at this
      cases this
    · rw [hlast, (is_goal_iff_end hc hv g).mp hg]

/-- Instance of C26: on `SzE`, from the `z` cell, with the first entry of least priority. -/
theorem get_path_ideal_minimises_cost_witness :
    ∃ path, get_path_ideal tiny (first_least tiny) (1, 0) = .ok path ∧
      List.Chain (Adj tiny) (1, 0) path ∧ ((1, 0) :: path).getLast? = some tiny.end_ ∧
      ∀ walk, List.Chain (Adj tiny) (1, 0) walk → ((1, 0) :: walk).getLast? = some tiny.end_ →
        walk_cost tiny path ≤ walk_cost tiny walk :=
  get_path_ideal_minimises_cost tiny (by decide) (by decide) (by decide) (first_least tiny)
    (first_least_spec tiny) (1, 0) (Relation.ReflTransGen.single (by decide))

/-- C27 (as stated it fails): the statement does not hold between the statements of one
relaxation. On `shelf`, in the first iteration, the neighbour `(1, 0)` of the start
`(1, 1)` is relaxed with `next_cost = 1`; the last of the three states of that relaxation is
the state that `relax` returns, and in the two states before it, after
`costs[next] = next_cost` and after `frontier.push(next)`, the coordinate `(1, 0)` has the
recorded cost 1 and no recorded predecessor. -/
theorem predecessor_missing_between_statements :
    ((relax_points shelf (1, 1) (popped shelf (initial_search (1, 1))) (1, 0) 1).getLast?.map
        (fun s => (s.costs (1, 0), s.from_ (1, 0), s.frontier)) =
      (relax shelf (1, 1) (popped shelf (initial_search (1, 1))) (1, 0)).toOption.map
        (fun s => (s.costs (1, 0), s.from_ (1, 0), s.frontier))) ∧
    ∀ s ∈ (relax_points shelf (1, 1) (popped shelf (initial_search (1, 1))) (1, 0) 1).take 2,
      s.costs (1, 0) = some 1 ∧ s.from_ (1, 0) = none ∧ ¬ PredecessorInv shelf (1, 1) s := by
  refine ⟨by decide, ?_⟩
  intro s hs
  have key : s.costs (1, 0) = some 1 ∧ s.from_ (1, 0) = none := by
    simp only [relax_points, List.take_succ_cons, List.take_zero, List.mem_cons,
      List.mem_singleton, List.not_mem_nil, or_false] at hs
    rcases hs with h | h <;> subst h <;> exact ⟨rfl, rfl⟩
  refine ⟨key.1, key.2, ?_⟩
  intro hP
  obtain ⟨p, cp, e, hp, -⟩ := hP.2.2 (1, 0) 1 (by decide) key.1
  rw [key.2] at hp
  cases hp

/-! ## The object after a call of `get_path` -/

end Day12

namespace Day04

/-- C16 (the code departs from it): `is_fully_contained` does not recognise containment.
`operator&&` returns `start > b.end || b.start > end`, which is true when the ranges are
disjoint, so for the ranges `1-5` and `2-3`, the first of which contains the second,
`operator&` takes its "no intersection" branch and returns `(-1, -1)`, and
`is_fully_contained` returns false; for the disjoint ranges `1-2` and `3-4` it does not
return false but raises `std::invalid_argument` from the constructor of `Range`. -/
theorem is_fully_contained_misses_containment :
    Range.make 1 5 = .ok ⟨1, 5⟩ ∧ Range.make 2 3 = .ok ⟨2, 3⟩ ∧
    Range.is_fully_contained ⟨1, 5⟩ ⟨2, 3⟩ = .ok false ∧
    Range.is_fully_contained ⟨2, 3⟩ ⟨1, 5⟩ = .ok false ∧
    Range.make 1 2 = .ok ⟨1, 2⟩ ∧ Range.make 3 4 = .ok ⟨3, 4⟩ ∧
    Range.is_fully_contained ⟨1, 2⟩ ⟨3, 4⟩ = .error .invalid_argument := by
  decide

theorem operator_and_and_iff_disjoint (a b : Range) (ha : a.start ≤ a.end_)
    (hb : b.start ≤ b.end_) :
    Range.operator_and_and a b = true ↔
      ¬ ∃ n : Int, a.start ≤ n ∧ n ≤ a.end_ ∧ b.start ≤ n ∧ n ≤ b.end_ := by
  unfold Range.operator_and_and
  simp only [Bool.or_eq_true, decide_eq_true_eq, not_exists]
  constructor
  · rintro (h | h) n ⟨h1, h2, h3, h4⟩ <;> omega
  · intro h
    by_contra hcon
    push_neg at hcon
    exact h (max a.start b.start) ⟨le_max_left _ _, by
      rcases max_cases a.start b.start with ⟨e, -⟩ | ⟨e, -⟩ <;> omega, le_max_right _ _, by
      rcases max_cases a.start b.start with ⟨e, -⟩ | ⟨e, -⟩ <;> omega⟩

/-- C17 (the code departs from it): `operator&&` is true exactly when the two ranges share
no integer, and `operator&` follows it. For `1-5` and `2-3`, which share `2` and `3`,
`a && b` is false and `a & b` is `(-1, -1)` instead of `2-3`; for the disjoint `1-2` and
`3-4`, `a && b` is true and `a & b` raises `std::invalid_argument` instead of returning
`(-1, -1)`. -/
theorem operator_and_and_is_disjointness :
    Range.operator_and_and ⟨1, 5⟩ ⟨2, 3⟩ = false ∧
    Range.operator_and ⟨1, 5⟩ ⟨2, 3⟩ = .ok ⟨-1, -1⟩ ∧
    Range.operator_and_and ⟨1, 2⟩ ⟨3, 4⟩ = true ∧
    Range.operator_and ⟨1, 2⟩ ⟨3, 4⟩ = .error .invalid_argument := by
  decide

end Day04

namespace Utils

/-- C14 (the code departs from it): `get_max` does not always return the maximum of the
values still stored. `percolate_down` leaves its loop as soon as the right child does not
exist, also when the left child exists and is larger than its parent. After the inserts
`3, 2, 1` the first `get_max` returns `3` and leaves `1` above `2`, and the second returns
`1`. In `commence_party` the monkeys of `three_monkeys` have the activities `1, 2, 0` after
one round, and the product returned is `2 * 0 = 0` instead of `2 * 1`. -/
theorem get_max_misses_left_child :
    heap_session 3 [3, 2, 1] 3 = .ok [3, 1, 2] ∧
    (play_rounds three_monkeys.worry_divisor 10 1 three_monkeys.monkeys).map
      (fun ms => ms.map (fun m => m.activity)) = .ok [1, 2, 0] ∧
    commence_party three_monkeys 10 1 = .ok 0 := by
  decide

/-- C20 (the code departs from it): `split` continues one character after the start of the
delimiter found (`start = end + 1`), not after its end, so with a delimiter of more than
one character the rest of the delimiter stays in the next token: `split("1, 2", ", ")`
returns `"1"` and `" 2"`, and the starting items `79, 98` of `parse_party` come out as
`"79"` and `" 98"`. -/
theorem split_keeps_rest_of_delimiter :
    split "1, 2".toList ", ".toList = some ["1".toList, " 2".toList] ∧
    split "79, 98".toList ", ".toList = some ["79".toList, " 98".toList] ∧
    split "a--b".toList "--".toList = some ["a".toList, "-b".toList] := by
  decide

end Utils

namespace Day07

/-! ## Sizes -/

mutual
theorem get_node_size_eq : ∀ n : Node, n.get_node_size = n.total_file_size % 2 ^ 32
  | .file _ file_size => by simp [Node.get_node_size, Node.total_file_size]
  | .directory _ children => by
    simp only [Node.get_node_size, Node.total_file_size]
    rw [size_loop_eq children 0 (by norm_num)]
    simp
theorem size_loop_eq : ∀ (cs : List Node) (acc : Nat), acc < 2 ^ 32 →
    size_loop acc cs = (acc + total_file_size_of cs) % 2 ^ 32
  | [], acc, h => by
    simp only [size_loop, total_file_size_of, Nat.add_zero]
    exact (Nat.mod_eq_of_lt h).symm
  | child :: rest, acc, _ => by
    simp only [size_loop, total_file_size_of]
    rw [size_loop_eq rest _ (Nat.mod_lt _ (by norm_num)), get_node_size_eq child]
    omega
end

mutual
theorem total_file_size_le_of_mem : ∀ (n D : Node), D ∈ n.directories →
    D.total_file_size ≤ n.total_file_size
  | .file _ _, D, h => by simp [Node.directories] at h
  | .directory name children, D, h => by
    simp only [Node.directories, List.mem_cons] at h
    rcases h with h | h
    · rw [h]
    · simp only [Node.total_file_size]
      exact total_file_size_le_of_mem_list children D h
theorem total_file_size_le_of_mem_list : ∀ (cs : List Node) (D : Node),
    D ∈ directories_of cs → D.total_file_size ≤ total_file_size_of cs
  | [], D, h => by simp [directories_of] at h
  | child :: rest, D, h => by
    simp only [directories_of, List.mem_append] at h
    simp only [total_file_size_of]
    rcases h with h | h
    · have := total_file_size_le_of_mem child D h
      omega
    · have := total_file_size_le_of_mem_list rest D h
      omega
end

theorem get_node_size_exact (n : Node) (h : n.total_file_size < 2 ^ 32) :
    n.get_node_size = n.total_file_size := by
  rw [get_node_size_eq n]
  exact Nat.mod_eq_of_lt h

/-! ## `find_directories_of_size` -/

mutual
theorem find_directories_of_size_helper_eq (t : Nat) : ∀ (n : Node) (acc : List Node),
    find_directories_of_size_helper t n acc =
      acc ++ n.directories.filter (fun d => decide (d.get_node_size ≤ t))
  | .file _ _, acc => by
    simp [find_directories_of_size_helper, Node.directories]
  | .directory name children, acc => by
    simp only [find_directories_of_size_helper, Node.directories]
    rw [find_in_children_eq t children]
    by_cases h : (Node.directory name children).get_node_size ≤ t
    · simp [h, List.filter_cons]
    · simp [h, List.filter_cons]
theorem find_in_children_eq (t : Nat) : ∀ (cs : List Node) (acc : List Node),
    find_in_children t cs acc =
      acc ++ (directories_of cs).filter (fun d => decide (d.get_node_size ≤ t))
  | [], acc => by simp [find_in_children, directories_of]
  | child :: rest, acc => by
    simp only [find_in_children, directories_of]
    rw [find_in_children_eq t rest]
    have hchild : (if child.can_have_children = true
        then find_directories_of_size_helper t child acc else acc) =
        acc ++ child.directories.filter (fun d => decide (d.get_node_size ≤ t)) := by
      cases child with
      | file name s => simp [Node.can_have_children, Node.directories]
      | directory name cs =>
        simp only [Node.can_have_children, if_true]
        exact find_directories_of_size_helper_eq t (.directory name cs) acc
    rw [hchild]
    simp [List.filter_append]
end

mutual
theorem minimum_helper_spec (t F : Nat) : ∀ n : Node, F + n.total_file_size < 2 ^ 32 →
    match get_minimum_for_target_size_directory_helper t F n with
    | some D => D ∈ n.directories ∧ F + D.total_file_size ≥ t ∧
        ∀ D' ∈ n.directories, F + D'.total_file_size ≥ t →
          D.total_file_size ≤ D'.total_file_size
    | none => ∀ D' ∈ n.directories, F + D'.total_file_size < t
  | .file _ _, _ => by
    simp [get_minimum_for_target_size_directory_helper, Node.directories]
  | .directory name children, hfit => by
    have hsz : (Node.directory name children).get_node_size =
        (Node.directory name children).total_file_size :=
      get_node_size_exact _ (by omega)
    simp only [get_minimum_for_target_size_directory_helper, hsz]
    rw [Nat.mod_eq_of_lt hfit]
    by_cases hsat : F + (Node.directory name children).total_file_size ≥ t
    · simp only [hsat, if_true]
      have hq := minimum_children_spec t F children
        (by simp only [Node.total_file_size] at hfit; exact hfit)
        (Node.directory name children, (Node.directory name children).total_file_size)
        rfl hsat
      obtain ⟨h1, h2, h3, h4, h5⟩ := hq
      simp only at h3 h4
      refine ⟨?_, ?_, ?_⟩
      · simp only [Node.directories, List.mem_cons]
        rcases h4 with h4 | h4
        · exact Or.inl h4
        · exact Or.inr h4
      · rw [← h1]; exact h2
      · intro D' hD' hsat'
        rw [← h1]
        simp only [Node.directories, List.mem_cons] at hD'
        rcases hD' with h | h
        · rw [h]; exact h3
        · exact h5 D' h hsat'
    · simp only [hsat, if_false]
      intro D' hD'
      have := total_file_size_le_of_mem _ D' hD'
      omega
theorem minimum_children_spec (t F : Nat) : ∀ cs : List Node,
    F + total_file_size_of cs < 2 ^ 32 → ∀ st : Node × Nat,
    st.2 = st.1.total_file_size → F + st.2 ≥ t →
    (minimum_in_children t F cs st).2 = (minimum_in_children t F cs st).1.total_file_size ∧
    F + (minimum_in_children t F cs st).2 ≥ t ∧
    (minimum_in_children t F cs st).2 ≤ st.2 ∧
    ((minimum_in_children t F cs st).1 = st.1 ∨
      (minimum_in_children t F cs st).1 ∈ directories_of cs) ∧
    ∀ D' ∈ directories_of cs, F + D'.total_file_size ≥ t →
      (minimum_in_children t F cs st).2 ≤ D'.total_file_size
  | [], _, st, h1, h2 => by
    have e : minimum_in_children t F [] st = st := by simp [minimum_in_children]
    rw [e]
    refine ⟨h1, h2, le_refl _, Or.inl rfl, ?_⟩
    intro D' hD'
    simp [directories_of] at hD'
  | child :: rest, hfit, st, h1, h2 => by
    simp only [total_file_size_of] at hfit
    simp only [minimum_in_children, directories_of]
    have hchild := minimum_helper_spec t F child (by omega)
    -- the state after the body of the loop for `child`
    have hstep : ∃ st' : Node × Nat,
        (if child.can_have_children = true then
          match get_minimum_for_target_size_directory_helper t F child with
          | some child_dir =>
            if child_dir.get_node_size < st.2 ∧
                (F + child_dir.get_node_size) % 2 ^ 32 ≥ t
              then (child_dir, child_dir.get_node_size) else st
          | none => st
        else st) = st' ∧
        st'.2 = st'.1.total_file_size ∧ F + st'.2 ≥ t ∧ st'.2 ≤ st.2 ∧
        (st'.1 = st.1 ∨ st'.1 ∈ child.directories) ∧
        ∀ D' ∈ child.directories, F + D'.total_file_size ≥ t →
          st'.2 ≤ D'.total_file_size := by
      cases child with
      | file name s =>
        refine ⟨st, by simp [Node.can_have_children], h1, h2, le_refl _, Or.inl rfl, ?_⟩
        intro D' hD'
        simp [Node.directories] at hD'
      | directory name cs =>
        cases hres : get_minimum_for_target_size_directory_helper t F (.directory name cs) with
        | none =>
          rw [hres] at hchild
          refine ⟨st, by simp [Node.can_have_children], h1, h2, le_refl _,
            Or.inl rfl, ?_⟩
          intro D' hD' hsat'
          have := hchild D' hD'
          omega
        | some D =>
          rw [hres] at hchild
          obtain ⟨hD1, hD2, hD3⟩ := hchild
          have hle := total_file_size_le_of_mem _ D hD1
          have hsz : D.get_node_size = D.total_file_size :=
            get_node_size_exact D (by omega)
          have hmod : (F + D.total_file_size) % 2 ^ 32 = F + D.total_file_size :=
            Nat.mod_eq_of_lt (by omega)
          by_cases hlt : D.total_file_size < st.2
          · refine ⟨(D, D.total_file_size), ?_, rfl, hD2, le_of_lt hlt, Or.inr hD1, hD3⟩
            simp only [Node.can_have_children, if_true, hsz, hmod]
            rw [if_pos ⟨hlt, hD2⟩]
          · refine ⟨st, ?_, h1, h2, le_refl _, Or.inl rfl, ?_⟩
            · simp only [Node.can_have_children, if_true, hsz, hmod]
              rw [if_neg (fun h => hlt h.1)]
            · intro D' hD' hsat'
              have := hD3 D' hD' hsat'
              omega
    obtain ⟨st', hst', g1, g2, g3, g4, g5⟩ := hstep
    rw [hst']
    obtain ⟨r1, r2, r3, r4, r5⟩ := minimum_children_spec t F rest (by omega) st' g1 g2
    refine ⟨r1, r2, le_trans r3 g3, ?_, ?_⟩
    · rcases r4 with r4 | r4
      · rcases g4 with g4 | g4
        · exact Or.inl (r4.trans g4)
        · exact Or.inr (List.mem_append.mpr (Or.inl (r4 ▸ g4)))
      · exact Or.inr (List.mem_append.mpr (Or.inr r4))
    · intro D' hD' hsat'
      rcases List.mem_append.mp hD' with h | h
      · exact le_trans r3 (g5 D' h hsat')
      · exact r5 D' h hsat'
end

/-- C18, the code at a concrete tree in which the sizes wrap around: in `overfull` the
files add up to `2^32 + 50`, so `get_used_space()` is 50 and `free_space` is 50 for
`total_size = 100`. For `target_size = 60` the directory `a` of size 20 is returned. With
the true used space, `total_size - used + 20` is below the target; with the wrapped
quantities, the directory `e` of size 10 also reaches the target and is smaller (the search
does not enter `c`, whose wrapped size is 5). -/
theorem get_minimum_for_target_size_directory_wraps :
    (overfull.get_minimum_for_target_size_directory 60).map
      (fun d => (d.get_name, d.get_node_size)) = some ("a", 20) ∧
    overfull.root.total_file_size = 2 ^ 32 + 50 ∧
    (overfull.total_size : Int) - (overfull.root.total_file_size : Int) + 20 < 60 ∧
    overfull.get_used_space = 50 ∧
    overfull.root.directories.map (fun d => (d.get_name, d.get_node_size)) =
      [("/", 50), ("a", 20), ("c", 5), ("e", 10)] ∧
    (overfull.total_size - overfull.get_used_space + 10) % 2 ^ 32 ≥ 60 := by
  decide

/-- C18 as amended: for every directory tree whose files add up to at most `total_size`
(itself an `unsigned int`), `get_minimum_for_target_size_directory(target_size)` returns a
directory `D` of the tree with `free_space + size(D) >= target_size`, where
`free_space = total_size - used space`, whose size is minimal among the directories of the
tree that satisfy the inequality, and it returns null exactly when no directory of the tree
satisfies it. -/
theorem get_minimum_for_target_size_directory_spec (fs : Filesystem) (target_size : Nat)
    (hused : fs.root.total_file_size ≤ fs.total_size) (htotal : fs.total_size < 2 ^ 32) :
    (∀ d ∈ fs.root.directories, d.get_node_size = d.total_file_size) ∧
    fs.get_used_space = fs.root.total_file_size ∧
    match fs.get_minimum_for_target_size_directory target_size with
    | some D => D ∈ fs.root.directories ∧
        (fs.total_size - fs.get_used_space) + D.get_node_size ≥ target_size ∧
        ∀ D' ∈ fs.root.directories,
          (fs.total_size - fs.get_used_space) + D'.get_node_size ≥ target_size →
          D.get_node_size ≤ D'.get_node_size
    | none => ∀ D' ∈ fs.root.directories,
        (fs.total_size - fs.get_used_space) + D'.get_node_size < target_size := by
  have hsizes : ∀ d ∈ fs.root.directories, d.get_node_size = d.total_file_size := by
    intro d hd
    exact get_node_size_exact d
      (lt_of_le_of_lt (total_file_size_le_of_mem fs.root d hd) (by omega))
  have hu : fs.get_used_space = fs.root.total_file_size := by
    unfold Filesystem.get_used_space
    exact get_node_size_exact _ (by omega)
  refine ⟨hsizes, hu, ?_⟩
  unfold Filesystem.get_minimum_for_target_size_directory
  simp only
  rw [hu]
  have hfree : (fs.total_size + 2 ^ 32 - fs.root.total_file_size) % 2 ^ 32 =
      fs.total_size - fs.root.total_file_size := by
    have : fs.total_size + 2 ^ 32 - fs.root.total_file_size =
        (fs.total_size - fs.root.total_file_size) + 2 ^ 32 := by omega
    rw [this, Nat.add_mod_right]
    exact Nat.mod_eq_of_lt (by omega)
  rw [hfree]
  have hspec := minimum_helper_spec target_size
    (fs.total_size - fs.root.total_file_size) fs.root (by omega)
  cases hres : get_minimum_for_target_size_directory_helper target_size
      (fs.total_size - fs.root.total_file_size) fs.root with
  | none =>
    rw [hres] at hspec
    simp only at hspec ⊢
    intro D' hD'
    rw [hsizes D' hD']
    exact hspec D' hD'
  | some D =>
    rw [hres] at hspec
    simp only at hspec ⊢
    obtain ⟨h1, h2, h3⟩ := hspec
    refine ⟨h1, by rw [hsizes D h1]; exact h2, ?_⟩
    intro D' hD' hsat
    rw [hsizes D h1, hsizes D' hD']
    rw [hsizes D' hD'] at hsat
    exact h3 D' hD' hsat

/-- Instance of C18 as amended: a root with the directories `a` (20) and `b` (30) and a
file of size 10, on a device of size 100; 65 are to be free. -/
theorem get_minimum_for_target_size_directory_spec_witness :
    (∀ d ∈ two_dirs.root.directories, d.get_node_size = d.total_file_size) ∧
    two_dirs.get_used_space = two_dirs.root.total_file_size ∧
    match two_dirs.get_minimum_for_target_size_directory 65 with
    | some D => D ∈ two_dirs.root.directories ∧
        (two_dirs.total_size - two_dirs.get_used_space) + D.get_node_size ≥ 65 ∧
        ∀ D' ∈ two_dirs.root.directories,
          (two_dirs.total_size - two_dirs.get_used_space) + D'.get_node_size ≥ 65 →
          D.get_node_size ≤ D'.get_node_size
    | none => ∀ D' ∈ two_dirs.root.directories,
        (two_dirs.total_size - two_dirs.get_used_space) + D'.get_node_size < 65 :=
  get_minimum_for_target_size_directory_spec two_dirs 65 (by decide) (by decide)

end Day07

namespace Day13

/-! ## Reading a string through one of its suffixes -/

theorem getElem?_of_drop (pckt : List Char) (i : Nat) (c : Char) (rest : List Char)
    (h : pckt.drop i = c :: rest) : pckt[i]? = some c := by
  have := congrArg List.head? h
  rw [List.head?_drop] at this
  simpa using this

theorem drop_add_of_drop (pckt : List Char) (i : Nat) (w post : List Char)
    (h : pckt.drop i = w ++ post) : pckt.drop (i + w.length) = post := by
  rw [← List.drop_drop, h, List.drop_left]

theorem length_of_drop (pckt : List Char) (i : Nat) (w : List Char)
    (h : pckt.drop i = w) : pckt.length = i + w.length ∨ (w = [] ∧ pckt.length ≤ i) := by
  have := congrArg List.length h
  rw [List.length_drop] at this
  by_cases hw : w = []
  · subst hw
    simp at this
    exact Or.inr ⟨rfl, by omega⟩
  · have : w.length ≠ 0 := fun h0 => hw (List.length_eq_zero.mp h0)
    exact Or.inl (by omega)

theorem lt_length_of_drop (pckt : List Char) (i : Nat) (c : Char) (rest : List Char)
    (h : pckt.drop i = c :: rest) : pckt.length = i + 1 + rest.length := by
  rcases length_of_drop pckt i _ h with h1 | ⟨h1, -⟩
  · rw [h1, List.length_cons]; omega
  · cases h1

/-! ## The bracket count over the text of a packet -/

theorem bracket_step (pckt : List Char) (fuel e : Nat) (n : Int) (c : Char)
    (post : List Char) (hn : n > 0) (h : pckt.drop (e + 1) = c :: post) :
    bracket_loop pckt (fuel + 1) e n =
      bracket_loop pckt fuel (e + 1)
        (if c = '[' then n + 1 else if c = ']' then n - 1 else n) := by
  rw [bracket_loop]
  simp only [hn, if_true, getElem?_of_drop pckt (e + 1) c post h]

theorem bracket_plain (w : List Char) (hw : ∀ c ∈ w, c ≠ '[' ∧ c ≠ ']') (pckt : List Char)
    (fuel e : Nat) (n : Int) (post : List Char) (hn : n > 0)
    (h : pckt.drop (e + 1) = w ++ post) :
    bracket_loop pckt (fuel + w.length) e n = bracket_loop pckt fuel (e + w.length) n := by
  induction w generalizing e with
  | nil => rfl
  | cons c w ih =>
    have hc := hw c (List.mem_cons_self _ _)
    rw [List.length_cons, ← Nat.add_assoc, bracket_step pckt _ e n c (w ++ post) hn h]
    simp only [hc.1, hc.2, if_false]
    have h' : pckt.drop (e + 1 + 1) = w ++ post := by
      have := drop_add_of_drop pckt (e + 1) [c] (w ++ post) h
      simpa using this
    rw [ih (fun c hc => hw c (List.mem_cons_of_mem _ hc)) (e + 1) h']
    congr 1
    omega

theorem isDigit_ne_bracket (c : Char) (h : c.isDigit = true) : c ≠ '[' ∧ c ≠ ']' := by
  constructor <;> (intro hc; subst hc; exact absurd h (by decide))

theorem render_items_singleton (p : Packet) : render_items [p] = p.render := by
  simp [render_items]

theorem render_items_cons_cons (p q : Packet) (rest : List Packet) :
    render_items (p :: q :: rest) = p.render ++ ',' :: render_items (q :: rest) := by
  rw [render_items]

mutual
theorem bracket_packet : ∀ p : Packet, p.well_formed = true →
    ∀ (pckt : List Char) (fuel e : Nat) (n : Int) (post : List Char), n > 0 →
    pckt.drop (e + 1) = p.render ++ post →
    bracket_loop pckt (fuel + p.render.length) e n =
      bracket_loop pckt fuel (e + p.render.length) n
  | .int digits, hwf, pckt, fuel, e, n, post, hn, h => by
    simp only [Packet.well_formed, Bool.and_eq_true, List.all_eq_true] at hwf
    simp only [Packet.render] at h ⊢
    exact bracket_plain digits (fun c hc => isDigit_ne_bracket c (hwf.2 c hc)) pckt fuel e n
      post hn h
  | .list items, hwf, pckt, fuel, e, n, post, hn, h => by
    simp only [Packet.well_formed] at hwf
    simp only [Packet.render, List.cons_append, List.append_assoc] at h
    simp only [Packet.render, List.length_cons, List.length_append, List.length_nil]
    have e1 : fuel + (render_items items).length.succ.succ =
        (fuel + 1 + (render_items items).length) + 1 := by omega
    rw [show fuel + ((render_items items).length + (0 + 1) + 1) =
      (fuel + 1 + (render_items items).length) + 1 by omega]
    rw [bracket_step pckt _ e n '[' _ hn h]
    simp only [if_true]
    have h1 : pckt.drop (e + 1 + 1) = render_items items ++ (']' :: post) := by
      have := drop_add_of_drop pckt (e + 1) ['['] _ h
      simpa using this
    rw [bracket_items items hwf pckt (fuel + 1) (e + 1) (n + 1) _ (by omega) h1]
    have h2 : pckt.drop (e + 1 + (render_items items).length + 1) = ']' :: post := by
      have := drop_add_of_drop pckt (e + 1 + 1) _ _ h1
      rw [← this]
      congr 1
      omega
    rw [bracket_step pckt fuel _ (n + 1) ']' post (by omega) h2]
    simp only [show (']' : Char) ≠ '[' by decide, if_false, if_true]
    congr 1
    · omega
    · omega
theorem bracket_items : ∀ items : List Packet, well_formed_items items = true →
    ∀ (pckt : List Char) (fuel e : Nat) (n : Int) (post : List Char), n > 0 →
    pckt.drop (e + 1) = render_items items ++ post →
    bracket_loop pckt (fuel + (render_items items).length) e n =
      bracket_loop pckt fuel (e + (render_items items).length) n
  | [], _, pckt, fuel, e, n, post, hn, h => by
    simp [render_items]
  | [p], hwf, pckt, fuel, e, n, post, hn, h => by
    simp only [well_formed_items, Bool.and_true] at hwf
    rw [render_items_singleton] at h ⊢
    exact bracket_packet p hwf pckt fuel e n post hn h
  | p :: q :: rest, hwf, pckt, fuel, e, n, post, hn, h => by
    simp only [well_formed_items, Bool.and_eq_true] at hwf
    have hwf' : well_formed_items (q :: rest) = true := by
      simp only [well_formed_items, Bool.and_eq_true]
      exact hwf.2
    rw [render_items_cons_cons] at h ⊢
    simp only [List.append_assoc, List.cons_append] at h
    simp only [List.length_append, List.length_cons]
    rw [show fuel + (p.render.length + ((render_items (q :: rest)).length + 1)) =
      (fuel + (render_items (q :: rest)).length + 1) + p.render.length by omega]
    rw [bracket_packet p hwf.1 pckt _ e n _ hn h]
    have h1 : pckt.drop (e + p.render.length + 1) =
        ',' :: (render_items (q :: rest) ++ post) := by
      have := drop_add_of_drop pckt (e + 1) _ _ h
      rw [← this]
      congr 1
      omega
    rw [bracket_step pckt _ _ n ',' _ hn h1]
    simp only [show (',' : Char) ≠ '[' by decide, show (',' : Char) ≠ ']' by decide, if_false]
    have h2 : pckt.drop (e + p.render.length + 1 + 1) = render_items (q :: rest) ++ post := by
      have := drop_add_of_drop pckt (e + p.render.length + 1) [','] _ h1
      simpa using this
    rw [bracket_items (q :: rest) hwf' pckt fuel (e + p.render.length + 1) n post hn h2]
    congr 1
    omega
end

/-! ## `get_next` on the text of a packet -/

theorem digit_loop_digits (ds : List Char) (hds : ∀ d ∈ ds, d.isDigit = true)
    (pckt : List Char) (fuel e : Nat) (c : Char) (post : List Char)
    (hc : c.isDigit = false) (h : pckt.drop e = ds ++ c :: post) :
    digit_loop pckt (fuel + ds.length + 1) e = .ok (e + ds.length) := by
  induction ds generalizing e with
  | nil =>
    simp only [List.nil_append] at h
    simp only [List.length_nil, Nat.add_zero]
    rw [digit_loop, getElem?_of_drop pckt e c post h]
    simp [hc]
  | cons d ds ih =>
    simp only [List.cons_append] at h
    rw [List.length_cons, show fuel + (ds.length + 1) + 1 = (fuel + ds.length + 1) + 1 by omega,
      digit_loop, getElem?_of_drop pckt e d _ h]
    simp only [hds d (List.mem_cons_self _ _), if_true]
    have h' : pckt.drop (e + 1) = ds ++ c :: post := by
      have := drop_add_of_drop pckt e [d] _ h
      simpa using this
    rw [ih (fun d hd => hds d (List.mem_cons_of_mem _ hd)) (e + 1) h']
    congr 1
    omega

theorem bracket_close (items : List Packet) (hwf : well_formed_items items = true)
    (pckt : List Char) (k start : Nat) (post : List Char)
    (h : pckt.drop start = (Packet.list items).render ++ post) :
    bracket_loop pckt (k + (Packet.list items).render.length) start 1 =
      .ok (start + (Packet.list items).render.length - 1) := by
  simp only [Packet.render, List.cons_append, List.append_assoc] at h
  simp only [Packet.render, List.length_cons, List.length_append, List.length_nil]
  have h1 : pckt.drop (start + 1) = render_items items ++ (']' :: post) := by
    have := drop_add_of_drop pckt start ['['] _ h
    simpa using this
  rw [show k + ((render_items items).length + (0 + 1) + 1) =
    (k + 1 + 1) + (render_items items).length by omega]
  rw [bracket_items items hwf pckt (k + 1 + 1) start 1 _ (by norm_num) h1]
  have h2 : pckt.drop (start + (render_items items).length + 1) = ']' :: post := by
    have := drop_add_of_drop pckt (start + 1) _ _ h1
    rw [← this]
    congr 1
    omega
  rw [bracket_step pckt (k + 1) _ 1 ']' post (by norm_num) h2]
  simp only [show (']' : Char) ≠ '[' by decide, if_false, if_true]
  rw [bracket_loop]
  simp only [show ¬ ((1 : Int) - 1 > 0) by norm_num, if_false]
  congr 1

theorem get_next_packet (p : Packet) (hwf : p.well_formed = true) (pckt : List Char)
    (i : Nat) (c : Char) (post : List Char) (hc : c.isDigit = false)
    (h : pckt.drop (i + 1) = p.render ++ c :: post) :
    get_next pckt i = .ok (some (i + 1, i + 1 + p.render.length)) := by
  have hlen : pckt.length = i + 1 + (p.render ++ c :: post).length := by
    rcases length_of_drop pckt (i + 1) _ h with h1 | ⟨h1, -⟩
    · exact h1
    · simp at h1
  simp only [List.length_append, List.length_cons] at hlen
  unfold get_next
  simp only
  rw [if_neg (by omega)]
  cases p with
  | int digits =>
    simp only [Packet.well_formed, Bool.and_eq_true, List.all_eq_true] at hwf
    simp only [Packet.render] at h hlen ⊢
    cases digits with
    | nil => simp at hwf
    | cons d ds =>
      obtain ⟨-, hall⟩ := hwf
      have hd := hall d (List.mem_cons_self _ _)
      rw [getElem?_of_drop pckt (i + 1) d _ (by simpa using h)]
      simp only [(isDigit_ne_bracket d hd).1, if_false, hd, if_true]
      rw [show pckt.length + 1 =
        (pckt.length - (d :: ds).length) + (d :: ds).length + 1 by omega]
      rw [digit_loop_digits (d :: ds) hall pckt _ (i + 1) c post hc h]
  | list items =>
    simp only [Packet.well_formed] at hwf
    have h0 : pckt.drop (i + 1) = '[' :: (render_items items ++ ']' :: c :: post) := by
      rw [h]
      simp [Packet.render]
    rw [getElem?_of_drop pckt (i + 1) '[' _ h0]
    simp only [if_true]
    rw [show pckt.length + 1 =
      (pckt.length + 1 - (Packet.list items).render.length) +
        (Packet.list items).render.length by omega]
    rw [bracket_close items hwf pckt _ (i + 1) _ h]
    have hge : (Packet.list items).render.length ≥ 1 := by
      simp [Packet.render]
    have e : i + 1 + (Packet.list items).render.length - 1 + 1 =
        i + 1 + (Packet.list items).render.length := by omega
    show Except.ok (some (i + 1, i + 1 + (Packet.list items).render.length - 1 + 1)) = _
    rw [e]

theorem get_next_at_end (pckt : List Char) (i : Nat) (h : pckt.length ≤ i + 1) :
    get_next pckt i = .ok none := by
  unfold get_next
  simp only
  rw [if_pos (by omega)]

theorem get_next_at_bracket (pckt : List Char) (i : Nat) (post : List Char)
    (h : pckt.drop (i + 1) = ']' :: post) : get_next pckt i = .ok none := by
  have hlen := lt_length_of_drop pckt (i + 1) _ _ h
  unfold get_next
  simp only
  rw [if_neg (by omega), getElem?_of_drop pckt (i + 1) ']' _ h]
  simp only [show (']' : Char) ≠ '[' by decide, if_false,
    show (']' : Char).isDigit = false by decide, Bool.false_eq_true]

/-! ## `get_subpackets` on the text of a list -/

theorem get_subpackets_loop_items : ∀ (items : List Packet), items ≠ [] →
    well_formed_items items = true →
    ∀ (pckt : List Char) (k i : Nat) (acc : List (List Char)),
    pckt.drop (i + 1) = render_items items ++ [']'] →
    pckt.length = i + 1 + (render_items items).length + 1 →
    get_subpackets_loop pckt (k + items.length + 1) i acc =
      .ok (acc ++ items.map Packet.render)
  | [], hne, _, _, _, _, _, _, _ => absurd rfl hne
  | [p], _, hwf, pckt, k, i, acc, h, hlen => by
    simp only [well_formed_items, Bool.and_true] at hwf
    rw [render_items_singleton] at h hlen
    simp only [List.length_singleton]
    rw [get_subpackets_loop, get_next_packet p hwf pckt i ']' [] (by decide) h]
    simp only
    rw [get_subpackets_loop, get_next_at_end pckt _ (by omega)]
    simp only [List.map_cons, List.map_nil]
    congr 3
    rw [h, show i + 1 + p.render.length - (i + 1) = p.render.length by omega]
    simp
  | p :: q :: rest, _, hwf, pckt, k, i, acc, h, hlen => by
    simp only [well_formed_items, Bool.and_eq_true] at hwf
    have hwf' : well_formed_items (q :: rest) = true := by
      simp only [well_formed_items, Bool.and_eq_true]
      exact hwf.2
    rw [render_items_cons_cons] at h hlen
    simp only [List.append_assoc, List.cons_append] at h
    simp only [List.length_append, List.length_cons] at hlen
    rw [show k + (p :: q :: rest).length + 1 = (k + (q :: rest).length + 1) + 1 by
      simp only [List.length_cons]; omega]
    rw [get_subpackets_loop, get_next_packet p hwf.1 pckt i ',' _ (by decide) h]
    simp only
    have h1 : pckt.drop (i + 1 + p.render.length + 1) = render_items (q :: rest) ++ [']'] := by
      have := drop_add_of_drop pckt (i + 1) (p.render ++ [',']) _ (by simpa using h)
      rw [← this]
      congr 1
      simp only [List.length_append, List.length_singleton]
      omega
    rw [get_subpackets_loop_items (q :: rest) (by simp) hwf' pckt k
      (i + 1 + p.render.length) _ h1 (by omega)]
    simp only [List.map_cons, List.append_assoc, List.singleton_append]
    congr 3
    rw [h, show i + 1 + p.render.length - (i + 1) = p.render.length by omega]
    simp

theorem nodes_le_length : ∀ items : List Packet, well_formed_items items = true →
    items.length ≤ (render_items items).length + 1 := by
  intro items
  induction items with
  | nil => intro _; simp
  | cons p rest ih =>
    intro hwf
    simp only [well_formed_items, Bool.and_eq_true] at hwf
    cases rest with
    | nil => simp
    | cons q rest =>
      rw [render_items_cons_cons]
      have := ih hwf.2
      simp only [List.length_cons, List.length_append] at this ⊢
      omega

theorem get_subpackets_list (items : List Packet) (hwf : well_formed_items items = true) :
    get_subpackets (Packet.list items).render = .ok (items.map Packet.render) := by
  unfold get_subpackets
  cases items with
  | nil =>
    simp only [Packet.render, render_items, List.nil_append, List.length_cons,
      List.length_nil, List.map_nil]
    rw [get_subpackets_loop, get_next_at_bracket _ 0 [] (by simp)]
  | cons p rest =>
    have hlen := nodes_le_length (p :: rest) hwf
    have hr : (Packet.list (p :: rest)).render.length =
        (render_items (p :: rest)).length + 2 := by
      simp [Packet.render]
    rw [show (Packet.list (p :: rest)).render.length + 1 =
      ((Packet.list (p :: rest)).render.length - (p :: rest).length) +
        (p :: rest).length + 1 by omega]
    rw [get_subpackets_loop_items (p :: rest) (by simp) hwf _ _ 0 []
      (by simp [Packet.render]) (by rw [hr]; omega)]
    simp

/-! ## `compare_packets` on the texts of two packets -/

theorem render_int_head (digits : List Char)
    (hwf : (Packet.int digits).well_formed = true) :
    ∃ d, (Packet.int digits).render[0]? = some d ∧ d.isDigit = true := by
  simp only [Packet.well_formed, Bool.and_eq_true, List.all_eq_true] at hwf
  cases digits with
  | nil => simp at hwf
  | cons d ds => exact ⟨d, by simp [Packet.render], hwf.2 d (List.mem_cons_self _ _)⟩

theorem render_list_head (items : List Packet) :
    (Packet.list items).render[0]? = some '[' := by
  simp [Packet.render]

theorem stoi_int (digits : List Char) (hwf : (Packet.int digits).well_formed = true)
    (hfit : (Packet.int digits).fits_int = true) :
    stoi digits = .ok (digits_value digits : Int) := by
  simp only [Packet.well_formed, Bool.and_eq_true, List.all_eq_true] at hwf
  simp only [Packet.fits_int, decide_eq_true_eq] at hfit
  have htake : digits.takeWhile Char.isDigit = digits := by
    rw [List.takeWhile_eq_self_iff]
    exact hwf.2
  have hne : digits ≠ [] := by
    intro h
    subst h
    simp at hwf
  unfold stoi
  simp only [htake, hne, if_false]
  rw [if_neg (by omega)]

theorem compare_subpackets_spec
    (f : List Char → List Char → Except Thrown ComparisonResult) :
    ∀ (as bs : List Packet) (L R : Nat), L + bs.length = R + as.length →
    (∀ a ∈ as, ∀ b ∈ bs, f a.render b.render = .ok (Packet.order a b)) →
    compare_subpackets f L R (as.map Packet.render) (bs.map Packet.render) =
      .ok (order_lists as bs)
  | [], [], L, R, hlen, _ => by
    simp only [List.length_nil, Nat.add_zero] at hlen
    rw [order_lists]
    simp [compare_subpackets, hlen]
  | [], b :: bs, L, R, hlen, _ => by
    simp only [List.length_nil, Nat.add_zero, List.length_cons] at hlen
    rw [order_lists]
    simp only [List.map_nil, List.map_cons, compare_subpackets]
    rw [if_neg (by omega), if_pos (by omega)]
  | a :: as, [], L, R, hlen, _ => by
    simp only [List.length_nil, Nat.add_zero, List.length_cons] at hlen
    rw [order_lists]
    simp only [List.map_nil, List.map_cons, compare_subpackets]
    rw [if_pos (by omega)]
  | a :: as, b :: bs, L, R, hlen, hf => by
    simp only [List.length_cons] at hlen
    have hab := hf a (List.mem_cons_self _ _) b (List.mem_cons_self _ _)
    have ih := compare_subpackets_spec f as bs L R (by omega)
      (fun x hx y hy => hf x (List.mem_cons_of_mem _ hx) y (List.mem_cons_of_mem _ hy))
    rw [order_lists]
    simp only [List.map_cons, compare_subpackets, hab]
    cases hres : Packet.order a b with
    | EQUAL => simpa using ih
    | GREATER => rfl
    | LESSER => rfl

theorem compare_list_list (fuel : Nat) (as bs : List Packet)
    (hwa : well_formed_items as = true) (hwb : well_formed_items bs = true)
    (hf : ∀ a ∈ as, ∀ b ∈ bs,
      compare_packets_fuel fuel a.render b.render = .ok (Packet.order a b)) :
    compare_packets_fuel (fuel + 1) (Packet.list as).render (Packet.list bs).render =
      .ok (order_lists as bs) := by
  rw [compare_packets_fuel, render_list_head, render_list_head]
  simp only [show ('[' : Char).isDigit = false by decide, Bool.false_eq_true, false_and,
    if_false, and_self, if_true]
  rw [get_subpackets_list as hwa, get_subpackets_list bs hwb]
  simp only [List.length_map]
  exact compare_subpackets_spec _ as bs as.length bs.length (by omega) hf

theorem nodes_lt_of_mem : ∀ (items : List Packet) (p : Packet), p ∈ items →
    1 + p.nodes ≤ nodes_of items := by
  intro items
  induction items with
  | nil => intro p hp; simp at hp
  | cons q rest ih =>
    intro p hp
    simp only [nodes_of]
    rcases List.mem_cons.mp hp with h | h
    · subst h; omega
    · have := ih p h
      omega

theorem well_formed_of_mem : ∀ (items : List Packet) (p : Packet), p ∈ items →
    well_formed_items items = true → p.well_formed = true := by
  intro items
  induction items with
  | nil => intro p hp; simp at hp
  | cons q rest ih =>
    intro p hp hwf
    simp only [well_formed_items, Bool.and_eq_true] at hwf
    rcases List.mem_cons.mp hp with h | h
    · subst h; exact hwf.1
    · exact ih p h hwf.2

theorem fits_int_of_mem : ∀ (items : List Packet) (p : Packet), p ∈ items →
    fit_int items = true → p.fits_int = true := by
  intro items
  induction items with
  | nil => intro p hp; simp at hp
  | cons q rest ih =>
    intro p hp hwf
    simp only [fit_int, Bool.and_eq_true] at hwf
    rcases List.mem_cons.mp hp with h | h
    · subst h; exact hwf.1
    · exact ih p h hwf.2

theorem compare_packets_fuel_spec (n : Nat) : ∀ (p q : Packet),
    p.well_formed = true → q.well_formed = true → p.fits_int = true → q.fits_int = true →
    3 * (p.nodes + q.nodes) + 4 ≤ n → ∀ fuel, n ≤ fuel →
    compare_packets_fuel fuel p.render q.render = .ok (Packet.order p q) := by
  induction n using Nat.strong_induction_on with
  | _ n ih =>
    intro p q hwp hwq hfp hfq hn fuel hfuel
    obtain ⟨f2, rfl⟩ : ∃ f2, fuel = f2 + 2 := ⟨fuel - 2, by omega⟩
    cases p with
    | int a =>
      obtain ⟨d, hd, hdd⟩ := render_int_head a hwp
      cases q with
      | int b =>
        obtain ⟨e, he, hee⟩ := render_int_head b hwq
        rw [compare_packets_fuel, hd, he]
        simp only [hdd, hee, and_self, if_true]
        simp only [Packet.render]
        rw [stoi_int a hwp hfp, stoi_int b hwq hfq, Packet.order]
        simp only [gt_iff_lt, Nat.cast_lt]
        split_ifs <;> rfl
      | list bs =>
        simp only [Packet.well_formed] at hwq
        simp only [Packet.fits_int] at hfq
        simp only [Packet.nodes] at hn
        rw [compare_packets_fuel, hd, render_list_head]
        have hd1 := (isDigit_ne_bracket d hdd).1
        simp only [show ('[' : Char).isDigit = false by decide, Bool.false_eq_true,
          and_false, if_false, hd1, false_and, if_true]
        have hwrap : '[' :: (Packet.int a).render ++ [']'] =
            (Packet.list [Packet.int a]).render := by
          simp [Packet.render, render_items]
        rw [hwrap, Packet.order]
        apply compare_list_list f2 [Packet.int a] bs
          (by simp only [well_formed_items, Bool.and_true]; exact hwp) hwq
        intro x hx b hb
        simp only [List.mem_singleton] at hx
        subst hx
        have := nodes_lt_of_mem bs b hb
        exact ih (3 * ((Packet.int a).nodes + b.nodes) + 4)
          (by simp only [Packet.nodes]; omega) (Packet.int a) b hwp
          (well_formed_of_mem bs b hb hwq) hfp (fits_int_of_mem bs b hb hfq) (le_refl _) f2
          (by simp only [Packet.nodes]; omega)
    | list as =>
      simp only [Packet.well_formed] at hwp
      simp only [Packet.fits_int] at hfp
      cases q with
      | int b =>
        obtain ⟨e, he, hee⟩ := render_int_head b hwq
        simp only [Packet.nodes] at hn
        rw [compare_packets_fuel, he, render_list_head]
        have he1 := (isDigit_ne_bracket e hee).1
        simp only [show ('[' : Char).isDigit = false by decide, Bool.false_eq_true,
          false_and, if_false, he1, and_false, if_true]
        have hwrap : '[' :: (Packet.int b).render ++ [']'] =
            (Packet.list [Packet.int b]).render := by
          simp [Packet.render, render_items]
        rw [hwrap, Packet.order]
        apply compare_list_list f2 as [Packet.int b] hwp
          (by simp only [well_formed_items, Bool.and_true]; exact hwq)
        intro a ha x hx
        simp only [List.mem_singleton] at hx
        subst hx
        have := nodes_lt_of_mem as a ha
        exact ih (3 * (a.nodes + (Packet.int b).nodes) + 4)
          (by simp only [Packet.nodes]; omega) a (Packet.int b)
          (well_formed_of_mem as a ha hwp) hwq (fits_int_of_mem as a ha hfp) hfq (le_refl _) f2
          (by simp only [Packet.nodes]; omega)
      | list bs =>
        simp only [Packet.well_formed] at hwq
        simp only [Packet.fits_int] at hfq
        simp only [Packet.nodes] at hn
        rw [Packet.order]
        apply compare_list_list (f2 + 1) as bs hwp hwq
        intro a ha b hb
        have := nodes_lt_of_mem as a ha
        have := nodes_lt_of_mem bs b hb
        exact ih (3 * (a.nodes + b.nodes) + 4) (by omega) a b
          (well_formed_of_mem as a ha hwp) (well_formed_of_mem bs b hb hwq)
          (fits_int_of_mem as a ha hfp) (fits_int_of_mem bs b hb hfq) (le_refl _) (f2 + 1)
          (by omega)

mutual
theorem nodes_le_render : ∀ p : Packet, p.well_formed = true → p.nodes ≤ p.render.length
  | .int digits, hwf => by
    simp only [Packet.well_formed, Bool.and_eq_true] at hwf
    simp only [Packet.nodes, Packet.render]
    cases digits with
    | nil => simp at hwf
    | cons d ds => simp
  | .list items, hwf => by
    simp only [Packet.well_formed] at hwf
    have := nodes_of_le_render items hwf
    simp only [Packet.nodes, Packet.render, List.length_cons, List.length_append,
      List.length_nil]
    omega
theorem nodes_of_le_render : ∀ items : List Packet, well_formed_items items = true →
    nodes_of items ≤ (render_items items).length + 1
  | [], _ => by simp [nodes_of]
  | [p], hwf => by
    simp only [well_formed_items, Bool.and_true] at hwf
    have := nodes_le_render p hwf
    rw [render_items_singleton]
    simp only [nodes_of]
    omega
  | p :: q :: rest, hwf => by
    simp only [well_formed_items, Bool.and_eq_true] at hwf
    have hwf' : well_formed_items (q :: rest) = true := by
      simp only [well_formed_items, Bool.and_eq_true]
      exact hwf.2
    have h1 := nodes_le_render p hwf.1
    have h2 := nodes_of_le_render (q :: rest) hwf'
    rw [render_items_cons_cons]
    simp only [nodes_of, List.length_append, List.length_cons] at h2 ⊢
    omega
end

/-- C15, the code at a concrete pair of packets: `[2147483648]` and `[0]` are well-formed
packets, and `compare_packets` converts their integers with `std::stoi`, which throws
`std::out_of_range` for a number above `INT_MAX`; no comparison result is returned. -/
theorem compare_packets_large_integer :
    (Packet.list [.int "2147483648".toList]).render = "[2147483648]".toList ∧
    (Packet.list [.int "2147483648".toList]).well_formed = true ∧
    (Packet.list [.int "0".toList]).render = "[0]".toList ∧
    (Packet.list [.int "0".toList]).well_formed = true ∧
    compare_packets "[2147483648]".toList "[0]".toList = .error .out_of_range := by
  decide

/-- C15 as amended: for all well-formed packets `left` and `right` whose integers are at
most `INT_MAX = 2147483647`, `compare_packets(left, right)` returns `LESSER`, `EQUAL` or
`GREATER` according to the recursive order: two integers compare numerically; two lists
compare element by element from the left, the first non-equal element deciding, and a list
that is a proper prefix of the other is the lesser; an integer compared with a list is
first wrapped into a one-element list. -/
theorem compare_packets_spec (left right : Packet) (hwl : left.well_formed = true)
    (hwr : right.well_formed = true) (hfl : left.fits_int = true)
    (hfr : right.fits_int = true) :
    compare_packets left.render right.render = .ok (Packet.order left right) := by
  unfold compare_packets
  have h1 := nodes_le_render left hwl
  have h2 := nodes_le_render right hwr
  exact compare_packets_fuel_spec (3 * (left.nodes + right.nodes) + 4) left right hwl hwr
    hfl hfr (le_refl _) _ (by omega)

theorem order_example :
    Packet.order
      (Packet.list [.list [.int ['1']], .list [.int ['2'], .int ['3'], .int ['4']]])
      (Packet.list [.list [.int ['1']], .int ['4']]) = .LESSER := by
  simp [Packet.order, order_lists, digits_value]

/-- Instance of C15 as amended: `[[1],[2,3,4]]` against `[[1],4]`. -/
theorem compare_packets_spec_witness :
    compare_packets
      (Packet.list [.list [.int ['1']], .list [.int ['2'], .int ['3'], .int ['4']]]).render
      (Packet.list [.list [.int ['1']], .int ['4']]).render =
    .ok (Packet.order
      (Packet.list [.list [.int ['1']], .list [.int ['2'], .int ['3'], .int ['4']]])
      (Packet.list [.list [.int ['1']], .int ['4']])) :=
  compare_packets_spec _ _ (by decide) (by decide) (by decide) (by decide)

end Day13

namespace Day06

theorem dedup_length_iff (l : List Char) : l.dedup.length = l.length ↔ l.Nodup := by
  constructor
  · intro h
    have := (List.dedup_sublist l).eq_of_length h
    rw [← this]
    exact List.nodup_dedup l
  · intro h
    rw [h.dedup]

theorem enqueue_contents (q : Queue) (c : Char) (h1 : q.length < q.max_length)
    (h2 : q.array.length = q.max_length) :
    ∃ q', q.enqueue c = .ok q' ∧ q'.array.take q'.length = q.array.take q.length ++ [c] ∧
      q'.max_length = q.max_length ∧ q'.array.length = q.max_length ∧
      q'.length = q.length + 1 := by
  unfold Queue.enqueue Queue.is_full
  have h3 : ¬ q.length ≥ q.max_length := by omega
  have h4 : q.length < q.array.length := by omega
  simp only [h3, decide_False, Bool.false_eq_true, if_false, h4, if_true]
  refine ⟨_, rfl, ?_, rfl, by simp [h2], rfl⟩
  simp only
  rw [List.take_succ, List.set_take, List.set_eq_of_length_le (by simp)]
  simp [h4]

theorem dequeue_contents (q : Queue) (h1 : q.length = q.max_length)
    (h2 : q.array.length = q.max_length) (h0 : 1 ≤ q.max_length) :
    ∃ first q', q.dequeue = .ok (first, q') ∧
      q'.array.take q'.length = (q.array.take q.length).drop 1 ∧
      q'.max_length = q.max_length ∧ q'.array.length = q.max_length ∧
      q'.length = q.length - 1 := by
  unfold Queue.dequeue Queue.is_empty
  have h3 : ¬ q.length < q.max_length := by omega
  simp only [h3, decide_False, Bool.false_eq_true, if_false]
  cases ha : q.array with
  | nil => rw [ha] at h2; simp at h2; omega
  | cons a t =>
    rw [ha] at h2
    simp only [List.length_cons] at h2
    have h5 : 1 ≤ q.length ∧ q.length ≤ (a :: t).length := by
      simp only [List.length_cons]; omega
    simp only [List.getElem?_cons_zero, h5, and_self, if_true]
    refine ⟨a, _, rfl, ?_, rfl, ?_, rfl⟩
    · simp only [List.drop_succ_cons, List.drop_zero]
      rw [List.take_append_of_le_length (by simp; omega)]
      rw [List.take_take, min_self]
      obtain ⟨k, hk⟩ : ∃ k, q.length = k + 1 := ⟨q.length - 1, by omega⟩
      rw [hk]
      simp
    · simp only [List.drop_succ_cons, List.drop_zero, List.length_append, List.length_take,
        List.length_drop, List.length_cons]
      omega

theorem make_room (w : Nat) (hw : 1 ≤ w) (pre : List Char) (buffer : Queue)
    (hmax : buffer.max_length = w) (harr : buffer.array.length = w)
    (hlen : buffer.length = min pre.length w)
    (hcont : buffer.array.take buffer.length = pre.drop (pre.length - w)) :
    ∃ b1, (if buffer.is_full then
             (match buffer.dequeue with
             | .error e => .error e
             | .ok (_, buffer) => .ok buffer : Except Thrown Queue)
           else Except.ok buffer) = .ok b1 ∧ b1.max_length = w ∧ b1.array.length = w ∧
           b1.length = min pre.length (w - 1) ∧
           b1.array.take b1.length = pre.drop (pre.length - (w - 1)) := by
  by_cases hfull : buffer.is_full = true
  · have hge : buffer.length ≥ buffer.max_length := by
      simpa [Queue.is_full] using hfull
    have hlw : buffer.length = w := by omega
    obtain ⟨first, q', hq1, hq2, hq3, hq4, hq5⟩ :=
      dequeue_contents buffer (by omega) (by omega) (by omega)
    refine ⟨q', ?_, by omega, by omega, by omega, ?_⟩
    · rw [if_pos hfull, hq1]
    · rw [hq2, hcont, List.drop_drop]
      congr 1
      omega
  · have hlt' : ¬ buffer.length ≥ buffer.max_length := by
      simpa [Queue.is_full] using hfull
    refine ⟨buffer, by rw [if_neg hfull], hmax, harr, by omega, ?_⟩
    rw [hcont]
    congr 1
    omega

theorem scan_step_buffer (w : Nat) (hw : 1 ≤ w) (pre : List Char) (c : Char) (buffer : Queue)
    (hmax : buffer.max_length = w) (harr : buffer.array.length = w)
    (hlen : buffer.length = min pre.length w)
    (hcont : buffer.array.take buffer.length = pre.drop (pre.length - w)) :
    ∃ b1 b2, (if buffer.is_full then
             (match buffer.dequeue with
             | .error e => .error e
             | .ok (_, buffer) => .ok buffer : Except Thrown Queue)
           else Except.ok buffer) = .ok b1 ∧ b1.enqueue c = .ok b2 ∧
           b2.max_length = w ∧ b2.array.length = w ∧
           b2.length = min (pre ++ [c]).length w ∧
           b2.array.take b2.length = (pre ++ [c]).drop ((pre ++ [c]).length - w) := by
  obtain ⟨b1, hb1, hb1max, hb1arr, hb1len, hb1cont⟩ :=
    make_room w hw pre buffer hmax harr hlen hcont
  obtain ⟨b2, hb2, hb2cont, hb2max, hb2arr, hb2len⟩ :=
    enqueue_contents b1 c (by omega) (by omega)
  rw [hb1max] at hb2max hb2arr
  have hpre' : (pre ++ [c]).length = pre.length + 1 := by simp
  refine ⟨b1, b2, hb1, hb2, hb2max, hb2arr, by rw [hpre']; omega, ?_⟩
  rw [hb2cont, hb1cont, hpre']
  rw [List.drop_append_of_le_length (by omega)]
  congr 2
  omega

theorem distinct_count_eq_iff (w : Nat) (b2 : Queue) (hlen : b2.length = w)
    (harr : b2.array.length = w) :
    ((distinct_count b2 : Nat) : Int) = (w : Int) ↔ (b2.array.take b2.length).Nodup := by
  unfold distinct_count Queue.get_length
  rw [← dedup_length_iff]
  have : (b2.array.take b2.length).length = w := by
    rw [List.length_take]; omega
  rw [this]
  exact Int.ofNat_inj

theorem is_marker_at_prefix (w : Nat) (pre rest : List Char) (window : List Char)
    (hwin : window = pre.drop (pre.length - w)) :
    is_marker (pre ++ rest) w pre.length ↔ w ≤ pre.length ∧ window.Nodup := by
  unfold is_marker
  rw [hwin, List.take_left' rfl]
  simp only [List.length_append]
  constructor
  · rintro ⟨h1, -, h3⟩; exact ⟨h1, h3⟩
  · rintro ⟨h1, h3⟩; exact ⟨h1, by omega, h3⟩

theorem scan_loop_spec (w : Nat) (hw : 1 ≤ w) (n : Nat) (hn32 : n < 2 ^ 32) :
    ∀ (rest pre : List Char) (buffer : Queue),
      buffer.max_length = w → buffer.array.length = w → buffer.length = min pre.length w →
      buffer.array.take buffer.length = pre.drop (pre.length - w) →
      pre.length < n → is_marker (pre ++ rest) w n →
      (∀ m, m < n → ¬ is_marker (pre ++ rest) w m) →
      scan_loop (w : Int) rest pre.length buffer = .ok n := by
  intro rest
  induction rest with
  | nil =>
    intro pre buffer _ _ _ _ hlt hm _
    have := hm.2.1
    simp at this
    omega
  | cons c rest ih =>
    intro pre buffer hmax harr hlen hcont hlt hm hleast
    have hidx : (pre.length + 1) % 2 ^ 32 = pre.length + 1 := Nat.mod_eq_of_lt (by omega)
    obtain ⟨b1, b2, hb1, hb2, hb2max, hb2arr, hb2len, hb2cont⟩ :=
      scan_step_buffer w hw pre c buffer hmax harr hlen hcont
    clear hlen hcont hmax harr hn32
    have hsplit : pre ++ c :: rest = (pre ++ [c]) ++ rest := by simp
    have hpre' : (pre ++ [c]).length = pre.length + 1 := by simp
    rw [hsplit] at hm hleast
    have hmark := is_marker_at_prefix w (pre ++ [c]) rest _ hb2cont
    have hrec : pre.length + 1 < n →
        scan_loop (w : Int) rest (pre.length + 1) b2 = .ok n := by
      intro hlt2
      rw [← hpre']
      exact ih (pre ++ [c]) b2 hb2max hb2arr hb2len hb2cont (by rw [hpre']; exact hlt2) hm hleast
    unfold scan_loop
    simp only [hidx]
    rw [hb1]
    simp only
    rw [hb2]
    simp only
    by_cases hfull : b2.is_full = true
    · have hge : b2.length ≥ b2.max_length := by simpa [Queue.is_full] using hfull
      rw [if_pos hfull]
      have hwle : w ≤ (pre ++ [c]).length := by
        rw [hb2max, hb2len] at hge
        exact le_trans hge (Nat.min_le_left _ _)
      have hb2w : b2.length = w := by rw [hb2len]; exact Nat.min_eq_right hwle
      have hcount := distinct_count_eq_iff w b2 hb2w hb2arr
      by_cases hnd : (b2.array.take b2.length).Nodup
      · rw [if_pos (hcount.mpr hnd)]
        have hm' := hmark.mpr ⟨hwle, hnd⟩
        have : n = pre.length + 1 := by
          by_contra hne
          exact hleast (pre ++ [c]).length (by rw [hpre']; omega) hm'
        rw [this]
      · rw [if_neg (fun h => hnd (hcount.mp h))]
        apply hrec
        have hne : n ≠ pre.length + 1 := by
          intro heq
          rw [heq, ← hpre'] at hm
          exact hnd (hmark.mp hm).2
        omega
    · have hlt' : ¬ b2.length ≥ b2.max_length := by simpa [Queue.is_full] using hfull
      rw [if_neg hfull]
      apply hrec
      have hne : n ≠ pre.length + 1 := by
        intro heq
        rw [heq, ← hpre'] at hm
        have h1 := (hmark.mp hm).1
        rw [hb2max, hb2len] at hlt'
        exact hlt' (le_of_eq (Nat.min_eq_right h1).symm)
      omega

/-- C22 (as stated it fails): the count is taken over the characters that the extraction
`file_handle >> current_char` delivers, and that extraction skips white space. In the file
`abc` followed by a line feed the four characters are pairwise distinct, so the first
window of size 4 is complete at the fourth character, but the function returns 3. In the
file `ab cabcd` the first window of four pairwise distinct characters (`a`, `b`, space,
`c`) is complete at the fourth character and the function returns 7. With `window_size`
equal to 0, on a file that is not empty, `dequeue` reads `array[0]` of an array without
slots. -/
theorem find_first_start_of_packet_skips_white_space :
    is_marker ['a', 'b', 'c', Char.ofNat 10] 4 4 ∧
    (∀ m, m < 4 → ¬ is_marker ['a', 'b', 'c', Char.ofNat 10] 4 m) ∧
    find_first_start_of_packet_from_file ['a', 'b', 'c', Char.ofNat 10] 4 = .ok 3 ∧
    is_marker "ab cabcd".toList 4 4 ∧
    (∀ m, m < 4 → ¬ is_marker "ab cabcd".toList 4 m) ∧
    find_first_start_of_packet_from_file "ab cabcd".toList 4 = .ok 7 ∧
    find_first_start_of_packet_from_file "a".toList 0 = .error .undefined := by
  decide

/-- C22 (amended): let the stream be the characters of the file that are not white space,
in order, and let `window_size` be at least 1. If the `window_size` characters that end
with the `n`-th character of the stream are pairwise distinct, no earlier position has that
property, and `n` fits the `unsigned int` counter, then
`find_first_start_of_packet_from_file` returns `n`. -/
theorem find_first_start_of_packet_spec (contents : List Char) (window_size n : Nat)
    (hw : 1 ≤ window_size) (hn : n < 2 ^ 32)
    (hmark : is_marker (extracted contents) window_size n)
    (hleast : ∀ m, m < n → ¬ is_marker (extracted contents) window_size m) :
    find_first_start_of_packet_from_file contents (window_size : Int) = .ok n := by
  unfold find_first_start_of_packet_from_file
  have h0 : ¬ ((window_size : Int) < 0) := by omega
  rw [if_neg h0, Int.toNat_ofNat]
  have hpos : 0 < n := by have := hmark.1; omega
  exact scan_loop_spec window_size hw n hn (extracted contents) [] (Queue.make window_size)
    rfl (by simp [Queue.make]) (by simp [Queue.make]) (by simp [Queue.make]) hpos
    (by simpa using hmark) (by simpa using hleast)

/-- Instance of C22 (amended): the first example of the puzzle, followed by a line feed. -/
theorem find_first_start_of_packet_spec_witness :
    find_first_start_of_packet_from_file
      ("mjqjpqmgbljsphdztnvjfqwrcgsmlb".toList ++ [Char.ofNat 10]) ((4 : Nat) : Int) = .ok 7 :=
  find_first_start_of_packet_spec _ 4 7 (by decide) (by decide) (by decide) (by decide)

/-- C23 (the code departs from it): `is_empty` returns `length < max_length`, which says
that the queue is not full. A `Queue(4)` that holds the one element `a` reports that it is
empty and `dequeue` raises the underflow error instead of returning `a`; a `Queue(0)`, which
holds no element, reports that it is not empty, and `dequeue` reads `array[0]` of an array
without slots. -/
theorem is_empty_tests_not_full :
    (Queue.make 4).enqueue 'a' = .ok one_element ∧
    one_element.get_length = 1 ∧ one_element.is_empty = true ∧
    one_element.dequeue = .error .underflow_error ∧
    (Queue.make 0).get_length = 0 ∧ (Queue.make 0).is_empty = false ∧
    (Queue.make 0).dequeue = .error .undefined := by
  decide

end Day06

namespace Day08

/-- C21 (the code departs from it): `compute_visibility_mask_horizontal_edge` takes the
number of columns as the bound of the row index in its first loop (`grid[i]` for
`i < mask_columns`) and gives `tallest_tree_lengths`, which it indexes by the row, one slot
per column. On the example grid of the puzzle, which is square, the count is the 21 of the
statement. On one row of two trees the first loop reads the row `grid[1]` that does not
exist; on two rows of one tree the nested loops use `tallest_tree_lengths[1]` of a vector
with one slot. Both grids have 2 visible cells (every cell is on the border) and on both
the function has undefined behaviour and returns no count. -/
theorem count_visible_trees_not_square :
    example_grid.rectangular = true ∧ example_grid.visible_count = 21 ∧
    example_grid.count_visible_trees = .ok 21 ∧
    wide_grid.rectangular = true ∧ wide_grid.visible_count = 2 ∧
    wide_grid.compute_visibility_mask_left_edge = .error .undefined ∧
    wide_grid.count_visible_trees = .error .undefined ∧
    tall_grid.rectangular = true ∧ tall_grid.visible_count = 2 ∧
    tall_grid.compute_visibility_mask_left_edge = .error .undefined ∧
    tall_grid.count_visible_trees = .error .undefined := by
  decide

end Day08
